import Mathlib

/-!
# Myrient downloader: a verification development

Shallow embedding of the download engine (`internal/download/manager.go`), the archive
extractor (`internal/util/unzip.go`), the directory-index scraper
(`internal/scraper/httpindex.go`), the system-path classifier (`internal/util/system.go`)
and the bulk scheduler (`internal/ui/app.go`).

Conventions.
* A Go `string` is modelled as the list of its Unicode code points (`GoString`); every
  separator the code looks for is ASCII, so byte-level and rune-level scanning agree.
* A Go `error` is modelled by its message; `nil` is `none`.
* Go `int` / `int64` values are integers, and an increment wraps modulo `2^64`.
* Paths follow the Unix flavour of `path/filepath` (separator `/`, no volume names).
-/

namespace Myrient

/-- A Go string, as the list of its code points. -/
abbrev GoString := List Char

/-- A Go `error` value that is not `nil`, represented by its message. -/
abbrev GoError := GoString

/-- Two's-complement wrap of an integer into the `int64` range. -/
def wrapInt64 (x : Int) : Int := (x + 2 ^ 63) % 2 ^ 64 - 2 ^ 63

/-! ## `DownloadFileWithRetry` (manager.go, lines 59-75) -/

section Retry

variable {W : Type}

/-- The loop `for i := 1; i <= attempts; i++ { ... }` of `DownloadFileWithRetry`.
`op` is one call of `m.DownloadFile(urlStr, targetDir, cb)` acting on the world `W`;
`logRetry i attempts` is the effect of `m.console.Log("Retry i/attempts for url")` (the
identity when `m.console` is `nil`).  One unit of fuel is spent per evaluation of the loop
condition; `none` means the fuel ran out. -/
def retryLoop (op : W → Option GoError × W) (logRetry : Int → Int → W → W) (attempts : Int) :
    Nat → Int → Option GoError → W → Option (Option GoError × W)
  | 0, _, _, _ => none
  | fuel + 1, i, lastErr, w =>
    if i ≤ attempts then
      let w1 := if 1 < i then logRetry i attempts w else w
      match op w1 with
      | (none, w2) => some (none, w2)
      | (some e, w2) => retryLoop op logRetry attempts fuel (wrapInt64 (i + 1)) (some e) w2
    else some (lastErr, w)

/-- Go `Manager.DownloadFileWithRetry`: clamp `attempts` to at least one, then run the loop. -/
def DownloadFileWithRetry (op : W → Option GoError × W) (logRetry : Int → Int → W → W)
    (attempts : Int) (fuel : Nat) (w : W) : Option (Option GoError × W) :=
  let attempts := if attempts < 1 then 1 else attempts
  retryLoop op logRetry attempts fuel 1 none w

/-- Reference semantics of "run the operation `k` times in a row": the outcome and the world
after attempt number `k` (counted from 1), every earlier attempt having run before it.  Each
step applies `op` exactly once, so `attemptRun k` stands for exactly `k` underlying attempts. -/
def attemptRun (op : W → Option GoError × W) (logRetry : Int → Int → W → W) (attempts : Int) :
    Nat → W → Option GoError × W
  | 0, w => (none, w)
  | k + 1, w =>
    let s := (attemptRun op logRetry attempts k w).2
    op (if 1 < ((k + 1 : Nat) : Int) then logRetry ((k + 1 : Nat) : Int) attempts s else s)

end Retry

/-! ## Go `strings` helpers used by the sources -/

/-- Bytes of a file or of a network chunk. -/
abbrev Bytes := List Nat

/-- Go `strings.HasPrefix`. -/
def HasPrefix (s pre : GoString) : Bool := pre.isPrefixOf s

/-- Go `strings.HasSuffix`. -/
def HasSuffix (s suf : GoString) : Bool := suf.isSuffixOf s

/-- Go `strings.TrimPrefix`. -/
def TrimPrefix (s pre : GoString) : GoString :=
  if HasPrefix s pre then s.drop pre.length else s

/-- Go `strings.TrimLeft(s, "/")`. -/
def trimLeftSlash (s : GoString) : GoString := s.dropWhile (· == '/')

/-- Go `strings.TrimRight(s, "/")`. -/
def trimRightSlash (s : GoString) : GoString := (s.reverse.dropWhile (· == '/')).reverse

/-- Go `strings.Trim(s, "/")`. -/
def trimSlash (s : GoString) : GoString := trimRightSlash (trimLeftSlash s)

/-- Go `strings.Split(s, "/")`: the elements between separators, never an empty list. -/
def splitSlash : GoString → List GoString
  | [] => [[]]
  | c :: cs =>
    if c = '/' then [] :: splitSlash cs
    else
      match splitSlash cs with
      | [] => [[c]]
      | h :: t => (c :: h) :: t

/-- Go `strings.Join(elems, "/")`. -/
def joinSlash : List GoString → GoString
  | [] => []
  | [e] => e
  | e :: es => e ++ '/' :: joinSlash es

/-- Go `unicode.IsSpace`: the Unicode White_Space code points. -/
def isSpace (c : Char) : Bool :=
  c = '\t' ∨ c = '\n' ∨ c.toNat = 0x0B ∨ c.toNat = 0x0C ∨ c = '\r' ∨ c = ' ' ∨
  c.toNat = 0x85 ∨ c.toNat = 0xA0 ∨ c.toNat = 0x1680 ∨
  (0x2000 ≤ c.toNat ∧ c.toNat ≤ 0x200A) ∨ c.toNat = 0x2028 ∨ c.toNat = 0x2029 ∨
  c.toNat = 0x202F ∨ c.toNat = 0x205F ∨ c.toNat = 0x3000

/-- Go `strings.TrimSpace`. -/
def TrimSpace (s : GoString) : GoString :=
  ((s.dropWhile isSpace).reverse.dropWhile isSpace).reverse

/-- Go `unicode.ToLower` as far as the suffix test of `maybeUnzip` can observe it: ASCII capitals
are lowered, and so are the two code points outside ASCII whose lower case is an ASCII letter
(U+0130 to `i`, U+212A to `k`).  Every other code point lowers to a non-ASCII one and is
left in place, which cannot change a comparison against `".zip"`. -/
def toLowerRune (c : Char) : Char :=
  if 'A'.toNat ≤ c.toNat ∧ c.toNat ≤ 'Z'.toNat then Char.ofNat (c.toNat + 32)
  else if c.toNat = 0x130 then 'i'
  else if c.toNat = 0x212A then 'k'
  else c

/-- Go `strings.ToLower` (see `toLowerRune`). -/
def ToLower (s : GoString) : GoString := s.map toLowerRune

/-! ## `path/filepath` (Unix) -/

/-- The element-wise core of `filepath.Clean`: empty and `.` elements are dropped, a `..`
removes the element before it, is dropped at the root of a rooted path, and is kept at the
start of a relative one.  `stack` is the output so far, last element first. -/
def cleanElems (rooted : Bool) : List GoString → List GoString → List GoString
  | stack, [] => stack.reverse
  | stack, e :: es =>
    if e = [] ∨ e = ['.'] then cleanElems rooted stack es
    else if e = ['.', '.'] then
      match stack with
      | [] => if rooted then cleanElems rooted [] es else cleanElems rooted [e] es
      | top :: rest =>
        if top = ['.', '.'] then cleanElems rooted (e :: stack) es
        else cleanElems rooted rest es
    else cleanElems rooted (e :: stack) es

/-- Go `filepath.Clean`: the shortest equivalent path by purely lexical processing. -/
def Clean (path : GoString) : GoString :=
  if path = [] then ['.']
  else
    let rooted := path.head? = some '/'
    let elems := cleanElems rooted [] (splitSlash path)
    if rooted then '/' :: joinSlash elems
    else if elems = [] then ['.'] else joinSlash elems

/-- Go `filepath.Join`: leading empty elements are ignored, the rest is joined with `/` and
cleaned; the result is empty only when every element is. -/
def Join (elem : List GoString) : GoString :=
  match elem.dropWhile (· = []) with
  | [] => []
  | es => Clean (joinSlash es)

/-- Go `filepath.Dir`: everything up to and including the last separator, cleaned. -/
def Dir (path : GoString) : GoString :=
  Clean (path.reverse.dropWhile (· ≠ '/')).reverse

/-- Go `filepath.Base`: the last element of the path, after trailing separators are removed;
`.` for the empty path and `/` for a path of separators only. -/
def Base (path : GoString) : GoString :=
  if path = [] then ['.']
  else
    let p := trimRightSlash path
    let last := (p.reverse.takeWhile (· ≠ '/')).reverse
    if last = [] then ['/'] else last

/-! ## The filesystem

A symlink-free POSIX tree.  A location is the list of names from the root; a path string is
resolved component by component the way the kernel does it, so that every component that is
walked through has to be an existing directory. -/

/-- A location: the names leading from the root to a node. -/
abbrev Loc := List GoString

/-- A node of the tree.  A directory carries the size `Stat` reports for it. -/
inductive Node where
  | dir (size : Nat)
  | file (data : Bytes)
  deriving DecidableEq, Repr

/-- The four kinds of mutation the sources perform. -/
inductive FsOp where
  | mkdir | create | write | remove
  deriving DecidableEq, Repr

/-- Filesystem state.  `deny op loc` makes the mutation `op` at `loc` fail (permissions,
read-only or full device); it is the only source of failure besides the tree's shape. -/
structure FS where
  node : Loc → Option Node
  cwd : Loc
  deny : FsOp → Loc → Bool
  newDirSize : Nat

/-- Message of an `error` value. -/
def msg (s : String) : GoError := s.toList

/-- What `os.Stat` reports of a node. -/
def Node.size : Node → Nat
  | .dir n => n
  | .file d => d.length

/-- Whether a node is a directory. -/
def Node.isDir : Node → Bool
  | .dir _ => true
  | .file _ => false

/-- Replace (or delete, with `none`) the node at one location. -/
def FS.set (fs : FS) (loc : Loc) (n : Option Node) : FS :=
  { fs with node := fun l => if l = loc then n else fs.node l }

/-- Whether `loc` is an existing directory. -/
def FS.isDirAt (fs : FS) (loc : Loc) : Bool :=
  match fs.node loc with
  | some (.dir _) => true
  | _ => false

/-- One step of path resolution from the directory `cur`. -/
def stepLoc (cur : Loc) (c : GoString) : Loc :=
  if c = [] ∨ c = ['.'] then cur
  else if c = ['.', '.'] then cur.dropLast
  else cur ++ [c]

/-- Kernel path walk: follow the components from `cur`; a component can only be looked up in
an existing directory.  The node reached at the end need not exist. -/
def FS.walk (fs : FS) : Loc → List GoString → Option Loc
  | cur, [] => some cur
  | cur, c :: cs => if fs.isDirAt cur then fs.walk (stepLoc cur c) cs else none

/-- Where path resolution starts: the root for an absolute path, else the working directory. -/
def FS.start (fs : FS) (path : GoString) : Loc :=
  if path.head? = some '/' then [] else fs.cwd

/-- The location a path string denotes, if its parent chain resolves; the empty path denotes
nothing (`ENOENT`). -/
def FS.locate (fs : FS) (path : GoString) : Option Loc :=
  if path = [] then none else fs.walk (fs.start path) (splitSlash path)

/-- Go `os.Stat`: the node a path resolves to. -/
def FS.Stat (fs : FS) (path : GoString) : Option Node :=
  match fs.locate path with
  | some loc => fs.node loc
  | none => none

/-- The walk of `os.MkdirAll`: like `FS.walk`, but a missing directory is created on the way.
Returns the error, if any, and the filesystem with the directories made so far. -/
def mkdirWalk : List GoString → FS → Loc → Option GoError × FS
  | [], fs, _ => (none, fs)
  | c :: cs, fs, cur =>
    match fs.node (stepLoc cur c) with
    | some (.dir _) => mkdirWalk cs fs (stepLoc cur c)
    | some (.file _) => (some (msg "not a directory"), fs)
    | none =>
      if fs.deny .mkdir (stepLoc cur c) then (some (msg "permission denied"), fs)
      else mkdirWalk cs (fs.set (stepLoc cur c) (some (.dir fs.newDirSize))) (stepLoc cur c)

/-- Go `os.MkdirAll(path, perm)`: make the directory and every missing parent; nothing happens
when it is already a directory, and the empty path is an error. -/
def FS.MkdirAll (fs : FS) (path : GoString) : Option GoError × FS :=
  if path = [] then (some (msg "no such file or directory"), fs)
  else mkdirWalk (splitSlash path) fs (fs.start path)

/-- Go `os.OpenFile(path, O_CREATE|O_WRONLY|O_TRUNC, perm)` and `os.Create(path)`: the file is
created empty, or truncated when it exists.  The handle is the location of the file. -/
def FS.OpenFile (fs : FS) (path : GoString) : Except GoError Loc × FS :=
  match fs.locate path with
  | none => (.error (msg "no such file or directory"), fs)
  | some loc =>
    match fs.node loc with
    | some (.dir _) => (.error (msg "is a directory"), fs)
    | some (.file _) =>
      if fs.deny .write loc then (.error (msg "permission denied"), fs)
      else (.ok loc, fs.set loc (some (.file [])))
    | none =>
      if fs.deny .create loc then (.error (msg "permission denied"), fs)
      else (.ok loc, fs.set loc (some (.file [])))

/-- Go `(*os.File).Write(chunk)` on an open handle: the chunk is appended.  A failed write is
taken to have written nothing. -/
def FS.Write (fs : FS) (h : Loc) (chunk : Bytes) : Option GoError × FS :=
  match fs.node h with
  | some (.file d) =>
    if fs.deny .write h then (some (msg "write failed"), fs)
    else (none, fs.set h (some (.file (d ++ chunk))))
  | _ => (some (msg "bad file descriptor"), fs)

/-- Go `os.Remove(path)` of a regular file.  The sources only ever remove an archive they have
just read as a regular file, so the directory case is refused rather than modelled. -/
def FS.Remove (fs : FS) (path : GoString) : Option GoError × FS :=
  match fs.locate path with
  | none => (some (msg "no such file or directory"), fs)
  | some loc =>
    match fs.node loc with
    | some (.file _) =>
      if fs.deny .remove loc then (some (msg "permission denied"), fs)
      else (none, fs.set loc none)
    | some (.dir _) => (some (msg "directory not removed"), fs)
    | none => (some (msg "no such file or directory"), fs)

/-- Well-formed tree: the root and the working directory are directories, and the parent of
every node is a directory. -/
structure FS.WF (fs : FS) : Prop where
  root : fs.isDirAt [] = true
  cwd : fs.isDirAt fs.cwd = true
  parent : ∀ (l : Loc) (c : GoString), fs.node (l ++ [c]) ≠ none → fs.isDirAt l = true

/-! ## `UnzipZipFileInPlace` (unzip.go) -/

/-- One entry `f` of `r.File`, as `archive/zip` presents it. -/
structure ZipFile where
  /-- The stored name `f.Name`. -/
  Name : GoString
  /-- The directory bit of the stored mode. -/
  dirMode : Bool
  /-- The error with which `f.Open()` fails, if it does. -/
  openErr : Option GoError
  /-- The content `io.Copy` reads from the entry. -/
  data : Bytes
  /-- Reading the content fails with this error after that many bytes (checksum, truncation). -/
  copyErr : Option (Nat × GoError)
  deriving DecidableEq, Repr

/-- Go `f.FileInfo().IsDir()`: `archive/zip` sets the directory bit of every entry whose name
ends in a slash, whatever its stored mode. -/
def ZipFile.IsDir (f : ZipFile) : Bool := f.dirMode || HasSuffix f.Name ['/']

/-- Go `zip.OpenReader(zipPath)`: the file is read and decoded by `parseZip`, the decoder of the
archive format, into its entries in central-directory order. -/
def openZip (parseZip : Bytes → Option (List ZipFile)) (fs : FS) (zipPath : GoString) :
    Except GoError (List ZipFile) :=
  match fs.Stat zipPath with
  | some (.file data) =>
    match parseZip data with
    | some files => .ok files
    | none => .error (msg "zip: not a valid zip file")
  | some (.dir _) => .error (msg "is a directory")
  | none => .error (msg "no such file or directory")

/-- Go `io.Copy(outFile, rc)`: the readable part of the entry is written to the handle; nothing
is written when there is nothing to read. -/
def copyEntry (fs : FS) (h : Loc) (f : ZipFile) : Option GoError × FS :=
  match f.copyErr with
  | none => if f.data = [] then (none, fs) else fs.Write h f.data
  | some (n, e) =>
    if f.data.take n = [] then (some e, fs)
    else
      match fs.Write h (f.data.take n) with
      | (some we, fs1) => (some we, fs1)
      | (none, fs1) => (some e, fs1)

/-- The body of `for _, f := range r.File` for one entry that is not skipped; `none` means
the loop goes on to the next entry. -/
def extractEntry (dir : GoString) (f : ZipFile) (fs : FS) : Option GoError × FS :=
  let outPath := Join [dir, Clean f.Name]
  if f.IsDir then
    match fs.MkdirAll outPath with
    | (some e, fs1) => (some (msg "mkdir " ++ outPath ++ msg ": " ++ e), fs1)
    | (none, fs1) => (none, fs1)
  else
    match fs.MkdirAll (Dir outPath) with
    | (some e, fs1) => (some (msg "mkdir " ++ Dir outPath ++ msg ": " ++ e), fs1)
    | (none, fs1) =>
      match f.openErr with
      | some e => (some (msg "open entry " ++ f.Name ++ msg ": " ++ e), fs1)
      | none =>
        match fs1.OpenFile outPath with
        | (.error e, fs2) => (some (msg "create " ++ outPath ++ msg ": " ++ e), fs2)
        | (.ok h, fs2) => copyEntry fs2 h f

/-- The loop `for _, f := range r.File { ... }`: an entry whose cleaned name starts with `..`
is passed over, the first error ends the loop. -/
def extractAll (dir : GoString) : List ZipFile → FS → Option GoError × FS
  | [], fs => (none, fs)
  | f :: rest, fs =>
    if HasPrefix (Clean f.Name) ['.', '.'] then extractAll dir rest fs
    else
      match extractEntry dir f fs with
      | (some e, fs1) => (some e, fs1)
      | (none, fs1) => extractAll dir rest fs1

/-- Go `UnzipZipFileInPlace(zipPath)`: returns the pair `(string, error)` and the filesystem. -/
def UnzipZipFileInPlace (parseZip : Bytes → Option (List ZipFile)) (fs : FS)
    (zipPath : GoString) : (GoString × Option GoError) × FS :=
  let dir := Dir zipPath
  match openZip parseZip fs zipPath with
  | .error e => (([], some (msg "open zip: " ++ e)), fs)
  | .ok files =>
    match extractAll dir files fs with
    | (some e, fs1) => (([], some e), fs1)
    | (none, fs1) =>
      match fs1.Remove zipPath with
      | (some e, fs2) => ((dir, some (msg "remove zip " ++ zipPath ++ msg ": " ++ e)), fs2)
      | (none, fs2) => ((dir, none), fs2)

/-! ## `Manager.DownloadFile` (manager.go) -/

/-- The `Progress` snapshot handed to the callback. -/
structure Progress where
  BytesDone : Int
  BytesTotal : Int
  CurrentFile : GoString
  ETA : GoString
  Done : Bool
  Err : Option GoError
  deriving DecidableEq, Repr

/-- What the console is asked to print; the text of a line is not modelled. -/
inductive LogLine where
  | skipping (dstPath : GoString)
  | downloading (url dstPath : GoString)
  | downloaded (filename : GoString) (bytes : Int)
  | extracting (dstPath : GoString)
  | extractError (dstPath : GoString) (e : GoError)
  | extracted (outDir : GoString)
  | retry (i attempts : Int) (url : GoString)
  | error (e : GoError)
  | complete
  deriving DecidableEq, Repr

/-- The observable actions of a call, in the order they happen. -/
inductive Event where
  /-- The call `cb(p)`. -/
  | progress (p : Progress)
  /-- The call `m.client.Get(url)`. -/
  | httpGet (url : GoString)
  /-- A call on `m.console` (absent from the trace when the console is `nil`). -/
  | log (l : LogLine)
  deriving DecidableEq, Repr

/-- How the response body ends: `io.EOF`, or a read error. -/
inductive BodyEnd where
  | eof
  | fail (e : GoError)
  deriving DecidableEq, Repr

/-- The results of the successive `resp.Body.Read(buf)` calls of one response: reads that
return `(len chunk, nil)`, then one last read that returns its chunk together with `io.EOF`
or an error.  A read may return no bytes. -/
structure Body where
  reads : List Bytes
  lastChunk : Bytes
  ending : BodyEnd
  deriving DecidableEq, Repr

/-- The outcome of `m.client.Get(url)`. -/
inductive HTTPResult where
  | transportError (e : GoError)
  | response (statusCode : Int) (status : GoString) (contentLength : Int) (body : Body)
  deriving DecidableEq, Repr

/-- Everything outside the program that a call depends on. -/
structure Env where
  /-- The `n`-th request made through `m.client` and its outcome. -/
  net : Nat → GoString → HTTPResult
  /-- The decoder of the archive format behind `zip.OpenReader`. -/
  parseZip : Bytes → Option (List ZipFile)
  /-- The clock-dependent text `util.CalculateETA` produces once a transfer is under way. -/
  clock : Int → Int → GoString
  /-- Whether `m.console` is not `nil`. -/
  console : Bool

/-- The state a call changes: the filesystem and the number of requests made so far. -/
structure World where
  fs : FS
  requests : Nat

/-- Console output: one event when there is a console, none otherwise. -/
def Env.say (env : Env) (l : LogLine) : List Event :=
  if env.console then [.log l] else []

/-- Go `util.CalculateETA(current, total, start)`: `"--"` unless a transfer with a known total is
under way, and a text that depends on the elapsed time otherwise. -/
def CalculateETA (env : Env) (current total : Int) : GoString :=
  if current = 0 ∨ total = 0 ∨ current ≥ total then msg "--" else env.clock current total

/-- Go `Manager.maybeUnzip(dstPath)`. -/
def maybeUnzip (env : Env) (fs : FS) (dstPath : GoString) : Option GoError × FS × List Event :=
  if !HasSuffix (ToLower dstPath) (msg ".zip") then (none, fs, [])
  else
    match UnzipZipFileInPlace env.parseZip fs dstPath with
    | ((_, some e), fs1) =>
      (some e, fs1, env.say (.extracting dstPath) ++ env.say (.extractError dstPath e))
    | ((outDir, none), fs1) =>
      (none, fs1, env.say (.extracting dstPath) ++ env.say (.extracted outDir))

/-- The streaming loop `for { n, rerr := resp.Body.Read(buf); ... }` over the reads that
return no error.  Returns the snapshot, the filesystem, the events, and the error that ended
the loop early (a failed write), if any. -/
def copyChunks (env : Env) (out : Loc) (total : Int) :
    List Bytes → Progress → FS → Progress × FS × List Event × Option GoError
  | [], p, fs => (p, fs, [], none)
  | chunk :: rest, p, fs =>
    if 0 < chunk.length then
      match fs.Write out chunk with
      | (some werr, fs1) =>
        let p1 := { p with Err := some werr }
        (p1, fs1, [.progress p1] ++ env.say (.error werr), some werr)
      | (none, fs1) =>
        let done := wrapInt64 (p.BytesDone + chunk.length)
        let p1 := { p with BytesDone := done, ETA := CalculateETA env done total }
        let (p2, fs2, evs, err) := copyChunks env out total rest p1 fs1
        (p2, fs2, .progress p1 :: evs, err)
    else copyChunks env out total rest p fs

/-- The file name `DownloadFile` derives from the URL (manager.go, lines 97-100). -/
def fileNameOf (urlStr : GoString) : GoString :=
  if Base urlStr = [] ∨ Base urlStr = ['/'] then msg "download.bin" else Base urlStr

/-- The destination path `DownloadFile` derives (manager.go, line 101). -/
def dstPathOf (urlStr targetDir : GoString) : GoString := Join [targetDir, fileNameOf urlStr]

/-- Go `Manager.DownloadFile(urlStr, targetDir, cb)`: the returned error, the world afterwards
and the trace of events.  A `nil` callback is the no-op sink, so the snapshots are listed in
the trace either way. -/
def DownloadFile (env : Env) (urlStr targetDir : GoString) (w : World) :
    Option GoError × World × List Event :=
  let p : Progress :=
    { BytesDone := 0, BytesTotal := 0, CurrentFile := urlStr, ETA := [], Done := false,
      Err := none }
  match w.fs.MkdirAll targetDir with
  | (some err, fs0) =>
    (some err, { w with fs := fs0 }, [.progress { p with Err := some err }] ++ env.say (.error err))
  | (none, fs0) =>
    let filename := fileNameOf urlStr
    let dstPath := dstPathOf urlStr targetDir
    match fs0.Stat dstPath with
    | some fi =>
      if 0 < fi.size then
        let p1 := { p with BytesTotal := fi.size, BytesDone := fi.size, Done := true }
        let (err, fs1, evs) := maybeUnzip env fs0 dstPath
        (err, { w with fs := fs1 }, env.say (.skipping dstPath) ++ [.progress p1] ++ evs)
      else downloadBody env urlStr filename dstPath p { w with fs := fs0 }
    | none => downloadBody env urlStr filename dstPath p { w with fs := fs0 }
where
  /-- The part of `DownloadFile` after the skip check (manager.go, lines 117-197). -/
  downloadBody (env : Env) (urlStr filename dstPath : GoString) (p : Progress) (w : World) :
      Option GoError × World × List Event :=
    let pre := env.say (.downloading urlStr dstPath) ++ [.httpGet urlStr]
    let w1 := { w with requests := w.requests + 1 }
    match env.net w.requests urlStr with
    | .transportError err =>
      (some err, w1, pre ++ [.progress { p with Err := some err }] ++ env.say (.error err))
    | .response statusCode status total body =>
      if statusCode ≠ 200 then
        let e := msg "http error: " ++ status
        (some e, w1, pre ++ [.progress { p with Err := some e }] ++ env.say (.error e))
      else
        let p0 := { p with BytesTotal := total }
        match w1.fs.OpenFile dstPath with
        | (.error err, fs1) =>
          (some err, { w1 with fs := fs1 },
            pre ++ [.progress { p0 with Err := some err }] ++ env.say (.error err))
        | (.ok out, fs1) =>
          match copyChunks env out total (body.reads ++ [body.lastChunk]) p0 fs1 with
          | (_, fs2, evs, some werr) => (some werr, { w1 with fs := fs2 }, pre ++ evs)
          | (p1, fs2, evs, none) =>
            match body.ending with
            | .fail rerr =>
              (some rerr, { w1 with fs := fs2 },
                pre ++ evs ++ [.progress { p1 with Err := some rerr }] ++ env.say (.error rerr))
            | .eof =>
              let p2 := { p1 with Done := true }
              let (err, fs3, evs3) := maybeUnzip env fs2 dstPath
              (err, { w1 with fs := fs3 },
                pre ++ evs ++ [.progress p2] ++
                  env.say .complete ++ env.say (.downloaded filename p2.BytesDone) ++ evs3)

/-- One attempt of the retry wrapper: `DownloadFile` on a world that also carries the trace
of the events so far. -/
def downloadAttempt (env : Env) (urlStr targetDir : GoString) (s : World × List Event) :
    Option GoError × (World × List Event) :=
  ((DownloadFile env urlStr targetDir s.1).1,
    ((DownloadFile env urlStr targetDir s.1).2.1, s.2 ++ (DownloadFile env urlStr targetDir s.1).2.2))

/-- The console line `Retry i/attempts for url` of the retry wrapper. -/
def logRetryLine (env : Env) (urlStr : GoString) (i attempts : Int) (s : World × List Event) :
    World × List Event :=
  (s.1, s.2 ++ env.say (.retry i attempts urlStr))

/-- Go `Manager.DownloadFileWithRetry(urlStr, targetDir, cb, attempts)` with `DownloadFile` as
the operation that is retried. -/
def Manager.DownloadFileWithRetry (env : Env) (urlStr targetDir : GoString) (attempts : Int)
    (fuel : Nat) (s : World × List Event) : Option (Option GoError × (World × List Event)) :=
  Myrient.DownloadFileWithRetry (downloadAttempt env urlStr targetDir) (logRetryLine env urlStr)
    attempts fuel s

/-! ## Relations between filesystem states, used to state the theorems -/

/-- State `fs'` has every node of `fs` unchanged (and possibly more), and the same fixed parts. -/
structure FS.Grows (fs fs' : FS) : Prop where
  cwd : fs'.cwd = fs.cwd
  deny : fs'.deny = fs.deny
  newDirSize : fs'.newDirSize = fs.newDirSize
  node : ∀ (l : Loc) (n : Node), fs.node l = some n → fs'.node l = some n

/-- Every directory of `fs` is still a directory in `fs'`, and the fixed parts agree. -/
structure FS.KeepsDirs (fs fs' : FS) : Prop where
  cwd : fs'.cwd = fs.cwd
  deny : fs'.deny = fs.deny
  newDirSize : fs'.newDirSize = fs.newDirSize
  dirs : ∀ l : Loc, fs.isDirAt l = true → fs'.isDirAt l = true

/-- Every step of the walk of `cs` from `cur` lands on an existing directory. -/
def dirsAlong (fs : FS) : Loc → List GoString → Prop
  | _, [] => True
  | cur, c :: cs => fs.isDirAt (stepLoc cur c) = true ∧ dirsAlong fs (stepLoc cur c) cs

/-- Whether an event is a network request. -/
def Event.isHttpGet : Event → Bool
  | .httpGet _ => true
  | _ => false

/-- The snapshot of a callback event. -/
def Event.progress? : Event → Option Progress
  | .progress p => some p
  | _ => none

/-! ## Concrete worlds used as witnesses and counterexamples -/

/-- A filesystem given by a finite table of nodes, with working directory `cwd`, in which no
operation is denied. -/
def fsOfTable (table : List (Loc × Node)) (cwd : Loc) : FS :=
  { node := fun l => (table.find? (fun e => e.1 = l)).map (·.2)
    cwd := cwd
    deny := fun _ _ => false
    newDirSize := 4096 }

/-- An environment whose network is unreachable and which knows no archive. -/
def offlineEnv : Env :=
  { net := fun _ _ => .transportError (msg "dial tcp: connection refused")
    parseZip := fun _ => none
    clock := fun _ _ => msg "1s"
    console := false }

/-- The working directory holds `a.bin`, three bytes long. -/
def fsWithABin : FS :=
  fsOfTable [([], .dir 4096), ([msg "a.bin"], .file [1, 2, 3])] []

/-- The working directory holds `a.bin`, three bytes long, and a regular file `f`. -/
def fsWithABinAndF : FS :=
  fsOfTable [([], .dir 4096), ([msg "a.bin"], .file [1, 2, 3]), ([msg "f"], .file [9])] []

/-- The directory `d` of the working directory holds `a.bin`, three bytes long. -/
def fsWithDABin : FS :=
  fsOfTable [([], .dir 4096), ([msg "d"], .dir 4096), ([msg "d", msg "a.bin"], .file [1, 2, 3])] []

/-- A filesystem with nothing but the root. -/
def fsRootOnly : FS := fsOfTable [([], .dir 4096)] []

/-- The 22 bytes of a zip archive without entries (an end-of-central-directory record). -/
def emptyZipBytes : Bytes := [0x50, 0x4B, 0x05, 0x06] ++ List.replicate 18 0

/-- An environment in which every request is answered `200 OK` with the given body, and
whose archive decoder reads `emptyZipBytes` as the archive without entries. -/
def servingEnv (content : Bytes) : Env :=
  { net := fun _ _ => .response 200 (msg "200 OK") content.length ⟨[], content, .eof⟩
    parseZip := fun b => if b = emptyZipBytes then some [] else none
    clock := fun _ _ => msg "1s"
    console := false }

/-- An archive with a directory entry, two files, an entry that climbs out with `..`, an
entry with an absolute name, and an entry whose name merely begins with two dots. -/
def sampleEntries : List ZipFile :=
  [ { Name := msg "docs/", dirMode := true, openErr := none, data := [], copyErr := none },
    { Name := msg "docs/readme.txt", dirMode := false, openErr := none, data := [1, 2],
      copyErr := none },
    { Name := msg "../evil.txt", dirMode := false, openErr := none, data := [6, 6, 6],
      copyErr := none },
    { Name := msg "/abs.txt", dirMode := false, openErr := none, data := [3], copyErr := none },
    { Name := msg "..notes", dirMode := false, openErr := none, data := [4, 5],
      copyErr := none } ]

/-- A decoder that reads the single byte `1` as the archive `sampleEntries`. -/
def sampleParse : Bytes → Option (List ZipFile) :=
  fun b => if b = [1] then some sampleEntries else none

/-- The directory `/roms/SNES` holds the archive `Game.zip`; the working directory is `/`. -/
def fsWithArchive : FS :=
  fsOfTable [([], .dir 4096), ([msg "roms"], .dir 4096), ([msg "roms", msg "SNES"], .dir 4096),
    ([msg "roms", msg "SNES", msg "Game.zip"], .file [1])] []

/-! ## Vocabulary for path elements, used to state the theorems -/

/-- The element `..`. -/
def dotdot : GoString := ['.', '.']

/-- A proper name: an element that is neither empty, nor `.`, nor `..`. -/
def IsName (c : GoString) : Prop := c ≠ [] ∧ c ≠ ['.'] ∧ c ≠ dotdot

instance (c : GoString) : Decidable (IsName c) := by unfold IsName; infer_instance

/-- The elements of a path that path resolution acts on: all but the empty ones and `.`. -/
def sem (cs : List GoString) : List GoString := cs.filter (fun c => !(c = [] ∨ c = ['.']))

/-- The elements `filepath.Clean` keeps of a path. -/
def elemsOf (path : GoString) : List GoString :=
  cleanElems (path.head? = some '/') [] (splitSlash path)

/-- The shape of a cleaned element list: `..` elements first (none in a rooted path), then
proper names only. -/
def CleanForm (rooted : Bool) : List GoString → Prop
  | [] => True
  | e :: es => (e = dotdot ∧ rooted = false ∧ CleanForm rooted es) ∨ (IsName e ∧ ∀ n ∈ es, IsName n)

/-- The location reached from `cur` by following the elements lexically. -/
def endLoc (cur : Loc) (cs : List GoString) : Loc := cs.foldl stepLoc cur

/-- State `fs'` differs from `fs` only at locations at or below `D`. -/
def FS.Under (D : Loc) (fs fs' : FS) : Prop := ∀ l : Loc, fs'.node l ≠ fs.node l → D <+: l

/-- The part of a path up to and including its last separator (empty if there is none):
what `filepath.Dir` cleans. -/
def upToLastSlash (path : GoString) : GoString := (path.reverse.dropWhile (· ≠ '/')).reverse

/-- What one filesystem operation of the extractor may do when it works below `D`: every
directory stays a directory, every file stays a file (its content may change), nothing
changes outside `D`, and the tree stays well formed. -/
structure FS.Step (D : Loc) (fs fs' : FS) : Prop where
  keeps : FS.KeepsDirs fs fs'
  under : FS.Under D fs fs'
  stays : ∀ (l : Loc) (d : Bytes), fs.node l = some (.file d) → ∃ d', fs'.node l = some (.file d')
  wf : fs.WF → fs'.WF

/-- The cleaned elements of `x` lead, through existing directories, from where `x` starts to
the location `D`. -/
structure DirAt (fs : FS) (x : GoString) (D : Loc) : Prop where
  along : dirsAlong fs (fs.start x) (elemsOf x)
  ends : endLoc (fs.start x) (elemsOf x) = D

/-! ## `HTTPIndex.List` (httpindex.go) -/

/-- Go `domain.FileEntry` (model.go). -/
structure FileEntry where
  Name : GoString
  URL : GoString
  IsDir : Bool
  deriving DecidableEq, Repr

/-- Go `html.NodeType`. -/
inductive NodeType where
  | ErrorNode | TextNode | DocumentNode | ElementNode | CommentNode | DoctypeNode | RawNode
  deriving DecidableEq, Repr

/-- Go `html.Attribute`. -/
structure Attribute where
  Namespace : GoString
  Key : GoString
  Val : GoString
  deriving DecidableEq, Repr

/-- Go `html.Node`: its type, its data (the tag name of an element, the text of a text node),
its attributes and its children from `FirstChild` along `NextSibling`.  The `Parent` pointer
is handed down by the traversal instead. -/
inductive HtmlNode where
  | mk (type : NodeType) (data : GoString) (attr : List Attribute) (children : List HtmlNode)

/-- What the traversal looks at in `n.Parent`: its type and data; `none` for `nil`. -/
abbrev ParentInfo := Option (NodeType × GoString)

/-- The parsed index URL `u` as far as the traversal uses it. -/
structure URLBase where
  /-- The address `u.String()` that is requested. -/
  text : GoString
  /-- Whether `url.Parse(href)` returns no error. -/
  parses : GoString → Bool
  /-- The text `u.ResolveReference(rel).String()` for the parsed `href`. -/
  resolve : GoString → GoString

mutual
/-- Go `nodeText(n)`: the text nodes under `n`, concatenated in document order. -/
def nodeText : HtmlNode → GoString
  | .mk t d _ cs => (if t = .TextNode then d else []) ++ nodeTextList cs
/-- The loop `for c := n.FirstChild; c != nil; c = c.NextSibling { rec(c) }`. -/
def nodeTextList : List HtmlNode → GoString
  | [] => []
  | c :: cs => nodeText c ++ nodeTextList cs
end

/-- The loop over `n.Attr` that picks the value of the first `href` attribute. -/
def hrefOf : List Attribute → GoString
  | [] => []
  | a :: as => if a.Key = msg "href" then a.Val else hrefOf as

/-- The test `n.Parent == nil || n.Parent.Type != html.ElementNode || n.Parent.Data != "td"`. -/
def notInCell (parent : ParentInfo) : Bool :=
  match parent with
  | none => true
  | some (t, d) => t ≠ .ElementNode ∨ d ≠ msg "td"

mutual
/-- The closure `walk` of `List`: the entries appended while `n` is traversed, in order. -/
def walk (u : URLBase) (parent : ParentInfo) : HtmlNode → List FileEntry
  | .mk t d attr cs =>
    if t = .ElementNode ∧ d = msg "a" then
      if notInCell parent then walkChildren u (t, d) cs
      else if hrefOf attr = [] then walkChildren u (t, d) cs
      else if TrimSpace (nodeText (.mk t d attr cs)) = [] then walkChildren u (t, d) cs
      else if !u.parses (hrefOf attr) then walkChildren u (t, d) cs
      else
        { Name := TrimSpace (nodeText (.mk t d attr cs))
          URL := u.resolve (hrefOf attr)
          IsDir := HasSuffix (hrefOf attr) ['/'] ||
            HasSuffix (TrimSpace (nodeText (.mk t d attr cs))) ['/'] } ::
          walkChildren u (t, d) cs
    else walkChildren u (t, d) cs
/-- The loop `for c := n.FirstChild; c != nil; c = c.NextSibling { walk(c) }`. -/
def walkChildren (u : URLBase) (self : NodeType × GoString) : List HtmlNode → List FileEntry
  | [] => []
  | c :: cs => walk u (some self) c ++ walkChildren u self cs
end

/-- The answer to the request for the index page. -/
inductive IndexResponse where
  | transportError (e : GoError)
  | response (statusCode : Int) (status : GoString) (body : Except GoError GoString)

/-- Everything outside the program that `List` depends on. -/
structure IndexEnv where
  /-- The result of `url.Parse(rawURL)`, with the scheme defaulted to `https`. -/
  parseBase : GoString → Except GoError URLBase
  /-- The result of `h.client.Get(u.String())`, with the body as `io.ReadAll` returns it. -/
  get : GoString → IndexResponse
  /-- The result of `html.Parse` on the body. -/
  parseHTML : GoString → Except GoError HtmlNode

/-- Go `HTTPIndex.List(rawURL)`. -/
def HTTPIndex.List (env : IndexEnv) (rawURL : GoString) : Except GoError (List FileEntry) :=
  if rawURL = [] then .error (msg "empty URL")
  else
    match env.parseBase rawURL with
    | .error e => .error (msg "invalid url: " ++ e)
    | .ok u =>
      match env.get u.text with
      | .transportError e => .error (msg "http get: " ++ e)
      | .response statusCode status body =>
        if statusCode ≠ 200 then .error (msg "http status: " ++ status)
        else
          match body with
          | .error e => .error (msg "read body: " ++ e)
          | .ok text =>
            match env.parseHTML text with
            | .error e => .error (msg "parse html: " ++ e)
            | .ok doc => .ok (walk u none doc)

/-! ### Reference description of the listing, used to state the theorems -/

mutual
/-- The nodes of a tree in pre-order (parent before children, siblings left to right), each
with what the traversal sees of its parent. -/
def preorder (parent : ParentInfo) : HtmlNode → List (ParentInfo × HtmlNode)
  | .mk t d attr cs => (parent, .mk t d attr cs) :: preorderList (t, d) cs
/-- The pre-order of a list of siblings. -/
def preorderList (self : NodeType × GoString) : List HtmlNode → List (ParentInfo × HtmlNode)
  | [] => []
  | c :: cs => preorder (some self) c ++ preorderList self cs
end

/-- The type of a node. -/
def HtmlNode.type : HtmlNode → NodeType
  | .mk t _ _ _ => t

/-- The data of a node. -/
def HtmlNode.data : HtmlNode → GoString
  | .mk _ d _ _ => d

/-- The attributes of a node. -/
def HtmlNode.attr : HtmlNode → List Attribute
  | .mk _ _ a _ => a

/-- An `<a>` element whose immediate parent is a `<td>` element, whose first `href`
attribute is not empty and whose text is not empty after trimming: the anchors the claim
says are listed. -/
def listedAnchor (x : ParentInfo × HtmlNode) : Bool :=
  x.2.type = .ElementNode ∧ x.2.data = msg "a" ∧
  (∃ p, x.1 = some p ∧ p.1 = .ElementNode ∧ p.2 = msg "td") ∧
  hrefOf x.2.attr ≠ [] ∧ TrimSpace (nodeText x.2) ≠ []

/-- The entry of an anchor: its trimmed text, its resolved address, and the directory flag. -/
def entryOf (u : URLBase) (x : ParentInfo × HtmlNode) : FileEntry :=
  { Name := TrimSpace (nodeText x.2)
    URL := u.resolve (hrefOf x.2.attr)
    IsDir := HasSuffix (hrefOf x.2.attr) ['/'] || HasSuffix (TrimSpace (nodeText x.2)) ['/'] }

/-- The test of `stringContainsCTLByte` on one character: an ASCII control character. -/
def isCTL (c : Char) : Bool := c.toNat < 0x20 ∨ c.toNat = 0x7f

/-- The two checks `url.Parse` makes before it looks at the authority and the path: no ASCII
control character before the fragment, and (`getScheme`) no colon in first position.  A
reference that fails them is rejected by `url.Parse`. -/
def passesSchemeCheck (href : GoString) : Bool :=
  !((href.takeWhile (· ≠ '#')).any isCTL) && (href.takeWhile (· ≠ '#')).head? ≠ some ':'

/-- A sample index URL: references are checked with `passesSchemeCheck` and resolved by
appending them to the directory address. -/
def sampleBase : URLBase :=
  { text := msg "https://example.org/files/SNES/"
    parses := passesSchemeCheck
    resolve := fun href => msg "https://example.org/files/SNES/" ++ href }

/-- An element node. -/
def elem (tag : String) (attr : List Attribute) (children : List HtmlNode) : HtmlNode :=
  .mk .ElementNode (msg tag) attr children

/-- A text node. -/
def text (s : String) : HtmlNode := .mk .TextNode (msg s) [] []

/-- The attribute list `href="..."`. -/
def href (v : String) : List Attribute := [{ Namespace := [], Key := msg "href", Val := msg v }]

/-- A listing page: a header link in a `<th>`, a link directly in the body, and a table with
a directory, a file, and a link whose `href` is a lone colon. -/
def samplePage : HtmlNode :=
  .mk .DocumentNode [] []
    [elem "html" []
      [elem "body" []
        [elem "a" (href "top/") [text "Top"],
         elem "table" []
          [elem "tr" [] [elem "th" [] [elem "a" (href "?C=N;O=D") [text "Name"]]],
           elem "tr" [] [elem "td" [] [elem "a" (href "Subdir/") [text " Subdir/ "]]],
           elem "tr" [] [elem "td" [] [elem "a" (href "Game.zip") [text "Game.zip"]]],
           elem "tr" [] [elem "td" [] [elem "a" (href ":") [text "broken"]]]]]]]

/-- The anchors the code lists: those of `listedAnchor` whose `href` `url.Parse` accepts. -/
def listedParsed (u : URLBase) (x : ParentInfo × HtmlNode) : Bool :=
  listedAnchor x && u.parses (hrefOf x.2.attr)

/-! ## `SanitizeFolderName` and `GuessSystemFromURL` (system.go) -/

/-- The characters of the string constant `badChars`. -/
def badChars : GoString := ['<', '>', ':', '"', '/', '\\', '|', '?', '*']

/-- Go `SanitizeFolderName(name)`: the name is trimmed; an empty result is `"Unknown"`;
otherwise `strings.Map` drops the control characters and replaces the bad ones by `-`. -/
def SanitizeFolderName (name : GoString) : GoString :=
  if TrimSpace name = [] then msg "Unknown"
  else
    (TrimSpace name).filterMap (fun r =>
      if r.toNat < 32 then none
      else if r ∈ badChars then some '-'
      else some r)

/-- Go `GuessSystemFromURL(rootStr, fileStr)`.  `parsePath s` is the `Path` of `url.Parse(s)`,
or `none` when `url.Parse` returns an error. -/
def GuessSystemFromURL (parsePath : GoString → Option GoString) (rootStr fileStr : GoString) :
    GoString :=
  match parsePath rootStr, parsePath fileStr with
  | some rootPath0, some filePath0 =>
    let rootPath := trimRightSlash rootPath0
    let filePath := trimRightSlash filePath0
    let underRoot : Option GoString :=
      if HasPrefix filePath rootPath then
        let rel := trimSlash (TrimPrefix filePath rootPath)
        if rel ≠ [] then
          match splitSlash rel with
          | p0 :: _ => if p0 ≠ [] then some (SanitizeFolderName p0) else none
          | [] => none
        else none
      else none
    match underRoot with
    | some system => system
    | none =>
      let parts := splitSlash (trimSlash filePath)
      if 2 ≤ parts.length then SanitizeFolderName (parts.getD (parts.length - 2) [])
      else msg "Unknown"
  | _, _ => msg "Unknown"

/-- The first path segment of a path: everything before its first separator. -/
def firstSegment (p : GoString) : GoString := p.takeWhile (· ≠ '/')

/-- The `Path` of an address of the plain form `https://host/path` (no user, port, query,
fragment or escape), as `url.Parse` returns it.  Used as a sample of the parser; every other
string is rejected by this sample. -/
def plainHTTPSPath (s : GoString) : Option GoString :=
  if HasPrefix s (msg "https://") ∧
      s.all (fun c => c.isAlphanum ∨ c = '/' ∨ c = '.' ∨ c = '-' ∨ c = '_' ∨ c = ':') ∧
      ¬ (':' ∈ s.drop 8) then
    some ((s.drop 8).dropWhile (· ≠ '/'))
  else none

/-! ## Reference description of the label, used to state the theorems -/

/-- The value of a hexadecimal digit (Go `unhex`), `none` for any other character. -/
def unhex (c : Char) : Option Nat :=
  if '0' ≤ c ∧ c ≤ '9' then some (c.toNat - '0'.toNat)
  else if 'a' ≤ c ∧ c ≤ 'f' then some (c.toNat - 'a'.toNat + 10)
  else if 'A' ≤ c ∧ c ≤ 'F' then some (c.toNat - 'A'.toNat + 10)
  else none

/-- Go `unescape(s, encodePath)` of `net/url`: every `%XY` becomes the byte with that
hexadecimal code, and a `%` that is not followed by two hexadecimal digits is an error. -/
def unescapePath : GoString → Option GoString
  | [] => some []
  | '%' :: a :: b :: rest =>
    match unhex a, unhex b, unescapePath rest with
    | some x, some y, some t => some (Char.ofNat (16 * x + y) :: t)
    | _, _, _ => none
  | c :: rest =>
    if c = '%' then none
    else match unescapePath rest with
      | some t => some (c :: t)
      | none => none

/-- The `Path` of an address of the form `https://host/path` whose path may hold escapes
`%XY` below `%80` (no user, port, query or fragment), as `url.Parse` returns it: the path
with the escapes decoded.  Used as a sample of the parser; every other string is rejected by
this sample, as `url.Parse` rejects a string that begins with a colon. -/
def escapedHTTPSPath (s : GoString) : Option GoString :=
  if HasPrefix s (msg "https://") ∧
      s.all (fun c =>
        c.isAlphanum ∨ c = '/' ∨ c = '.' ∨ c = '-' ∨ c = '_' ∨ c = ':' ∨ c = '%') ∧
      ¬ (':' ∈ s.drop 8) ∧ ¬ ('%' ∈ (s.drop 8).takeWhile (· ≠ '/')) then
    unescapePath ((s.drop 8).dropWhile (· ≠ '/'))
  else none

/-- The under-root rule: when the file path begins with the root path, the first segment of
what follows the root, if anything follows. -/
def underRootSegment (rootPath filePath : GoString) : Option GoString :=
  if HasPrefix filePath rootPath then
    if trimSlash (filePath.drop rootPath.length) = [] then none
    else some (firstSegment (trimSlash (filePath.drop rootPath.length)))
  else none

/-- The parent-directory fallback: the last segment but one of the file path, when the path
has at least two segments. -/
def parentSegment (filePath : GoString) : Option GoString :=
  if 2 ≤ (splitSlash (trimSlash filePath)).length then
    (splitSlash (trimSlash filePath)).dropLast.getLast?
  else none

/-- The segment the two rules choose for a pair of addresses: that of the under-root rule,
else that of the fallback; `none` when an address does not parse or neither rule applies. -/
def chosenSegment (parsePath : GoString → Option GoString) (rootStr fileStr : GoString) :
    Option GoString :=
  match parsePath rootStr, parsePath fileStr with
  | some rootPath, some filePath =>
    match underRootSegment (trimRightSlash rootPath) (trimRightSlash filePath) with
    | some s => some s
    | none => parentSegment (trimRightSlash filePath)
  | _, _ => none

/-! ## Reference description of the file name, used to state the theorems -/

/-- The last path segment of an address: what follows its last slash (all of it when there
is no slash). -/
def lastSegment (s : GoString) : GoString := (s.reverse.takeWhile (· ≠ '/')).reverse

/-- The file name as the specification words it: the last path segment of the address, and
the placeholder `download.bin` when that segment is empty. -/
def fileNameSpec (urlStr : GoString) : GoString :=
  if lastSegment urlStr = [] then msg "download.bin" else lastSegment urlStr

/-! ## Vocabulary for response bodies, used to state the theorems -/

/-- The number of bytes in a list of chunks. -/
def chunkBytes (chunks : List Bytes) : Nat := (chunks.map List.length).sum

/-- The number of bytes a response body delivers over all its reads. -/
def Body.size (b : Body) : Nat := chunkBytes (b.reads ++ [b.lastChunk])

/-- An environment whose every request is answered `200 OK` with a body that arrives in the
given chunks and then ends as given, declared with the given `Content-Length`. -/
def chunkedEnv (contentLength : Int) (reads : List Bytes) (lastChunk : Bytes)
    (ending : BodyEnd) : Env :=
  { net := fun _ _ => .response 200 (msg "200 OK") contentLength ⟨reads, lastChunk, ending⟩
    parseZip := fun _ => none
    clock := fun _ _ => msg "1s"
    console := true }

/-- A filesystem with nothing but the root and the directory `d`, in which the operation
`op` is denied at the location `d/a.bin`. -/
def fsDenying (op : FsOp) : FS :=
  { node := fun l => if l = [] ∨ l = [msg "d"] then some (.dir 4096) else none
    cwd := []
    deny := fun o l => o = op ∧ l = [msg "d", msg "a.bin"]
    newDirSize := 4096 }

/-- An environment whose every request is answered with the status `404 Not Found`. -/
def notFoundEnv : Env :=
  { net := fun _ _ =>
      .response 404 (msg "404 Not Found") 9 ⟨[], [1, 2, 3, 4, 5, 6, 7, 8, 9], .eof⟩
    parseZip := fun _ => none
    clock := fun _ _ => msg "1s"
    console := true }

/-- The fields of a snapshot that the theorems are about. -/
def Progress.summary (p : Progress) : Int × Int × Bool × Option GoError :=
  (p.BytesDone, p.BytesTotal, p.Done, p.Err)

/-! ## `FormatBytes` (bytes_eta.go)

### Binary floating point, as far as `FormatBytes` needs it -/

/-- A finite `float64` value, `sig * 2 ^ exp`. -/
structure F64 where
  sig : Int
  exp : Int
  deriving Repr

/-- The number of binary digits of `n`, for `n` below `2 ^ fuel`. -/
def bitLen : Nat → Nat → Nat
  | 0, _ => 0
  | fuel + 1, n => if n = 0 then 0 else bitLen fuel (n / 2) + 1

/-- The `float64` nearest to the exact value `sig * 2 ^ exp`: the significand is cut to 53
bits, to the nearest, ties to the even significand.  (The values `FormatBytes` computes
stay far from the overflow and underflow thresholds, which are not modelled.) -/
def F64.round (sig exp : Int) : F64 :=
  if sig = 0 then ⟨0, 0⟩
  else
    let a := sig.natAbs
    let sh := bitLen 2048 a - 53
    let q := a / 2 ^ sh
    let r := a % 2 ^ sh
    let q1 := if 2 ^ sh < 2 * r ∨ (2 * r = 2 ^ sh ∧ q % 2 = 1) then q + 1 else q
    ⟨if sig < 0 then -(q1 : Int) else q1, exp + sh⟩

/-- The `float64` with the given bit pattern (a normal number). -/
def F64.ofBits (b : Nat) : F64 :=
  ⟨if b / 2 ^ 63 = 1 then -((2 ^ 52 + b % 2 ^ 52 : Nat) : Int)
    else ((2 ^ 52 + b % 2 ^ 52 : Nat) : Int),
    ((b / 2 ^ 52 % 2048 : Nat) : Int) - 1075⟩

/-- The significand of `x` when the value is written with the exponent `e ≤ x.exp`. -/
def F64.sigAt (x : F64) (e : Int) : Int := x.sig * 2 ^ (x.exp - e).toNat

/-- Go `x + y` on `float64`. -/
def F64.add (x y : F64) : F64 :=
  F64.round (x.sigAt (min x.exp y.exp) + y.sigAt (min x.exp y.exp)) (min x.exp y.exp)

/-- Go `x - y` on `float64`. -/
def F64.sub (x y : F64) : F64 :=
  F64.round (x.sigAt (min x.exp y.exp) - y.sigAt (min x.exp y.exp)) (min x.exp y.exp)

/-- Go `x * y` on `float64`. -/
def F64.mul (x y : F64) : F64 := F64.round (x.sig * y.sig) (x.exp + y.exp)

/-- Go `x / y` on `float64`, for `y` other than zero: the quotient of the significands is
taken with at least 56 bits, and one more bit records whether anything is left over, so that
the rounding of this number is the rounding of the exact quotient. -/
def F64.div (x y : F64) : F64 :=
  let na := x.sig.natAbs
  let nb := y.sig.natAbs
  let k := bitLen 2048 nb + 56 - bitLen 2048 na
  let q := na * 2 ^ k / nb
  let m := 2 * q + (if na * 2 ^ k % nb = 0 then 0 else 1)
  F64.round (if (x.sig < 0) = (y.sig < 0) then (m : Int) else -(m : Int))
    (x.exp - y.exp - k - 1)

/-- Go `x < y` on `float64`. -/
def F64.lt (x y : F64) : Bool := x.sigAt (min x.exp y.exp) < y.sigAt (min x.exp y.exp)

/-- Go `math.Floor(x)`, as a whole number. -/
def F64.floor (x : F64) : Int :=
  if 0 ≤ x.exp then x.sig * 2 ^ x.exp.toNat else Int.fdiv x.sig (2 ^ (-x.exp).toNat)

/-- Go `math.Frexp(x)` for `x > 0`: the fraction in `[1/2, 1)` and the exponent. -/
def F64.frexp (x : F64) : F64 × Int :=
  (⟨x.sig, -(bitLen 2048 x.sig.natAbs : Int)⟩, x.exp + bitLen 2048 x.sig.natAbs)

/-- Go `math.Log(x)` for a finite `x > 0`, after the portable implementation `log` of the
package `math` (`log.go`), with every operation rounded on its own, as on `amd64`.  The
constants are given by their bit patterns, as the comments of `log.go` list them. -/
def goLog (x : F64) : F64 :=
  let Ln2Hi := F64.ofBits 0x3fe62e42fee00000
  let Ln2Lo := F64.ofBits 0x3dea39ef35793c76
  let L1 := F64.ofBits 0x3FE5555555555593
  let L2 := F64.ofBits 0x3FD999999997FA04
  let L3 := F64.ofBits 0x3FD2492494229359
  let L4 := F64.ofBits 0x3FCC71C51D8E78AF
  let L5 := F64.ofBits 0x3FC7466496CB03DE
  let L6 := F64.ofBits 0x3FC39A09D078C69F
  let L7 := F64.ofBits 0x3FC2F112DF3E5244
  let halfSqrt2 := F64.ofBits 0x3FE6A09E667F3BCD
  let one : F64 := ⟨1, 0⟩
  let two : F64 := ⟨2, 0⟩
  let half : F64 := ⟨1, -1⟩
  -- reduce
  let fr := x.frexp
  let f1 := if fr.1.lt halfSqrt2 then fr.1.mul two else fr.1
  let ki := if fr.1.lt halfSqrt2 then fr.2 - 1 else fr.2
  let f := f1.sub one
  let k := F64.round ki 0
  -- compute
  let s := f.div (two.add f)
  let s2 := s.mul s
  let s4 := s2.mul s2
  let t1 := s2.mul (L1.add (s4.mul (L3.add (s4.mul (L5.add (s4.mul L7))))))
  let t2 := s4.mul (L2.add (s4.mul (L4.add (s4.mul L6))))
  let R := t1.add t2
  let hfsq := (half.mul f).mul f
  (k.mul Ln2Hi).sub ((hfsq.sub ((s.mul (hfsq.add R)).add (k.mul Ln2Lo))).sub f)

/-- Go `float64(n)` for an `int64` `n`, as a whole number: the nearest value with a
significand of 53 bits, ties to the even significand. -/
def toFloat64 (n : Int) : Int := (F64.round n 0).sig * 2 ^ (F64.round n 0).exp.toNat

/-- The index `int(math.Floor(math.Log(x) / math.Log(k)))` of `FormatBytes` with `k = 1024`,
for the whole number `x` that `float64(bytes)` is.  For a negative `x` the logarithm is not
a number, and its conversion to `int` gives the smallest `int` on `amd64`. -/
def goLogIndex (x : Int) : Int :=
  if 0 < x then ((goLog ⟨x, 0⟩).div (goLog ⟨1024, 0⟩)).floor else -9223372036854775808

/-- The digits of `strconv` for the `float64` value `num / 2 ^ shift` in the format `f` with
`prec` digits after the point: the exact decimal expansion rounded to `prec` places, ties to
the even digit; no point when `prec` is zero; a minus sign for a negative value. -/
def formatFixed (prec : Nat) (num : Int) (shift : Nat) : GoString :=
  let scaled := num.natAbs * 10 ^ prec
  let q := scaled / 2 ^ shift
  let r := scaled % 2 ^ shift
  let rounded := if 2 ^ shift < 2 * r ∨ (2 * r = 2 ^ shift ∧ q % 2 = 1) then q + 1 else q
  let frac := Nat.toDigits 10 (rounded % 10 ^ prec)
  (if num < 0 then ['-'] else []) ++ Nat.toDigits 10 (rounded / 10 ^ prec) ++
    (if prec = 0 then [] else '.' :: (List.replicate (prec - frac.length) '0' ++ frac))

/-- Go `fmt.Sprintf("%.*f", dm, value)` for `dm ≥ 0` and `value = num / 2 ^ shift`: a
precision above one million is refused by `fmt` with the text `%!(BADPREC)`, after which the
value is printed with the default six digits. -/
def sprintfFloat (dm : Nat) (num : Int) (shift : Nat) : GoString :=
  if 1000000 < dm then msg "%!(BADPREC)" ++ formatFixed 6 num shift
  else formatFixed dm num shift

/-- The table `sizes` of `FormatBytes`. -/
def sizes : List GoString :=
  [msg "Bytes", msg "KB", msg "MB", msg "GB", msg "TB", msg "PB", msg "EB", msg "ZB", msg "YB"]

/-- Go `FormatBytes(bytes, decimals)`.  `logIndex x` is the value of
`int(math.Floor(math.Log(x) / math.Log(k)))` for the whole number `x` that `float64(bytes)`
is: the one step whose result depends on the mathematics library (`goLogIndex` is the one of
Go).  `math.Pow(k, float64(i))` is the exact power of two for an index inside the table and
the division by it is exact, so `value` is `float64(bytes) / 2 ^ (10 * i)`.  The result is
`none` when `sizes[i]` panics. -/
def FormatBytes (logIndex : Int → Int) (bytes decimals : Int) : Option GoString :=
  if bytes = 0 then some (msg "0 Bytes")
  else
    let dm := if decimals < 0 then 0 else decimals
    let i := logIndex (toFloat64 bytes)
    if 0 ≤ i ∧ i < sizes.length then
      some (sprintfFloat dm.toNat (toFloat64 bytes) (10 * i.toNat) ++ msg " " ++
        sizes.getD i.toNat [])
    else none

/-! ### Reference description of `FormatBytes`, used to state the theorems -/

/-- The exponent of the largest power of 1024 that does not exceed `count`, among the
powers that have a unit in the table. -/
def largestPower (count : Nat) : Nat :=
  (((List.range 9).reverse.find? (fun i => 1024 ^ i ≤ count)).getD 0)

/-- The text as the specification words it, for a count that is not negative: `0 Bytes`
for zero; otherwise the count divided by the largest power of 1024 that does not exceed it,
printed with `max(decimals, 0)` digits after the point, a space, and the unit of that power. -/
def FormatBytesSpec (count : Nat) (decimals : Int) : GoString :=
  if count = 0 then msg "0 Bytes"
  else
    formatFixed (max decimals 0).toNat count (10 * largestPower count) ++ msg " " ++
      sizes.getD (largestPower count) []

/-! ## The bulk download of `Download selected` (app.go, lines 431-495)

The handler starts one goroutine per selected file and then receives `total` results from
`doneCh`.  The goroutines and the handler only interact through the two channels, so an
execution is an interleaving of the steps below, one per channel operation or call. -/

/-- Where a job's goroutine stands. -/
inductive JobPC where
  /-- The `go` statement for this job has not run yet. -/
  | idle
  /-- Blocked at, or about to run, `sem <- struct{}{}`. -/
  | waiting
  /-- Holding a slot, inside `dlMgr.DownloadFileWithRetry(url, td, nil, 3)`. -/
  | running
  /-- The call has returned `err`; about to run `<-sem`. -/
  | returned (err : Option GoError)
  /-- The slot is released; blocked at, or about to run, `doneCh <- downloadResult{...}`. -/
  | sending (err : Option GoError)
  /-- The result has been handed over; the goroutine has ended. -/
  | done
  deriving DecidableEq, Repr

/-- The state of the handler and its goroutines. -/
structure Sched where
  /-- One entry per selected file, in the order of `toDownload`. -/
  jobs : List JobPC
  /-- The value of `len(sem)`: the number of slots taken. -/
  sem : Nat
  /-- How many goroutines the launching loop has started. -/
  launched : Nat
  /-- The results the collecting loop has received from `doneCh`, in order of arrival:
  the job and its error. -/
  results : List (Nat × Option GoError)
  deriving DecidableEq, Repr

/-- One step of one participant. -/
inductive Action where
  /-- The launching loop runs `go func(...)` for the next file. -/
  | launch
  /-- Job `j` completes `sem <- struct{}{}`. -/
  | acquire (j : Nat)
  /-- The call of `DownloadFileWithRetry` of job `j` returns `err`. -/
  | finish (j : Nat) (err : Option GoError)
  /-- Job `j` completes `<-sem`. -/
  | release (j : Nat)
  /-- Job `j` and the collecting loop meet on the unbuffered `doneCh`. -/
  | deliver (j : Nat)
  deriving DecidableEq, Repr

/-- The state before anything runs: `n` selected files. -/
def Sched.init (n : Nat) : Sched :=
  { jobs := List.replicate n .idle, sem := 0, launched := 0, results := [] }

/-- The effect of an action with concurrency limit `limit` (the capacity of `sem`), or `none`
when the action cannot happen in this state: a send on a full `sem` and a receive from an
empty one block, and the collecting loop only starts after the launching loop. -/
def Sched.exec (limit : Nat) (s : Sched) : Action → Option Sched
  | .launch =>
    if s.launched < s.jobs.length then
      some { s with jobs := s.jobs.set s.launched .waiting, launched := s.launched + 1 }
    else none
  | .acquire j =>
    if s.jobs[j]? = some .waiting ∧ s.sem < limit then
      some { s with jobs := s.jobs.set j .running, sem := s.sem + 1 }
    else none
  | .finish j err =>
    if s.jobs[j]? = some .running then
      some { s with jobs := s.jobs.set j (.returned err) }
    else none
  | .release j =>
    match s.jobs[j]? with
    | some (.returned err) =>
      if 0 < s.sem then some { s with jobs := s.jobs.set j (.sending err), sem := s.sem - 1 }
      else none
    | _ => none
  | .deliver j =>
    match s.jobs[j]? with
    | some (.sending err) =>
      if s.launched = s.jobs.length ∧ s.results.length < s.jobs.length then
        some { s with jobs := s.jobs.set j .done, results := s.results ++ [(j, err)] }
      else none
    | _ => none

/-- Running a schedule: the actions one after the other. -/
def Sched.run (limit : Nat) : List Action → Sched → Option Sched
  | [], s => some s
  | a :: as, s =>
    match s.exec limit a with
    | some s' => Sched.run limit as s'
    | none => none

/-- Whether a job holds a slot: it is between `sem <- struct{}{}` and `<-sem`. -/
def JobPC.holding : JobPC → Bool
  | .running => true
  | .returned _ => true
  | _ => false

/-- The number of jobs that hold a slot. -/
def Sched.holders (s : Sched) : Nat := s.jobs.countP JobPC.holding

/-- How many steps a job still has to take. -/
def JobPC.rank : JobPC → Nat
  | .idle => 5
  | .waiting => 4
  | .running => 3
  | .returned _ => 2
  | .sending _ => 1
  | .done => 0

/-- The number of steps left in the whole batch. -/
def Sched.stepsLeft (s : Sched) : Nat := (s.jobs.map JobPC.rank).sum

/-- Whether a job has handed over its result. -/
def JobPC.isDone : JobPC → Bool
  | .done => true
  | _ => false

/-- The invariant of a batch of `n` jobs with concurrency limit `limit`. -/
structure Sched.Inv (n limit : Nat) (s : Sched) : Prop where
  size : s.jobs.length = n
  slots : s.sem = s.holders
  bound : s.sem ≤ limit
  launchedLe : s.launched ≤ n
  idleIff : ∀ j, j < n → (s.jobs[j]? = some .idle ↔ s.launched ≤ j)
  nodup : (s.results.map Prod.fst).Nodup
  doneIff : ∀ j, j ∈ s.results.map Prod.fst ↔ s.jobs[j]? = some .done
  count : s.results.length = s.jobs.countP JobPC.isDone

/-! ## Theorems: the retry wrapper -/

section RetryProofs

variable {W : Type}

theorem wrapInt64_of_range {x : Int} (h1 : -2 ^ 63 ≤ x) (h2 : x < 2 ^ 63) : wrapInt64 x = x := by
  unfold wrapInt64
  omega

theorem attemptRun_succ (op : W → Option GoError × W) (logRetry : Int → Int → W → W) (a : Int)
    (k : Nat) (w : W) :
    attemptRun op logRetry a (k + 1) w =
      op (if 1 < (k : Int) + 1 then logRetry ((k : Int) + 1) a (attemptRun op logRetry a k w).2
          else (attemptRun op logRetry a k w).2) := by
  simp [attemptRun]

/-- Running the loop from counter `j + 1`, after `j` failed attempts, when no later attempt
succeeds before the budget `m` is used up. -/
theorem retryLoop_all_fail (op : W → Option GoError × W) (logRetry : Int → Int → W → W)
    (m : Nat) (hmax : (m : Int) < 2 ^ 63 - 1) (w : W) :
    ∀ (d j fuel : Nat) (lastErr : Option GoError), j + d = m → d < fuel →
      (∀ k, j < k → k ≤ m → (attemptRun op logRetry m k w).1 ≠ none) →
      retryLoop op logRetry m fuel ((j : Int) + 1) lastErr (attemptRun op logRetry m j w).2
        = some (if d = 0 then lastErr else (attemptRun op logRetry m m w).1,
                (attemptRun op logRetry m m w).2) := by
  intro d
  induction d with
  | zero =>
    intro j fuel lastErr hj hf _
    obtain ⟨f, rfl⟩ : ∃ f, fuel = f + 1 := ⟨fuel - 1, by omega⟩
    have hjm : j = m := by omega
    subst hjm
    simp [retryLoop]
  | succ d ih =>
    intro j fuel lastErr hj hf hall
    obtain ⟨f, rfl⟩ : ∃ f, fuel = f + 1 := ⟨fuel - 1, by omega⟩
    have hle : (j : Int) + 1 ≤ (m : Int) := by omega
    have hfail := hall (j + 1) (by omega) (by omega)
    have hrun := attemptRun_succ op logRetry m j w
    rw [retryLoop, if_pos hle]
    simp only []
    rw [← hrun]
    cases hres : attemptRun op logRetry m (j + 1) w with
    | mk r w2 =>
      cases r with
      | none => simp [hres] at hfail
      | some e =>
        simp only []
        have hw : wrapInt64 ((j : Int) + 1 + 1) = ((j + 1 : Nat) : Int) + 1 := by
          rw [wrapInt64_of_range (by omega) (by omega)]
          push_cast
          ring
        rw [hw]
        have hw2 : w2 = (attemptRun op logRetry m (j + 1) w).2 := by rw [hres]
        rw [hw2, ih (j + 1) f (some e) (by omega) (by omega)
          (fun k hk hkm => hall k (by omega) hkm)]
        by_cases hd : d = 0
        · have hjm : m = j + 1 := by omega
          have hA : attemptRun op logRetry (m : Int) m w = (some e, w2) :=
            (congrArg (fun k => attemptRun op logRetry (m : Int) k w) hjm).trans hres
          simp [hd, hA]
        · simp [hd]

/-- Running the loop from counter `j + 1` when attempt number `j + d + 1` is the first one
that succeeds. -/
theorem retryLoop_first_success (op : W → Option GoError × W) (logRetry : Int → Int → W → W)
    (m : Nat) (hmax : (m : Int) < 2 ^ 63 - 1) (w : W) :
    ∀ (d j fuel : Nat) (lastErr : Option GoError), j + d + 1 ≤ m → d < fuel →
      (∀ k, j < k → k < j + d + 1 → (attemptRun op logRetry m k w).1 ≠ none) →
      (attemptRun op logRetry m (j + d + 1) w).1 = none →
      retryLoop op logRetry m fuel ((j : Int) + 1) lastErr (attemptRun op logRetry m j w).2
        = some (none, (attemptRun op logRetry m (j + d + 1) w).2) := by
  intro d
  induction d with
  | zero =>
    intro j fuel lastErr hj hf _ hsucc
    obtain ⟨f, rfl⟩ : ∃ f, fuel = f + 1 := ⟨fuel - 1, by omega⟩
    have hle : (j : Int) + 1 ≤ (m : Int) := by omega
    have hrun := attemptRun_succ op logRetry m j w
    rw [retryLoop, if_pos hle]
    simp only []
    rw [← hrun]
    simp only [Nat.add_zero] at hsucc ⊢
    cases hres : attemptRun op logRetry m (j + 1) w with
    | mk r w2 =>
      cases r with
      | none => rfl
      | some e => simp [hres] at hsucc
  | succ d ih =>
    intro j fuel lastErr hj hf hall hsucc
    obtain ⟨f, rfl⟩ : ∃ f, fuel = f + 1 := ⟨fuel - 1, by omega⟩
    have hle : (j : Int) + 1 ≤ (m : Int) := by omega
    have hfail := hall (j + 1) (by omega) (by omega)
    have hrun := attemptRun_succ op logRetry m j w
    rw [retryLoop, if_pos hle]
    simp only []
    rw [← hrun]
    cases hres : attemptRun op logRetry m (j + 1) w with
    | mk r w2 =>
      cases r with
      | none => simp [hres] at hfail
      | some e =>
        simp only []
        have hw : wrapInt64 ((j : Int) + 1 + 1) = ((j + 1 : Nat) : Int) + 1 := by
          rw [wrapInt64_of_range (by omega) (by omega)]
          push_cast
          ring
        rw [hw]
        have hw2 : w2 = (attemptRun op logRetry m (j + 1) w).2 := by rw [hres]
        have hidx : j + 1 + d + 1 = j + (d + 1) + 1 := by omega
        rw [hw2, ih (j + 1) f (some e) (by omega) (by omega)
          (fun k hk hkm => hall k (by omega) (by omega)) (by rw [hidx]; exact hsucc), hidx]

end RetryProofs

section RetryMain

variable {W : Type}

/-- C3. `DownloadFileWithRetry` with `attempts = n` (below the largest `int`, so that the loop
counter cannot wrap) and enough fuel returns after exactly `k` sequential attempts of the
underlying operation, for some `1 ≤ k ≤ max n 1`: its result is the outcome and world of
attempt `k`, every attempt before `k` failed, and `k` falls short of `max n 1` only when
attempt `k` succeeded.  Hence the result is `nil` iff one of the first `max n 1` attempts
succeeds, and otherwise it is the error of attempt `max n 1`.  With `n < 1` there is exactly
one attempt; with `n = 3` and three failing attempts there are exactly three. -/
theorem DownloadFileWithRetry_attempts (op : W → Option GoError × W)
    (logRetry : Int → Int → W → W) (n : Int) (fuel : Nat) (w : W)
    (hn : n < 2 ^ 63 - 1) (hfuel : (max n 1).toNat < fuel) :
    ∃ k : Nat, 1 ≤ k ∧ (k : Int) ≤ max n 1 ∧
      DownloadFileWithRetry op logRetry n fuel w
        = some (attemptRun op logRetry (max n 1) k w) ∧
      (∀ j, 1 ≤ j → j < k → (attemptRun op logRetry (max n 1) j w).1 ≠ none) ∧
      ((k : Int) < max n 1 → (attemptRun op logRetry (max n 1) k w).1 = none) ∧
      ((attemptRun op logRetry (max n 1) k w).1 = none ↔
        ∃ j : Nat, 1 ≤ j ∧ (j : Int) ≤ max n 1 ∧
          (attemptRun op logRetry (max n 1) j w).1 = none) ∧
      (n < 1 → k = 1) ∧
      (n = 3 → (∀ j, 1 ≤ j → j ≤ 3 → (attemptRun op logRetry 3 j w).1 ≠ none) → k = 3) := by
  classical
  obtain ⟨m, hm⟩ : ∃ m : Nat, (m : Int) = max n 1 := ⟨(max n 1).toNat, by omega⟩
  have hm1 : 1 ≤ m := by omega
  have hmlt : (m : Int) < 2 ^ 63 - 1 := by omega
  have hfuel' : m < fuel := by omega
  have hclamp : (if n < 1 then (1 : Int) else n) = (m : Int) := by
    split <;> omega
  have hdef : DownloadFileWithRetry op logRetry n fuel w
      = retryLoop op logRetry m fuel ((0 : Nat) + 1 : Int) none
          (attemptRun op logRetry m 0 w).2 := by
    simp [DownloadFileWithRetry, hclamp, attemptRun]
  rw [← hm]
  by_cases hex : ∃ j : Nat, 1 ≤ j ∧ j ≤ m ∧ (attemptRun op logRetry m j w).1 = none
  · -- some attempt succeeds: take the first one
    let k := Nat.find hex
    have hk : 1 ≤ k ∧ k ≤ m ∧ (attemptRun op logRetry m k w).1 = none := Nat.find_spec hex
    have hmin : ∀ j, 1 ≤ j → j < k → (attemptRun op logRetry m j w).1 ≠ none := by
      intro j hj1 hjk hnone
      exact Nat.find_min hex hjk ⟨hj1, by omega, hnone⟩
    obtain ⟨d, hd⟩ : ∃ d, k = 0 + d + 1 := ⟨k - 1, by omega⟩
    have hloop := retryLoop_first_success op logRetry m hmlt w d 0 fuel none
      (by omega) (by omega) (fun j hj hjk => hmin j (by omega) (by omega)) (by rw [← hd]; exact hk.2.2)
    rw [← hd] at hloop
    refine ⟨k, hk.1, by exact_mod_cast hk.2.1, ?_, hmin, fun _ => hk.2.2, ?_, ?_, ?_⟩
    · rw [hdef, hloop]
      have : (attemptRun op logRetry m k w) = (none, (attemptRun op logRetry m k w).2) := by
        rw [← hk.2.2]
      rw [← this]
    · constructor
      · intro _
        exact ⟨k, hk.1, by exact_mod_cast hk.2.1, hk.2.2⟩
      · intro _
        exact hk.2.2
    · intro hn1
      have : m = 1 := by omega
      omega
    · intro hn3 hfail
      exfalso
      have hm3 : m = 3 := by omega
      have h3 : ((3 : Nat) : Int) = (3 : Int) := rfl
      have := hfail k hk.1 (by omega)
      rw [← h3, ← hm3] at this
      exact this hk.2.2
  · -- every attempt fails
    have hall : ∀ j, 0 < j → j ≤ m → (attemptRun op logRetry m j w).1 ≠ none := by
      intro j hj hjm hnone
      exact hex ⟨j, hj, hjm, hnone⟩
    have hloop := retryLoop_all_fail op logRetry m hmlt w m 0 fuel none (by omega) hfuel' hall
    have hm0 : ¬ m = 0 := by omega
    rw [if_neg hm0] at hloop
    refine ⟨m, hm1, le_refl _, ?_, fun j hj hjm => hall j hj (by omega), ?_, ?_, ?_, ?_⟩
    · rw [hdef, hloop]
    · intro h
      exact absurd h (lt_irrefl _)
    · constructor
      · intro h
        exact absurd h (hall m hm1 (le_refl _))
      · rintro ⟨j, hj1, hjm, hnone⟩
        exact absurd hnone (hall j hj1 (by exact_mod_cast hjm))
    · intro hn1
      omega
    · intro hn3 _
      omega

end RetryMain

/-! ## Theorems: splitting, joining and cleaning paths -/

theorem splitSlash_ne_nil (s : GoString) : splitSlash s ≠ [] := by
  induction s with
  | nil => simp [splitSlash]
  | cons c cs ih =>
    unfold splitSlash
    split
    · simp
    · cases h : splitSlash cs with
      | nil => simp
      | cons a t => simp

theorem splitSlash_slash (s : GoString) : splitSlash ('/' :: s) = [] :: splitSlash s := by
  simp [splitSlash]

theorem splitSlash_exists (s : GoString) : ∃ h t, splitSlash s = h :: t := by
  cases h : splitSlash s with
  | nil => exact absurd h (splitSlash_ne_nil s)
  | cons a t => exact ⟨a, t, rfl⟩

theorem splitSlash_cons_of_ne {c : Char} (hc : c ≠ '/') {s h : GoString} {t : List GoString}
    (hs : splitSlash s = h :: t) : splitSlash (c :: s) = (c :: h) :: t := by
  conv_lhs => unfold splitSlash
  rw [if_neg hc, hs]

theorem splitSlash_append (a b : GoString) :
    splitSlash (a ++ '/' :: b) = splitSlash a ++ splitSlash b := by
  induction a with
  | nil => simp [splitSlash]
  | cons c cs ih =>
    by_cases hc : c = '/'
    · subst hc
      simp [splitSlash_slash, ih]
    · obtain ⟨h, t, hs⟩ := splitSlash_exists cs
      have hs' : splitSlash (cs ++ '/' :: b) = h :: (t ++ splitSlash b) := by rw [ih, hs]; rfl
      rw [List.cons_append, splitSlash_cons_of_ne hc hs', splitSlash_cons_of_ne hc hs]
      rfl

theorem mem_splitSlash_noSlash : ∀ (s : GoString) (e : GoString), e ∈ splitSlash s → '/' ∉ e := by
  intro s
  induction s with
  | nil => intro e he; simp [splitSlash] at he; subst he; simp
  | cons c cs ih =>
    intro e he
    by_cases hc : c = '/'
    · subst hc
      rw [splitSlash_slash] at he
      rcases List.mem_cons.1 he with h | h
      · subst h; simp
      · exact ih e h
    · obtain ⟨h, t, hs⟩ := splitSlash_exists cs
      rw [splitSlash_cons_of_ne hc hs] at he
      rcases List.mem_cons.1 he with h1 | h1
      · subst h1
        intro hmem
        rcases List.mem_cons.1 hmem with h2 | h2
        · exact hc h2.symm
        · exact ih h (by rw [hs]; simp) h2
      · exact ih e (by rw [hs]; exact List.mem_cons_of_mem _ h1)

theorem joinSlash_cons_cons (e f : GoString) (es : List GoString) :
    joinSlash (e :: f :: es) = e ++ '/' :: joinSlash (f :: es) := rfl

theorem splitSlash_noSlash {e : GoString} (h : '/' ∉ e) : splitSlash e = [e] := by
  induction e with
  | nil => rfl
  | cons c cs ih =>
    have hc : c ≠ '/' := fun hc => h (by simp [hc])
    have hcs : '/' ∉ cs := fun hm => h (List.mem_cons_of_mem _ hm)
    rw [splitSlash_cons_of_ne hc (ih hcs)]

theorem splitSlash_joinSlash : ∀ (es : List GoString), es ≠ [] → (∀ e ∈ es, '/' ∉ e) →
    splitSlash (joinSlash es) = es := by
  intro es
  induction es with
  | nil => intro h; exact absurd rfl h
  | cons e es ih =>
    intro _ hall
    cases es with
    | nil => simpa [joinSlash] using splitSlash_noSlash (hall e (by simp))
    | cons f fs =>
      rw [joinSlash_cons_cons, splitSlash_append, splitSlash_noSlash (hall e (by simp)),
        ih (by simp) (fun x hx => hall x (List.mem_cons_of_mem _ hx))]
      rfl

/-! ### `cleanElems` -/

theorem IsName.ne_dotdot {e : GoString} (h : IsName e) : e ≠ ['.', '.'] := h.2.2

theorem cleanElems_nil (r : Bool) (stack : List GoString) :
    cleanElems r stack [] = stack.reverse := rfl

theorem cleanElems_trivial (r : Bool) (stack : List GoString) {e : GoString}
    (es : List GoString) (h : e = [] ∨ e = ['.']) :
    cleanElems r stack (e :: es) = cleanElems r stack es := by
  conv_lhs => unfold cleanElems
  rw [if_pos h]

theorem cleanElems_name (r : Bool) (stack : List GoString) {e : GoString}
    (es : List GoString) (h : IsName e) :
    cleanElems r stack (e :: es) = cleanElems r (e :: stack) es := by
  have h1 : ¬ (e = [] ∨ e = ['.']) := fun h' => h'.elim h.1 h.2.1
  conv_lhs => unfold cleanElems
  rw [if_neg h1, if_neg h.ne_dotdot]

theorem cleanElems_dotdot_nil_rooted (es : List GoString) :
    cleanElems true [] (dotdot :: es) = cleanElems true [] es := by
  simp [cleanElems, dotdot]

theorem cleanElems_dotdot_nil_rel (es : List GoString) :
    cleanElems false [] (dotdot :: es) = cleanElems false [dotdot] es := by
  simp [cleanElems, dotdot]

theorem cleanElems_dotdot_dotdot (r : Bool) (rest es : List GoString) :
    cleanElems r (dotdot :: rest) (dotdot :: es) = cleanElems r (dotdot :: dotdot :: rest) es := by
  simp [cleanElems, dotdot]

theorem cleanElems_dotdot_pop (r : Bool) {top : GoString} (rest es : List GoString)
    (h : top ≠ dotdot) :
    cleanElems r (top :: rest) (dotdot :: es) = cleanElems r rest es := by
  have h' : ¬ top = ['.', '.'] := h
  simp [cleanElems, dotdot, h']

theorem cleanElems_skip (r : Bool) (stack : List GoString) :
    ∀ (T more : List GoString), (∀ t ∈ T, t = [] ∨ t = ['.']) →
      cleanElems r stack (T ++ more) = cleanElems r stack more := by
  intro T
  induction T with
  | nil => intro _ _; rfl
  | cons t T ih =>
    intro more h
    rw [List.cons_append, cleanElems_trivial r stack _ (h t (by simp))]
    exact ih more (fun x hx => h x (List.mem_cons_of_mem _ hx))

theorem cleanElems_mem (r : Bool) : ∀ (es stack : List GoString) (e : GoString),
    e ∈ cleanElems r stack es → e ∈ stack ∨ e ∈ es := by
  intro es
  induction es with
  | nil => intro stack e h; left; simpa [cleanElems] using h
  | cons x es ih =>
    intro stack e h
    by_cases ht : x = [] ∨ x = ['.']
    · rw [cleanElems_trivial r stack es ht] at h
      rcases ih stack e h with h1 | h1
      · exact Or.inl h1
      · exact Or.inr (List.mem_cons_of_mem _ h1)
    · by_cases hd : x = dotdot
      · subst hd
        cases stack with
        | nil =>
          cases r with
          | true =>
            rw [cleanElems_dotdot_nil_rooted] at h
            rcases ih [] e h with h1 | h1
            · exact Or.inl h1
            · exact Or.inr (List.mem_cons_of_mem _ h1)
          | false =>
            rw [cleanElems_dotdot_nil_rel] at h
            rcases ih [dotdot] e h with h1 | h1
            · right; simp at h1; simp [h1]
            · exact Or.inr (List.mem_cons_of_mem _ h1)
        | cons top rest =>
          by_cases htop : top = dotdot
          · subst htop
            rw [cleanElems_dotdot_dotdot] at h
            rcases ih _ e h with h1 | h1
            · rcases List.mem_cons.1 h1 with h2 | h2
              · right; simp [h2]
              · exact Or.inl h2
            · exact Or.inr (List.mem_cons_of_mem _ h1)
          · rw [cleanElems_dotdot_pop r rest es htop] at h
            rcases ih rest e h with h1 | h1
            · exact Or.inl (List.mem_cons_of_mem _ h1)
            · exact Or.inr (List.mem_cons_of_mem _ h1)
      · have hn : IsName x := ⟨fun h0 => ht (Or.inl h0), fun h0 => ht (Or.inr h0), hd⟩
        rw [cleanElems_name r stack es hn] at h
        rcases ih _ e h with h1 | h1
        · rcases List.mem_cons.1 h1 with h2 | h2
          · right; simp [h2]
          · exact Or.inl h2
        · exact Or.inr (List.mem_cons_of_mem _ h1)

/-! ### `CleanForm` -/

theorem IsName_dotdot_false : ¬ IsName dotdot := fun h => h.2.2 rfl

theorem CleanForm.of_names (r : Bool) : ∀ (es : List GoString), (∀ n ∈ es, IsName n) →
    CleanForm r es := by
  intro es h
  cases es with
  | nil => trivial
  | cons e es =>
    exact Or.inr ⟨h e (by simp), fun n hn => h n (List.mem_cons_of_mem _ hn)⟩

theorem CleanForm.elem {r : Bool} : ∀ {es : List GoString}, CleanForm r es →
    ∀ e ∈ es, e = dotdot ∨ IsName e := by
  intro es
  induction es with
  | nil => intro _ e he; simp at he
  | cons x es ih =>
    intro h e he
    rcases h with ⟨hx, _, hrest⟩ | ⟨hx, hrest⟩
    · rcases List.mem_cons.1 he with h1 | h1
      · left; rw [h1, hx]
      · exact ih hrest e h1
    · rcases List.mem_cons.1 he with h1 | h1
      · right; rw [h1]; exact hx
      · exact Or.inr (hrest e h1)

theorem CleanForm.tail {r : Bool} {e : GoString} {es : List GoString}
    (h : CleanForm r (e :: es)) : CleanForm r es := by
  rcases h with ⟨_, _, hrest⟩ | ⟨_, hrest⟩
  · exact hrest
  · exact CleanForm.of_names r es hrest

theorem CleanForm.append_name {r : Bool} : ∀ {es : List GoString} {n : GoString},
    CleanForm r es → IsName n → CleanForm r (es ++ [n]) := by
  intro es
  induction es with
  | nil => intro n _ hn; exact Or.inr ⟨hn, by simp⟩
  | cons x es ih =>
    intro n h hn
    rcases h with ⟨hx, hr, hrest⟩ | ⟨hx, hrest⟩
    · exact Or.inl ⟨hx, hr, ih hrest hn⟩
    · refine Or.inr ⟨hx, ?_⟩
      intro m hm
      rcases List.mem_append.1 hm with h1 | h1
      · exact hrest m h1
      · simp at h1; rw [h1]; exact hn

theorem CleanForm.init {r : Bool} : ∀ {a b : List GoString},
    CleanForm r (a ++ b) → CleanForm r a := by
  intro a
  induction a with
  | nil => intro _ _; trivial
  | cons x a ih =>
    intro b h
    rcases h with ⟨hx, hr, hrest⟩ | ⟨hx, hrest⟩
    · exact Or.inl ⟨hx, hr, ih hrest⟩
    · exact Or.inr ⟨hx, fun n hn => hrest n (List.mem_append_left _ hn)⟩

/-- In a cleaned list a `..` is only preceded by `..` elements, and the path is relative. -/
theorem CleanForm.before_dotdot {r : Bool} : ∀ {a b : List GoString},
    CleanForm r (a ++ dotdot :: b) → (∀ x ∈ a, x = dotdot) ∧ r = false := by
  intro a
  induction a with
  | nil =>
    intro b h
    rcases h with ⟨_, hr, _⟩ | ⟨hx, _⟩
    · exact ⟨by simp, hr⟩
    · exact absurd hx IsName_dotdot_false
  | cons x a ih =>
    intro b h
    rcases h with ⟨hx, hr, hrest⟩ | ⟨_, hrest⟩
    · refine ⟨?_, hr⟩
      intro y hy
      rcases List.mem_cons.1 hy with h1 | h1
      · rw [h1, hx]
      · exact (ih hrest).1 y h1
    · exact absurd (hrest dotdot (by simp)) IsName_dotdot_false

theorem CleanForm.of_dotdots {es : List GoString} (h : ∀ x ∈ es, x = dotdot) :
    CleanForm false es := by
  induction es with
  | nil => trivial
  | cons x es ih =>
    exact Or.inl ⟨h x (by simp), rfl, ih (fun y hy => h y (List.mem_cons_of_mem _ hy))⟩

theorem CleanForm.append_dotdot {a : List GoString} (h : ∀ x ∈ a, x = dotdot) :
    CleanForm false (a ++ [dotdot]) := by
  apply CleanForm.of_dotdots
  intro x hx
  rcases List.mem_append.1 hx with h1 | h1
  · exact h x h1
  · simpa using h1

/-- The output of `cleanElems` is in clean form when the stack is. -/
theorem cleanElems_cleanForm (r : Bool) : ∀ (es stack : List GoString),
    CleanForm r stack.reverse → CleanForm r (cleanElems r stack es) := by
  intro es
  induction es with
  | nil => intro stack h; simpa [cleanElems] using h
  | cons x es ih =>
    intro stack h
    by_cases ht : x = [] ∨ x = ['.']
    · rw [cleanElems_trivial r stack es ht]; exact ih stack h
    · by_cases hd : x = dotdot
      · subst hd
        cases stack with
        | nil =>
          cases r with
          | true => rw [cleanElems_dotdot_nil_rooted]; exact ih [] h
          | false =>
            rw [cleanElems_dotdot_nil_rel]
            exact ih [dotdot] (Or.inl ⟨rfl, rfl, trivial⟩)
        | cons top rest =>
          by_cases htop : top = dotdot
          · subst htop
            rw [cleanElems_dotdot_dotdot]
            apply ih
            rw [List.reverse_cons, List.reverse_cons] at *
            have hb := CleanForm.before_dotdot (a := rest.reverse) (b := []) h
            cases r with
            | true => exact absurd hb.2 (by simp)
            | false =>
              apply CleanForm.append_dotdot
              intro y hy
              rcases List.mem_append.1 hy with h1 | h1
              · exact hb.1 y h1
              · simpa using h1
          · rw [cleanElems_dotdot_pop r rest es htop]
            apply ih
            rw [List.reverse_cons] at h
            exact h.init
      · have hn : IsName x := ⟨fun h0 => ht (Or.inl h0), fun h0 => ht (Or.inr h0), hd⟩
        rw [cleanElems_name r stack es hn]
        apply ih
        rw [List.reverse_cons]
        exact h.append_name hn

theorem elemsOf_cleanForm (x : GoString) : CleanForm (x.head? = some '/') (elemsOf x) :=
  cleanElems_cleanForm _ _ [] trivial

/-- Elements already in clean form are pushed onto the stack one after the other. -/
theorem cleanElems_push (r : Bool) : ∀ (es stack more : List GoString),
    CleanForm r (stack.reverse ++ es) →
    cleanElems r stack (es ++ more) = cleanElems r (es.reverse ++ stack) more := by
  intro es
  induction es with
  | nil => intro stack more _; rfl
  | cons x es ih =>
    intro stack more h
    have hstep : CleanForm r ((x :: stack).reverse ++ es) := by
      simpa [List.reverse_cons, List.append_assoc] using h
    have hgoal : (x :: es).reverse ++ stack = es.reverse ++ (x :: stack) := by simp
    rw [List.cons_append, hgoal, ← ih (x :: stack) more hstep]
    by_cases hd : x = dotdot
    · subst hd
      have hb := CleanForm.before_dotdot h
      have hr : r = false := hb.2
      subst hr
      cases stack with
      | nil => exact cleanElems_dotdot_nil_rel _
      | cons top rest =>
        have htop : top = dotdot := hb.1 top (by simp)
        subst htop
        exact cleanElems_dotdot_dotdot _ _ _
    · have hx : IsName x := by
        have := (CleanForm.elem h) x (by simp)
        rcases this with h1 | h1
        · exact absurd h1 hd
        · exact h1
      exact cleanElems_name r stack _ hx

/-! ## Theorems: the shape of cleaned paths -/

theorem elemsOf_noSlash (x : GoString) : ∀ e ∈ elemsOf x, '/' ∉ e := by
  intro e he
  rcases cleanElems_mem _ _ _ e he with h | h
  · simp at h
  · exact mem_splitSlash_noSlash x e h

theorem CleanForm.not_trivial {r : Bool} {es : List GoString} (h : CleanForm r es) :
    ∀ e ∈ es, ¬ (e = [] ∨ e = ['.']) := by
  intro e he ht
  rcases h.elem e he with h1 | h1
  · subst h1; rcases ht with h2 | h2 <;> simp [dotdot] at h2
  · exact ht.elim h1.1 h1.2.1

theorem sem_append_trivial {T : List GoString} (hT : ∀ t ∈ T, t = [] ∨ t = ['.'])
    (es : List GoString) : sem (T ++ es) = sem es := by
  unfold sem
  rw [List.filter_append]
  have : T.filter (fun c => !(decide (c = [] ∨ c = ['.']))) = [] := by
    rw [List.filter_eq_nil_iff]
    intro t ht
    simp [hT t ht]
  rw [this]; rfl

theorem sem_of_cleanForm {r : Bool} {es : List GoString} (h : CleanForm r es) : sem es = es := by
  unfold sem
  rw [List.filter_eq_self]
  intro e he
  simp [h.not_trivial e he]

theorem sem_of_names {es : List GoString} (h : ∀ n ∈ es, IsName n) : sem es = es :=
  sem_of_cleanForm (CleanForm.of_names false es h)

theorem CleanForm.names_of_rooted : ∀ {es : List GoString}, CleanForm true es →
    ∀ n ∈ es, IsName n := by
  intro es h n hn
  cases es with
  | nil => simp at hn
  | cons e es =>
    rcases h with ⟨_, hr, _⟩ | ⟨he, hrest⟩
    · exact absurd hr (by simp)
    · rcases List.mem_cons.1 hn with h1 | h1
      · rw [h1]; exact he
      · exact hrest n h1

theorem CleanForm.append_names {r : Bool} : ∀ {es ns : List GoString}, CleanForm r es →
    (∀ n ∈ ns, IsName n) → CleanForm r (es ++ ns) := by
  intro es ns h
  induction ns generalizing es with
  | nil => intro _; simpa using h
  | cons n ns ih =>
    intro hn
    have h1 : CleanForm r (es ++ [n]) := h.append_name (hn n (by simp))
    have := ih h1 (fun m hm => hn m (List.mem_cons_of_mem _ hm))
    simpa [List.append_assoc] using this

theorem Clean_ne_nil (x : GoString) : Clean x ≠ [] := by
  unfold Clean
  split
  · simp
  · simp only
    split
    · simp
    · split
      · simp
      · rename_i h
        cases he : cleanElems (decide (x.head? = some '/')) [] (splitSlash x) with
        | nil => exact absurd he h
        | cons e es =>
          have hcf := elemsOf_cleanForm x
          unfold elemsOf at hcf
          rw [he] at hcf
          have hne : e ≠ [] := fun h0 => hcf.not_trivial e (by simp) (Or.inl h0)
          cases es with
          | nil => simpa [joinSlash] using hne
          | cons f fs => simp [joinSlash, hne]

/-- The components of a cleaned path are the cleaned elements, after at most two leading
elements that are empty or `.`. -/
theorem split_Clean (x : GoString) :
    ∃ T : List GoString, (∀ t ∈ T, t = [] ∨ t = ['.']) ∧
      splitSlash (Clean x) = T ++ elemsOf x := by
  by_cases hx : x = []
  · subst hx
    exact ⟨[['.']], by simp, by decide⟩
  · have hE : cleanElems (decide (x.head? = some '/')) [] (splitSlash x) = elemsOf x := rfl
    unfold Clean
    rw [if_neg hx]
    simp only [hE]
    by_cases hr : x.head? = some '/'
    · rw [if_pos hr, splitSlash_slash]
      by_cases he : elemsOf x = []
      · refine ⟨[[], []], by simp, ?_⟩
        rw [he]; rfl
      · refine ⟨[[]], by simp, ?_⟩
        rw [splitSlash_joinSlash _ he (elemsOf_noSlash x)]; rfl
    · rw [if_neg hr]
      by_cases he : elemsOf x = []
      · refine ⟨[['.']], by simp, ?_⟩
        rw [if_pos he, he]; rfl
      · refine ⟨[], by simp, ?_⟩
        rw [if_neg he, splitSlash_joinSlash _ he (elemsOf_noSlash x)]; rfl

theorem sem_split_Clean (x : GoString) : sem (splitSlash (Clean x)) = elemsOf x := by
  obtain ⟨T, hT, hs⟩ := split_Clean x
  rw [hs, sem_append_trivial hT, sem_of_cleanForm (elemsOf_cleanForm x)]

theorem head_joinSlash_ne_slash {e : GoString} {es : List GoString} (hne : e ≠ [])
    (hns : '/' ∉ e) : (joinSlash (e :: es)).head? ≠ some '/' := by
  cases e with
  | nil => exact absurd rfl hne
  | cons c cs =>
    have hc : c ≠ '/' := fun h => hns (by simp [h])
    cases es with
    | nil => simpa [joinSlash] using hc
    | cons f fs => simpa [joinSlash] using hc

/-- Cleaning keeps a path absolute or relative. -/
theorem head_Clean (x : GoString) : ((Clean x).head? = some '/') ↔ (x.head? = some '/') := by
  by_cases hx : x = []
  · subst hx
    simp [Clean]
  · have hE : cleanElems (decide (x.head? = some '/')) [] (splitSlash x) = elemsOf x := rfl
    unfold Clean
    rw [if_neg hx]
    simp only [hE]
    by_cases hr : x.head? = some '/'
    · rw [if_pos hr]; simp [hr]
    · rw [if_neg hr]
      constructor
      · intro h
        exfalso
        by_cases he : elemsOf x = []
        · rw [if_pos he] at h; simp at h
        · rw [if_neg he] at h
          cases hes : elemsOf x with
          | nil => exact he hes
          | cons e es =>
            rw [hes] at h
            have hcf := elemsOf_cleanForm x
            rw [hes] at hcf
            exact head_joinSlash_ne_slash
              (fun h0 => hcf.not_trivial e (by simp) (Or.inl h0))
              (elemsOf_noSlash x e (by rw [hes]; simp)) h
      · intro h; exact absurd h hr

theorem FS.start_Clean (fs : FS) (x : GoString) : fs.start (Clean x) = fs.start x := by
  unfold FS.start
  by_cases h : x.head? = some '/'
  · rw [if_pos h, if_pos ((head_Clean x).2 h)]
  · rw [if_neg h, if_neg (fun h' => h ((head_Clean x).1 h'))]

theorem Join_two {dir : GoString} (c : GoString) (h : dir ≠ []) :
    Join [dir, c] = Clean (dir ++ '/' :: c) := by
  simp [Join, List.dropWhile, h, joinSlash]

theorem joinSlash_dotdot_prefix (es : List GoString) :
    HasPrefix (joinSlash (dotdot :: es)) ['.', '.'] = true := by
  cases es with
  | nil => decide
  | cons f fs => simp [joinSlash, HasPrefix, dotdot, List.isPrefixOf]

/-- A cleaned name that does not start with `..` consists of proper names only. -/
theorem names_of_not_dotdot_prefix (y : GoString)
    (h : HasPrefix (Clean y) ['.', '.'] = false) : ∀ n ∈ elemsOf y, IsName n := by
  have hcf := elemsOf_cleanForm y
  by_cases hr : y.head? = some '/'
  · have : (decide (y.head? = some '/')) = true := by simp [hr]
    rw [this] at hcf
    exact hcf.names_of_rooted
  · cases hes : elemsOf y with
    | nil => simp
    | cons e es =>
      rw [hes] at hcf
      rcases hcf with ⟨he, _, _⟩ | ⟨he, hrest⟩
      · exfalso
        have hy : y ≠ [] := by
          intro h0; subst h0
          have : elemsOf [] = [] := by decide
          rw [this] at hes; simp at hes
        have hE : cleanElems (decide (y.head? = some '/')) [] (splitSlash y) = elemsOf y := rfl
        unfold Clean at h
        rw [if_neg hy] at h
        simp only [hE] at h
        rw [if_neg hr, hes, if_neg (by simp), he, joinSlash_dotdot_prefix] at h
        exact absurd h (by simp)
      · intro n hn
        rcases List.mem_cons.1 hn with h1 | h1
        · rw [h1]; exact he
        · exact hrest n h1

/-- The cleaned elements of `dir/name` are those of `dir` followed by those of `name`, when
both are cleaned and `name` does not start with `..`. -/
theorem elemsOf_joined (x y : GoString) (h : HasPrefix (Clean y) ['.', '.'] = false) :
    elemsOf (Clean x ++ '/' :: Clean y) = elemsOf x ++ elemsOf y := by
  have hne := Clean_ne_nil x
  have hhead : ((Clean x ++ '/' :: Clean y).head? = some '/') ↔ (x.head? = some '/') := by
    rw [← head_Clean x]
    cases hc : Clean x with
    | nil => exact absurd hc hne
    | cons a as => simp
  obtain ⟨T1, hT1, hs1⟩ := split_Clean x
  obtain ⟨T2, hT2, hs2⟩ := split_Clean y
  have hnames := names_of_not_dotdot_prefix y h
  have hcfx := elemsOf_cleanForm x
  have hdec : decide ((Clean x ++ '/' :: Clean y).head? = some '/')
      = decide (x.head? = some '/') := by
    simp only [decide_eq_decide]; exact hhead
  unfold elemsOf
  rw [hdec, splitSlash_append, hs1, hs2]
  change cleanElems _ [] (T1 ++ elemsOf x ++ (T2 ++ elemsOf y)) = elemsOf x ++ elemsOf y
  rw [List.append_assoc, cleanElems_skip _ _ T1 _ hT1,
    cleanElems_push _ (elemsOf x) [] _ (by simpa using hcfx),
    cleanElems_skip _ _ T2 _ hT2]
  have hpush := cleanElems_push (decide (x.head? = some '/')) (elemsOf y)
    ((elemsOf x).reverse ++ []) [] (by simpa using hcfx.append_names hnames)
  simp only [List.append_nil] at hpush ⊢
  rw [hpush, cleanElems_nil]
  simp

theorem sem_split_Join (x y : GoString) (h : HasPrefix (Clean y) ['.', '.'] = false) :
    sem (splitSlash (Join [Clean x, Clean y])) = elemsOf x ++ elemsOf y := by
  rw [Join_two _ (Clean_ne_nil x), sem_split_Clean, elemsOf_joined x y h]

theorem FS.start_Join (fs : FS) (x y : GoString) :
    fs.start (Join [Clean x, Clean y]) = fs.start x := by
  rw [Join_two _ (Clean_ne_nil x), FS.start_Clean]
  have hne := Clean_ne_nil x
  rw [← FS.start_Clean fs x]
  unfold FS.start
  cases hc : Clean x with
  | nil => exact absurd hc hne
  | cons a as => simp

/-! ## Theorems: `filepath.Dir` of a cleaned path -/

theorem Dir_eq (p : GoString) : Dir p = Clean (upToLastSlash p) := rfl

theorem Dir_ne_nil (p : GoString) : Dir p ≠ [] := Clean_ne_nil _

theorem dropWhile_append_all {α : Type} (p : α → Bool) : ∀ (l rest : List α),
    (∀ c ∈ l, p c = true) → (l ++ rest).dropWhile p = rest.dropWhile p := by
  intro l
  induction l with
  | nil => intro _ _; rfl
  | cons a l ih =>
    intro rest h
    rw [List.cons_append, List.dropWhile_cons, if_pos (h a (by simp))]
    exact ih rest (fun c hc => h c (List.mem_cons_of_mem _ hc))

theorem upToLastSlash_noSlash {b : GoString} (h : '/' ∉ b) : upToLastSlash b = [] := by
  unfold upToLastSlash
  have := dropWhile_append_all (fun c : Char => decide (c ≠ '/')) b.reverse []
    (by intro c hc; simp; intro h0; subst h0; exact h (List.mem_reverse.1 hc))
  simp only [List.append_nil, List.dropWhile_nil] at this
  rw [this]; rfl

theorem upToLastSlash_append (a : GoString) {b : GoString} (h : '/' ∉ b) :
    upToLastSlash (a ++ '/' :: b) = a ++ ['/'] := by
  unfold upToLastSlash
  have hrev : (a ++ '/' :: b).reverse = b.reverse ++ '/' :: a.reverse := by simp
  rw [hrev, dropWhile_append_all (fun c : Char => decide (c ≠ '/')) b.reverse _
    (by intro c hc; simp; intro h0; subst h0; exact h (List.mem_reverse.1 hc))]
  simp [List.dropWhile]

theorem joinSlash_append_last : ∀ (es : List GoString) (l : GoString), es ≠ [] →
    joinSlash (es ++ [l]) = joinSlash es ++ '/' :: l := by
  intro es
  induction es with
  | nil => intro l h; exact absurd rfl h
  | cons e es ih =>
    intro l _
    cases es with
    | nil => simp [joinSlash]
    | cons f fs =>
      rw [List.cons_append, List.cons_append, joinSlash_cons_cons, ← List.cons_append,
        ih l (by simp), joinSlash_cons_cons]
      simp

theorem Clean_eq (z : GoString) :
    Clean z = if z.head? = some '/' then '/' :: joinSlash (elemsOf z)
              else if elemsOf z = [] then ['.'] else joinSlash (elemsOf z) := by
  by_cases hz : z = []
  · subst hz; decide
  · unfold Clean
    rw [if_neg hz]
    rfl

theorem cleanElems_of_cleanForm {r : Bool} {es : List GoString} (h : CleanForm r es)
    (T : List GoString) (hT : ∀ t ∈ T, t = [] ∨ t = ['.']) :
    cleanElems r [] (es ++ T) = es := by
  rw [cleanElems_push r es [] T (by simpa using h)]
  have := cleanElems_skip r (es.reverse ++ []) T [] hT
  simp only [List.append_nil] at this ⊢
  rw [this, cleanElems_nil]
  simp

/-- Go `filepath.Dir` of a cleaned path drops the last cleaned element, and keeps the path
absolute or relative. -/
theorem elemsOf_upTo_Clean (z : GoString) :
    elemsOf (upToLastSlash (Clean z)) = (elemsOf z).dropLast ∧
    ((upToLastSlash (Clean z)).head? = some '/' ↔ z.head? = some '/') := by
  have hcf := elemsOf_cleanForm z
  have hns := elemsOf_noSlash z
  rw [Clean_eq]
  by_cases hr : z.head? = some '/'
  · rw [if_pos hr]
    have hdec : decide (z.head? = some '/') = true := by simp [hr]
    rw [hdec] at hcf
    rcases List.eq_nil_or_concat (elemsOf z) with he | ⟨es', l, he⟩
    · rw [he]
      exact ⟨by decide, by simp [hr]; decide⟩
    · rw [List.concat_eq_append] at he
      rw [he] at hcf hns ⊢
      have hl : '/' ∉ l := hns l (by simp)
      rw [List.dropLast_concat]
      by_cases hes : es' = []
      · subst hes
        have h1 : ('/' :: joinSlash ([] ++ [l])) = [] ++ '/' :: l := by simp [joinSlash]
        rw [h1, upToLastSlash_append [] hl]
        exact ⟨by decide, by simp [hr]⟩
      · have h1 : ('/' :: joinSlash (es' ++ [l])) = ('/' :: joinSlash es') ++ '/' :: l := by
          rw [joinSlash_append_last es' l hes]; rfl
        rw [h1, upToLastSlash_append _ hl]
        refine ⟨?_, by simp [hr]⟩
        unfold elemsOf
        have h2 : ('/' :: joinSlash es' ++ ['/']) = ('/' :: joinSlash es') ++ '/' :: [] := rfl
        rw [h2, splitSlash_append, splitSlash_slash,
          splitSlash_joinSlash es' hes (fun e he' => hns e (by simp [he']))]
        have h3 : (('/' :: joinSlash es' ++ '/' :: []).head? = some '/') := rfl
        simp only [h3, decide_True]
        have h4 : ([] :: es' ++ splitSlash []) = [[]] ++ (es' ++ [[]]) := rfl
        rw [h4, cleanElems_skip _ _ [[]] _ (by simp)]
        exact cleanElems_of_cleanForm hcf.init [[]] (by simp)
  · rw [if_neg hr]
    have hdec : decide (z.head? = some '/') = false := by simp [hr]
    rw [hdec] at hcf
    rcases List.eq_nil_or_concat (elemsOf z) with he | ⟨es', l, he⟩
    · rw [he]
      exact ⟨by decide, by simp [hr]; decide⟩
    · rw [List.concat_eq_append] at he
      rw [he] at hcf hns ⊢
      have hl : '/' ∉ l := hns l (by simp)
      have hne : es' ++ [l] ≠ [] := by simp
      rw [if_neg hne, List.dropLast_concat]
      by_cases hes : es' = []
      · subst hes
        have h1 : joinSlash ([] ++ [l]) = l := by simp [joinSlash]
        rw [h1, upToLastSlash_noSlash hl]
        exact ⟨by decide, by simp [hr]⟩
      · rw [joinSlash_append_last es' l hes, upToLastSlash_append _ hl]
        have hhead : ¬ ((joinSlash es' ++ ['/']).head? = some '/') := by
          cases hes' : es' with
          | nil => exact absurd hes' hes
          | cons e es'' =>
            have hcf' : CleanForm false (e :: es'') := hes' ▸ hcf.init
            have hne' : e ≠ [] := fun h0 => hcf'.not_trivial e (by simp) (Or.inl h0)
            have := @head_joinSlash_ne_slash e es'' hne' (hns e (by simp [hes']))
            cases hj : joinSlash (e :: es'') with
            | nil =>
              exfalso
              cases es'' with
              | nil => simp [joinSlash] at hj; exact hne' hj
              | cons f fs => simp [joinSlash] at hj
            | cons c cs =>
              rw [hj] at this
              simpa using this
        refine ⟨?_, ⟨fun h => absurd h hhead, fun h => absurd h hr⟩⟩
        unfold elemsOf
        have h2 : (joinSlash es' ++ ['/']) = joinSlash es' ++ '/' :: [] := rfl
        have hd2 : decide ((joinSlash es' ++ ['/']).head? = some '/') = false :=
          decide_eq_false hhead
        rw [hd2, h2, splitSlash_append,
          splitSlash_joinSlash es' hes (fun e he' => hns e (by simp [he']))]
        exact cleanElems_of_cleanForm hcf.init [[]] (by simp [splitSlash])

theorem sem_split_Dir_Clean (z : GoString) :
    sem (splitSlash (Dir (Clean z))) = (elemsOf z).dropLast := by
  rw [Dir_eq, sem_split_Clean, (elemsOf_upTo_Clean z).1]

theorem FS.start_Dir_Clean (fs : FS) (z : GoString) : fs.start (Dir (Clean z)) = fs.start z := by
  rw [Dir_eq, FS.start_Clean]
  unfold FS.start
  by_cases h : z.head? = some '/'
  · rw [if_pos h, if_pos ((elemsOf_upTo_Clean z).2.2 h)]
  · rw [if_neg h, if_neg (fun h' => h ((elemsOf_upTo_Clean z).2.1 h'))]

/-! ## Theorems: basic facts about the filesystem model -/

theorem FS.grows_refl (fs : FS) : FS.Grows fs fs := ⟨rfl, rfl, rfl, fun _ _ h => h⟩

theorem FS.grows_trans {a b c : FS} (h1 : FS.Grows a b) (h2 : FS.Grows b c) : FS.Grows a c :=
  ⟨h2.cwd.trans h1.cwd, h2.deny.trans h1.deny, h2.newDirSize.trans h1.newDirSize,
    fun l n h => h2.node l n (h1.node l n h)⟩

theorem FS.isDirAt_iff {fs : FS} {l : Loc} : fs.isDirAt l = true ↔ ∃ s, fs.node l = some (.dir s) := by
  unfold FS.isDirAt
  cases h : fs.node l with
  | none => simp
  | some n => cases n <;> simp

theorem FS.Grows.isDirAt {fs fs' : FS} (h : FS.Grows fs fs') {l : Loc}
    (hd : fs.isDirAt l = true) : fs'.isDirAt l = true := by
  obtain ⟨s, hs⟩ := FS.isDirAt_iff.1 hd
  exact FS.isDirAt_iff.2 ⟨s, h.node l _ hs⟩

theorem FS.walk_mono {fs fs' : FS} (h : ∀ l, fs.isDirAt l = true → fs'.isDirAt l = true) :
    ∀ (cs : List GoString) (cur l : Loc), fs.walk cur cs = some l → fs'.walk cur cs = some l := by
  intro cs
  induction cs with
  | nil => intro cur l hw; simpa [FS.walk] using hw
  | cons c cs ih =>
    intro cur l hw
    unfold FS.walk at hw ⊢
    by_cases hd : fs.isDirAt cur = true
    · rw [if_pos hd] at hw
      rw [if_pos (h cur hd)]
      exact ih _ _ hw
    · rw [if_neg hd] at hw
      exact absurd hw (by simp)

theorem FS.set_grows {fs : FS} {loc : Loc} {n : Node} (h : fs.node loc = none) :
    FS.Grows fs (fs.set loc (some n)) := by
  refine ⟨rfl, rfl, rfl, ?_⟩
  intro l m hl
  simp only [FS.set]
  by_cases heq : l = loc
  · subst heq; rw [h] at hl; exact absurd hl (by simp)
  · rw [if_neg heq]; exact hl

theorem mkdirWalk_grows : ∀ (cs : List GoString) (fs : FS) (cur : Loc) (r : Option GoError)
    (fs' : FS), mkdirWalk cs fs cur = (r, fs') → FS.Grows fs fs' := by
  intro cs
  induction cs with
  | nil =>
    intro fs cur r fs' h
    simp only [mkdirWalk, Prod.mk.injEq] at h
    rw [← h.2]; exact FS.grows_refl fs
  | cons c cs ih =>
    intro fs cur r fs' h
    unfold mkdirWalk at h
    cases hn : fs.node (stepLoc cur c) with
    | none =>
      rw [hn] at h
      simp only at h
      by_cases hdeny : fs.deny .mkdir (stepLoc cur c) = true
      · rw [if_pos hdeny] at h
        simp only [Prod.mk.injEq] at h
        rw [← h.2]; exact FS.grows_refl fs
      · rw [if_neg hdeny] at h
        exact FS.grows_trans (FS.set_grows hn) (ih _ _ _ _ h)
    | some n =>
      rw [hn] at h
      cases n with
      | dir s => exact ih _ _ _ _ h
      | file d =>
        simp only [Prod.mk.injEq] at h
        rw [← h.2]; exact FS.grows_refl fs

theorem FS.MkdirAll_grows {fs fs' : FS} {path : GoString} {r : Option GoError}
    (h : fs.MkdirAll path = (r, fs')) : FS.Grows fs fs' := by
  unfold FS.MkdirAll at h
  split at h
  · simp only [Prod.mk.injEq] at h
    rw [← h.2]; exact FS.grows_refl fs
  · exact mkdirWalk_grows _ _ _ _ _ h

theorem FS.Grows.start_same {fs fs' : FS} (h : FS.Grows fs fs') (p : GoString) :
    fs'.start p = fs.start p := by
  simp [FS.start, h.cwd]

theorem FS.Grows.Stat {fs fs' : FS} (h : FS.Grows fs fs') {p : GoString} {n : Node}
    (hs : fs.Stat p = some n) : fs'.Stat p = some n := by
  unfold FS.Stat at hs ⊢
  cases hl : fs.locate p with
  | none => rw [hl] at hs; exact absurd hs (by simp)
  | some loc =>
    rw [hl] at hs
    have hl' : fs'.locate p = some loc := by
      unfold FS.locate at hl ⊢
      split at hl
      · exact absurd hl (by simp)
      · rename_i hne
        rw [if_neg hne, h.start_same]
        exact FS.walk_mono (fun l => h.isDirAt) _ _ _ hl
    rw [hl']
    exact h.node _ _ hs

/-! ## Theorems: directories that persist -/

theorem FS.keepsDirs_refl (fs : FS) : FS.KeepsDirs fs fs := ⟨rfl, rfl, rfl, fun _ h => h⟩

theorem FS.keepsDirs_trans {a b c : FS} (h1 : FS.KeepsDirs a b) (h2 : FS.KeepsDirs b c) :
    FS.KeepsDirs a c :=
  ⟨h2.cwd.trans h1.cwd, h2.deny.trans h1.deny, h2.newDirSize.trans h1.newDirSize,
    fun l h => h2.dirs l (h1.dirs l h)⟩

theorem FS.Grows.keepsDirs {fs fs' : FS} (h : FS.Grows fs fs') : FS.KeepsDirs fs fs' :=
  ⟨h.cwd, h.deny, h.newDirSize, fun _ hd => h.isDirAt hd⟩

/-- Overwriting a location that is not a directory keeps every directory. -/
theorem FS.set_keepsDirs {fs : FS} {loc : Loc} (n : Option Node)
    (h : fs.isDirAt loc = false) : FS.KeepsDirs fs (fs.set loc n) := by
  refine ⟨rfl, rfl, rfl, ?_⟩
  intro l hl
  have hne : l ≠ loc := by
    intro heq; subst heq; rw [h] at hl; exact absurd hl (by simp)
  simpa [FS.isDirAt, FS.set, hne] using hl

theorem dirsAlong_mono {fs fs' : FS} (h : ∀ l, fs.isDirAt l = true → fs'.isDirAt l = true) :
    ∀ (cs : List GoString) (cur : Loc), dirsAlong fs cur cs → dirsAlong fs' cur cs := by
  intro cs
  induction cs with
  | nil => intro _ _; trivial
  | cons c cs ih =>
    intro cur hd
    exact ⟨h _ hd.1, ih _ hd.2⟩

theorem dirsAlong_mkdirWalk : ∀ (cs : List GoString) (fs : FS) (cur : Loc),
    dirsAlong fs cur cs → mkdirWalk cs fs cur = (none, fs) := by
  intro cs
  induction cs with
  | nil => intro fs cur _; rfl
  | cons c cs ih =>
    intro fs cur hd
    obtain ⟨s, hs⟩ := FS.isDirAt_iff.1 hd.1
    unfold mkdirWalk
    rw [hs]
    exact ih fs _ hd.2

theorem mkdirWalk_dirsAlong : ∀ (cs : List GoString) (fs : FS) (cur : Loc) (fs' : FS),
    mkdirWalk cs fs cur = (none, fs') → dirsAlong fs' cur cs := by
  intro cs
  induction cs with
  | nil => intro _ _ _ _; trivial
  | cons c cs ih =>
    intro fs cur fs' h
    have hall := h
    unfold mkdirWalk at h
    cases hn : fs.node (stepLoc cur c) with
    | none =>
      rw [hn] at h
      simp only at h
      by_cases hdeny : fs.deny .mkdir (stepLoc cur c) = true
      · rw [if_pos hdeny] at h
        simp at h
      · rw [if_neg hdeny] at h
        refine ⟨?_, ih _ _ _ h⟩
        have hg := mkdirWalk_grows _ _ _ _ _ h
        apply hg.isDirAt
        simp [FS.isDirAt, FS.set]
    | some n =>
      rw [hn] at h
      cases n with
      | dir s =>
        refine ⟨?_, ih _ _ _ h⟩
        exact (mkdirWalk_grows _ _ _ _ _ h).isDirAt (FS.isDirAt_iff.2 ⟨s, hn⟩)
      | file d => simp at h

/-- A directory that was made can be made again, also after files were written. -/
theorem FS.MkdirAll_again {fs fs0 fs1 : FS} {dir : GoString}
    (hmk : fs.MkdirAll dir = (none, fs0)) (hk : FS.KeepsDirs fs0 fs1) :
    fs1.MkdirAll dir = (none, fs1) := by
  unfold FS.MkdirAll at hmk ⊢
  by_cases hd : dir = []
  · rw [if_pos hd] at hmk; simp at hmk
  · rw [if_neg hd] at hmk ⊢
    have h0 := mkdirWalk_dirsAlong _ _ _ _ hmk
    have hstart : fs1.start dir = fs.start dir := by
      simp [FS.start, hk.cwd, (mkdirWalk_grows _ _ _ _ _ hmk).cwd]
    rw [hstart]
    exact dirsAlong_mkdirWalk _ _ _ (dirsAlong_mono hk.dirs _ _ h0)

theorem FS.OpenFile_keepsDirs {fs fs' : FS} {p : GoString} {r : Except GoError Loc}
    (h : fs.OpenFile p = (r, fs')) : FS.KeepsDirs fs fs' := by
  unfold FS.OpenFile at h
  cases hl : fs.locate p with
  | none =>
    rw [hl] at h; simp only [Prod.mk.injEq] at h; rw [← h.2]; exact FS.keepsDirs_refl fs
  | some loc =>
    rw [hl] at h
    simp only at h
    cases hn : fs.node loc with
    | none =>
      rw [hn] at h
      simp only at h
      split at h
      · simp only [Prod.mk.injEq] at h; rw [← h.2]; exact FS.keepsDirs_refl fs
      · simp only [Prod.mk.injEq] at h; rw [← h.2]
        exact FS.set_keepsDirs _ (by simp [FS.isDirAt, hn])
    | some n =>
      rw [hn] at h
      cases n with
      | dir s => simp only [Prod.mk.injEq] at h; rw [← h.2]; exact FS.keepsDirs_refl fs
      | file d =>
        simp only at h
        split at h
        · simp only [Prod.mk.injEq] at h; rw [← h.2]; exact FS.keepsDirs_refl fs
        · simp only [Prod.mk.injEq] at h; rw [← h.2]
          exact FS.set_keepsDirs _ (by simp [FS.isDirAt, hn])

theorem FS.Write_keepsDirs {fs fs' : FS} {hd : Loc} {chunk : Bytes} {r : Option GoError}
    (h : fs.Write hd chunk = (r, fs')) : FS.KeepsDirs fs fs' := by
  unfold FS.Write at h
  cases hn : fs.node hd with
  | none => rw [hn] at h; simp only [Prod.mk.injEq] at h; rw [← h.2]; exact FS.keepsDirs_refl fs
  | some n =>
    rw [hn] at h
    cases n with
    | dir s => simp only [Prod.mk.injEq] at h; rw [← h.2]; exact FS.keepsDirs_refl fs
    | file d =>
      simp only at h
      split at h
      · simp only [Prod.mk.injEq] at h; rw [← h.2]; exact FS.keepsDirs_refl fs
      · simp only [Prod.mk.injEq] at h; rw [← h.2]
        exact FS.set_keepsDirs _ (by simp [FS.isDirAt, hn])

/-! ## Theorems: walking paths in the filesystem -/

theorem stepLoc_trivial {c : GoString} (h : c = [] ∨ c = ['.']) (cur : Loc) :
    stepLoc cur c = cur := by
  unfold stepLoc; rw [if_pos h]

theorem stepLoc_name {c : GoString} (h : IsName c) (cur : Loc) : stepLoc cur c = cur ++ [c] := by
  unfold stepLoc
  rw [if_neg (fun h' => h'.elim h.1 h.2.1), if_neg h.ne_dotdot]

theorem stepLoc_dotdot (cur : Loc) : stepLoc cur dotdot = cur.dropLast := by
  simp [stepLoc, dotdot]

theorem endLoc_append (cur : Loc) (a b : List GoString) :
    endLoc cur (a ++ b) = endLoc (endLoc cur a) b := by
  simp [endLoc, List.foldl_append]

theorem endLoc_names : ∀ (ns : List GoString) (cur : Loc), (∀ n ∈ ns, IsName n) →
    endLoc cur ns = cur ++ ns := by
  intro ns
  induction ns with
  | nil => intro cur _; simp [endLoc]
  | cons n ns ih =>
    intro cur h
    have := ih (cur ++ [n]) (fun m hm => h m (List.mem_cons_of_mem _ hm))
    simp only [endLoc, List.foldl_cons] at this ⊢
    rw [stepLoc_name (h n (by simp)), this]
    simp

theorem dirsAlong_append (fs : FS) : ∀ (a b : List GoString) (cur : Loc),
    dirsAlong fs cur (a ++ b) ↔ dirsAlong fs cur a ∧ dirsAlong fs (endLoc cur a) b := by
  intro a
  induction a with
  | nil => intro b cur; simp [dirsAlong, endLoc]
  | cons c a ih =>
    intro b cur
    have hE : endLoc cur (c :: a) = endLoc (stepLoc cur c) a := rfl
    rw [List.cons_append, hE]
    constructor
    · intro h
      exact ⟨⟨h.1, ((ih b _).1 h.2).1⟩, ((ih b _).1 h.2).2⟩
    · intro h
      exact ⟨h.1.1, (ih b _).2 ⟨h.1.2, h.2⟩⟩

theorem sem_cons_trivial {c : GoString} (h : c = [] ∨ c = ['.']) (cs : List GoString) :
    sem (c :: cs) = sem cs := by
  unfold sem
  rw [List.filter_cons]
  simp [h]

theorem sem_cons_of_not_trivial {c : GoString} (h : ¬ (c = [] ∨ c = ['.']))
    (cs : List GoString) : sem (c :: cs) = c :: sem cs := by
  unfold sem
  rw [List.filter_cons]
  simp [h]

theorem FS.walk_append (fs : FS) : ∀ (a b : List GoString) (cur : Loc),
    fs.walk cur (a ++ b) = (fs.walk cur a).bind (fun l => fs.walk l b) := by
  intro a
  induction a with
  | nil => intro b cur; simp [FS.walk]
  | cons c a ih =>
    intro b cur
    simp only [List.cons_append, FS.walk]
    split
    · exact ih b _
    · rfl

/-- A successful walk ends where the lexical walk ends. -/
theorem FS.walk_endLoc (fs : FS) : ∀ (cs : List GoString) (cur l : Loc),
    fs.walk cur cs = some l → l = endLoc cur cs := by
  intro cs
  induction cs with
  | nil => intro cur l h; simp [FS.walk] at h; simp [endLoc, h]
  | cons c cs ih =>
    intro cur l h
    unfold FS.walk at h
    split at h
    · have := ih _ _ h
      simpa [endLoc] using this
    · exact absurd h (by simp)

/-- A walk through existing directories succeeds. -/
theorem FS.walk_of_dirsAlong (fs : FS) : ∀ (cs : List GoString) (cur : Loc),
    fs.isDirAt cur = true → dirsAlong fs cur cs → fs.walk cur cs = some (endLoc cur cs) := by
  intro cs
  induction cs with
  | nil => intro cur _ _; simp [FS.walk, endLoc]
  | cons c cs ih =>
    intro cur hcur hd
    unfold FS.walk
    rw [if_pos hcur]
    have := ih _ hd.1 hd.2
    simpa [endLoc] using this

/-- A successful walk that ends on a directory went through directories only. -/
theorem FS.dirsAlong_of_walk (fs : FS) : ∀ (cs : List GoString) (cur l : Loc),
    fs.walk cur cs = some l → fs.isDirAt l = true → dirsAlong fs cur cs := by
  intro cs
  induction cs with
  | nil => intro _ _ _ _; trivial
  | cons c cs ih =>
    intro cur l h hl
    unfold FS.walk at h
    split at h
    · refine ⟨?_, ih _ _ h hl⟩
      cases cs with
      | nil => simp [FS.walk] at h; rw [h]; exact hl
      | cons d ds =>
        unfold FS.walk at h
        split at h
        · assumption
        · exact absurd h (by simp)
    · exact absurd h (by simp)

theorem endLoc_isDir_of_dirsAlong (fs : FS) : ∀ (cs : List GoString) (cur : Loc),
    fs.isDirAt cur = true → dirsAlong fs cur cs → fs.isDirAt (endLoc cur cs) = true := by
  intro cs
  induction cs with
  | nil => intro cur h _; simpa [endLoc] using h
  | cons c cs ih =>
    intro cur _ hd
    have := ih _ hd.1 hd.2
    simpa [endLoc] using this

/-- Elements that are empty or `.` do not matter to `os.MkdirAll` once it stands on a
directory. -/
theorem mkdirWalk_sem : ∀ (cs : List GoString) (fs : FS) (cur : Loc),
    fs.isDirAt cur = true → mkdirWalk cs fs cur = mkdirWalk (sem cs) fs cur := by
  intro cs
  induction cs with
  | nil => intro _ _ _; rfl
  | cons c cs ih =>
    intro fs cur hcur
    by_cases ht : c = [] ∨ c = ['.']
    · have hsem : sem (c :: cs) = sem cs := sem_cons_trivial ht cs
      obtain ⟨s, hs⟩ := FS.isDirAt_iff.1 hcur
      rw [hsem, mkdirWalk, stepLoc_trivial ht, hs]
      exact ih fs cur hcur
    · have hsem : sem (c :: cs) = c :: sem cs := sem_cons_of_not_trivial ht cs
      rw [hsem]
      conv_lhs => unfold mkdirWalk
      conv_rhs => unfold mkdirWalk
      cases hn : fs.node (stepLoc cur c) with
      | none =>
        simp only
        split
        · rfl
        · apply ih
          simp [FS.isDirAt, FS.set]
      | some n =>
        cases n with
        | dir s => exact ih fs _ (FS.isDirAt_iff.2 ⟨s, hn⟩)
        | file d => rfl

theorem mkdirWalk_append_dirsAlong : ∀ (cs rest : List GoString) (fs : FS) (cur : Loc),
    dirsAlong fs cur cs → mkdirWalk (cs ++ rest) fs cur = mkdirWalk rest fs (endLoc cur cs) := by
  intro cs
  induction cs with
  | nil => intro _ _ _ _; rfl
  | cons c cs ih =>
    intro rest fs cur hd
    obtain ⟨s, hs⟩ := FS.isDirAt_iff.1 hd.1
    rw [List.cons_append, mkdirWalk, hs]
    simp only
    rw [ih rest fs _ hd.2]
    rfl

theorem under_refl (D : Loc) (fs : FS) : FS.Under D fs fs := fun _ h => absurd rfl h

theorem under_trans {D : Loc} {a b c : FS} (h1 : FS.Under D a b) (h2 : FS.Under D b c) :
    FS.Under D a c := by
  intro l hl
  by_cases h : b.node l = a.node l
  · exact h2 l (by rw [h]; exact hl)
  · exact h1 l h

theorem under_mono {D E : Loc} {a b : FS} (hDE : D <+: E) (h : FS.Under E a b) :
    FS.Under D a b := fun l hl => hDE.trans (h l hl)

theorem under_set (fs : FS) (loc : Loc) (n : Option Node) : FS.Under loc fs (fs.set loc n) := by
  intro l hl
  by_cases h : l = loc
  · rw [h]
  · simp [FS.set, h] at hl

/-- Making directories named by proper names only touches locations below the start. -/
theorem mkdirWalk_under : ∀ (ns : List GoString) (fs : FS) (cur : Loc) (r : Option GoError)
    (fs' : FS), (∀ n ∈ ns, IsName n) → mkdirWalk ns fs cur = (r, fs') → FS.Under cur fs fs' := by
  intro ns
  induction ns with
  | nil =>
    intro fs cur r fs' _ h
    simp only [mkdirWalk, Prod.mk.injEq] at h
    rw [← h.2]; exact under_refl _ _
  | cons n ns ih =>
    intro fs cur r fs' hn h
    have hstep := stepLoc_name (hn n (by simp)) cur
    have hns : ∀ m ∈ ns, IsName m := fun m hm => hn m (List.mem_cons_of_mem _ hm)
    have hpre : cur <+: cur ++ [n] := List.prefix_append _ _
    unfold mkdirWalk at h
    rw [hstep] at h
    cases hnode : fs.node (cur ++ [n]) with
    | none =>
      rw [hnode] at h
      simp only at h
      split at h
      · simp only [Prod.mk.injEq] at h
        rw [← h.2]; exact under_refl _ _
      · exact under_trans (under_mono hpre (under_set fs _ _))
          (under_mono hpre (ih _ _ _ _ hns h))
    | some nd =>
      rw [hnode] at h
      cases nd with
      | dir s => exact under_mono hpre (ih _ _ _ _ hns h)
      | file d =>
        simp only [Prod.mk.injEq] at h
        rw [← h.2]; exact under_refl _ _

/-! ## Theorems: the effect of single filesystem operations -/

theorem step_refl (D : Loc) (fs : FS) : FS.Step D fs fs :=
  ⟨FS.keepsDirs_refl fs, under_refl D fs, fun _ d h => ⟨d, h⟩, fun h => h⟩

theorem step_trans {D : Loc} {a b c : FS} (h1 : FS.Step D a b) (h2 : FS.Step D b c) :
    FS.Step D a c :=
  ⟨FS.keepsDirs_trans h1.keeps h2.keeps, under_trans h1.under h2.under,
    fun l d h => by
      obtain ⟨d1, hd1⟩ := h1.stays l d h
      exact h2.stays l d1 hd1,
    fun h => h2.wf (h1.wf h)⟩

theorem step_mono {D E : Loc} {a b : FS} (hDE : D <+: E) (h : FS.Step E a b) : FS.Step D a b :=
  ⟨h.keeps, under_mono hDE h.under, h.stays, h.wf⟩

theorem isDirAt_set_ne {fs : FS} {loc l : Loc} {n : Option Node} (h : l ≠ loc) :
    (fs.set loc n).isDirAt l = fs.isDirAt l := by
  simp [FS.isDirAt, FS.set, h]

theorem append_singleton_ne_self (l : Loc) (c : GoString) : l ≠ l ++ [c] := by
  intro h
  have := congrArg List.length h
  simp at this

/-- Adding a node under an existing directory keeps the tree well formed. -/
theorem wf_set_new {fs : FS} {l : Loc} {c : GoString} (n : Node) (hwf : fs.WF)
    (hnone : fs.node (l ++ [c]) = none) (hdir : fs.isDirAt l = true) :
    (fs.set (l ++ [c]) (some n)).WF := by
  have hne : ∀ m, fs.isDirAt m = true → m ≠ l ++ [c] := by
    intro m hm heq
    rw [heq, FS.isDirAt, hnone] at hm
    exact absurd hm (by simp)
  refine ⟨?_, ?_, ?_⟩
  · rw [isDirAt_set_ne (hne _ hwf.root)]; exact hwf.root
  · show (fs.set (l ++ [c]) (some n)).isDirAt fs.cwd = true
    rw [isDirAt_set_ne (hne _ hwf.cwd)]; exact hwf.cwd
  · intro m d hnode
    by_cases heq : m ++ [d] = l ++ [c]
    · have hm : m = l := (List.append_inj' heq rfl).1
      rw [hm, isDirAt_set_ne (append_singleton_ne_self l c)]
      exact hdir
    · have hold : fs.node (m ++ [d]) ≠ none := by simpa [FS.set, heq] using hnode
      have hmdir := hwf.parent m d hold
      rw [isDirAt_set_ne (hne _ hmdir)]
      exact hmdir

/-- Replacing or removing a regular file keeps the tree well formed. -/
theorem wf_set_over_file {fs : FS} {loc : Loc} {d : Bytes} (n : Option Node) (hwf : fs.WF)
    (hfile : fs.node loc = some (.file d)) :
    (fs.set loc n).WF := by
  have hne : ∀ m, fs.isDirAt m = true → m ≠ loc := by
    intro m hm heq
    rw [heq, FS.isDirAt, hfile] at hm
    exact absurd hm (by simp)
  refine ⟨?_, ?_, ?_⟩
  · rw [isDirAt_set_ne (hne _ hwf.root)]; exact hwf.root
  · show (fs.set loc n).isDirAt fs.cwd = true
    rw [isDirAt_set_ne (hne _ hwf.cwd)]; exact hwf.cwd
  · intro m c hnode
    have hold : fs.node (m ++ [c]) ≠ none := by
      by_cases heq : m ++ [c] = loc
      · rw [heq, hfile]; simp
      · simpa [FS.set, heq] using hnode
    have hmdir := hwf.parent m c hold
    rw [isDirAt_set_ne (hne _ hmdir)]
    exact hmdir

theorem wf_dropLast_isDir {fs : FS} (hwf : fs.WF) {cur : Loc} (h : fs.isDirAt cur = true) :
    fs.isDirAt cur.dropLast = true := by
  rcases List.eq_nil_or_concat cur with hc | ⟨l, c, hc⟩
  · rw [hc]; exact hwf.root
  · rw [List.concat_eq_append] at hc
    rw [hc, List.dropLast_concat]
    apply hwf.parent l c
    rw [← hc]
    obtain ⟨s, hs⟩ := FS.isDirAt_iff.1 h
    rw [hs]; simp

/-- From a directory, a step that lands on nothing was taken along a proper name. -/
theorem stepLoc_none {fs : FS} (hwf : fs.WF) {cur : Loc} {c : GoString}
    (hcur : fs.isDirAt cur = true) (hnone : fs.node (stepLoc cur c) = none) :
    IsName c ∧ stepLoc cur c = cur ++ [c] := by
  have hnd : ∀ m, fs.isDirAt m = true → stepLoc cur c ≠ m := by
    intro m hm heq
    rw [← heq, FS.isDirAt, hnone] at hm
    exact absurd hm (by simp)
  by_cases ht : c = [] ∨ c = ['.']
  · exact absurd (stepLoc_trivial ht cur) (hnd _ hcur)
  · by_cases hd : c = dotdot
    · subst hd
      exact absurd (stepLoc_dotdot cur) (hnd _ (wf_dropLast_isDir hwf hcur))
    · have hn : IsName c := ⟨fun h0 => ht (Or.inl h0), fun h0 => ht (Or.inr h0), hd⟩
      exact ⟨hn, stepLoc_name hn cur⟩

theorem mkdirWalk_wf : ∀ (cs : List GoString) (fs : FS) (cur : Loc) (r : Option GoError)
    (fs' : FS), fs.WF → fs.isDirAt cur = true → mkdirWalk cs fs cur = (r, fs') → fs'.WF := by
  intro cs
  induction cs with
  | nil =>
    intro fs cur r fs' hwf _ h
    simp only [mkdirWalk, Prod.mk.injEq] at h
    rw [← h.2]; exact hwf
  | cons c cs ih =>
    intro fs cur r fs' hwf hcur h
    unfold mkdirWalk at h
    cases hn : fs.node (stepLoc cur c) with
    | none =>
      rw [hn] at h
      simp only at h
      split at h
      · simp only [Prod.mk.injEq] at h
        rw [← h.2]; exact hwf
      · obtain ⟨_, hstep⟩ := stepLoc_none hwf hcur hn
        rw [hstep] at h hn
        exact ih _ _ _ _ (wf_set_new _ hwf hn hcur) (by simp [FS.isDirAt, FS.set]) h
    | some n =>
      rw [hn] at h
      cases n with
      | dir s => exact ih _ _ _ _ hwf (FS.isDirAt_iff.2 ⟨s, hn⟩) h
      | file d =>
        simp only [Prod.mk.injEq] at h
        rw [← h.2]; exact hwf

theorem FS.Grows.stays {fs fs' : FS} (h : FS.Grows fs fs') (l : Loc) (d : Bytes)
    (hl : fs.node l = some (.file d)) : ∃ d', fs'.node l = some (.file d') :=
  ⟨d, h.node l _ hl⟩

/-- Making directories named by proper names below `D` is a step below `D`. -/
theorem mkdirWalk_step {D : Loc} (ns : List GoString) (fs : FS) (cur : Loc)
    (r : Option GoError) (fs' : FS) (hD : D <+: cur) (hcur : fs.isDirAt cur = true)
    (hns : ∀ n ∈ ns, IsName n) (h : mkdirWalk ns fs cur = (r, fs')) : FS.Step D fs fs' :=
  ⟨(mkdirWalk_grows _ _ _ _ _ h).keepsDirs, under_mono hD (mkdirWalk_under _ _ _ _ _ hns h),
    (mkdirWalk_grows _ _ _ _ _ h).stays, fun hwf => mkdirWalk_wf _ _ _ _ _ hwf hcur h⟩

/-- What `FS.locate` finds is one step away from an existing directory. -/
theorem FS.locate_last {fs : FS} {p : GoString} {loc : Loc} (h : fs.locate p = some loc) :
    ∃ (cur : Loc) (c : GoString), fs.isDirAt cur = true ∧ loc = stepLoc cur c ∧
      fs.walk (fs.start p) (splitSlash p).dropLast = some cur ∧
      (splitSlash p).getLast? = some c := by
  unfold FS.locate at h
  split at h
  · exact absurd h (by simp)
  · rcases List.eq_nil_or_concat (splitSlash p) with he | ⟨init, c, he⟩
    · exact absurd he (splitSlash_ne_nil p)
    · rw [List.concat_eq_append] at he
      rw [he, FS.walk_append] at h
      cases hw : fs.walk (fs.start p) init with
      | none => rw [hw] at h; simp at h
      | some cur =>
        rw [hw] at h
        simp only [Option.some_bind, FS.walk] at h
        by_cases hd : fs.isDirAt cur = true
        · rw [if_pos hd] at h
          refine ⟨cur, c, hd, ?_, ?_, ?_⟩
          · simpa using h.symm
          · rw [he, List.dropLast_concat]; exact hw
          · rw [he]; simp
        · rw [if_neg hd] at h
          exact absurd h (by simp)

theorem set_file_step {D : Loc} {fs : FS} {loc : Loc} (d : Bytes) (hD : D <+: loc)
    (h : (∃ d0, fs.node loc = some (.file d0)) ∨
         (fs.node loc = none ∧ ∃ l c, loc = l ++ [c] ∧ fs.isDirAt l = true)) :
    FS.Step D fs (fs.set loc (some (.file d))) := by
  have hnd : fs.isDirAt loc = false := by
    rcases h with ⟨d0, h0⟩ | ⟨h0, _⟩ <;> simp [FS.isDirAt, h0]
  refine ⟨FS.set_keepsDirs _ hnd, under_mono hD (under_set fs loc _), ?_, ?_⟩
  · intro l d1 hl
    by_cases heq : l = loc
    · exact ⟨d, by simp [FS.set, heq]⟩
    · exact ⟨d1, by simpa [FS.set, heq] using hl⟩
  · intro hwf
    rcases h with ⟨d0, h0⟩ | ⟨h0, l, c, hlc, hl⟩
    · exact wf_set_over_file _ hwf h0
    · subst hlc
      exact wf_set_new _ hwf h0 hl

theorem FS.OpenFile_step {D : Loc} {fs fs' : FS} {p : GoString} {r : Except GoError Loc}
    (hwf : fs.WF) (h : fs.OpenFile p = (r, fs'))
    (hD : ∀ loc, fs.locate p = some loc → D <+: loc) :
    FS.Step D fs fs' ∧ ∀ hd, r = .ok hd → D <+: hd ∧ ∃ d, fs'.node hd = some (.file d) := by
  unfold FS.OpenFile at h
  cases hl : fs.locate p with
  | none =>
    rw [hl] at h; simp only [Prod.mk.injEq] at h
    rw [← h.2, ← h.1]; exact ⟨step_refl D fs, by simp⟩
  | some loc =>
    rw [hl] at h
    simp only at h
    have hDl := hD loc hl
    cases hn : fs.node loc with
    | none =>
      rw [hn] at h
      simp only at h
      split at h
      · simp only [Prod.mk.injEq] at h
        rw [← h.2, ← h.1]; exact ⟨step_refl D fs, by simp⟩
      · simp only [Prod.mk.injEq] at h
        rw [← h.2, ← h.1]
        obtain ⟨cur, c, hcur, hloc, _, _⟩ := FS.locate_last hl
        rw [hloc] at hn
        obtain ⟨_, hstep⟩ := stepLoc_none hwf hcur hn
        refine ⟨set_file_step [] hDl (Or.inr ⟨by rw [hloc]; exact hn, cur, c, by rw [hloc, hstep], hcur⟩), ?_⟩
        intro hd hok
        simp only [Except.ok.injEq] at hok
        subst hok
        exact ⟨hDl, [], by simp [FS.set]⟩
    | some n =>
      rw [hn] at h
      cases n with
      | dir s =>
        simp only [Prod.mk.injEq] at h
        rw [← h.2, ← h.1]; exact ⟨step_refl D fs, by simp⟩
      | file d =>
        simp only at h
        split at h
        · simp only [Prod.mk.injEq] at h
          rw [← h.2, ← h.1]; exact ⟨step_refl D fs, by simp⟩
        · simp only [Prod.mk.injEq] at h
          rw [← h.2, ← h.1]
          refine ⟨set_file_step [] hDl (Or.inl ⟨d, hn⟩), ?_⟩
          intro hd hok
          simp only [Except.ok.injEq] at hok
          subst hok
          exact ⟨hDl, [], by simp [FS.set]⟩

theorem FS.Write_step {D : Loc} {fs fs' : FS} {hd : Loc} {chunk : Bytes} {r : Option GoError}
    (hD : D <+: hd) (h : fs.Write hd chunk = (r, fs')) : FS.Step D fs fs' := by
  unfold FS.Write at h
  cases hn : fs.node hd with
  | none => rw [hn] at h; simp only [Prod.mk.injEq] at h; rw [← h.2]; exact step_refl D fs
  | some n =>
    rw [hn] at h
    cases n with
    | dir s => simp only [Prod.mk.injEq] at h; rw [← h.2]; exact step_refl D fs
    | file d =>
      simp only at h
      split at h
      · simp only [Prod.mk.injEq] at h; rw [← h.2]; exact step_refl D fs
      · simp only [Prod.mk.injEq] at h; rw [← h.2]
        exact set_file_step _ hD (Or.inl ⟨d, hn⟩)

theorem copyEntry_step {D : Loc} {fs fs' : FS} {hd : Loc} {f : ZipFile} {r : Option GoError}
    (hD : D <+: hd) (h : copyEntry fs hd f = (r, fs')) : FS.Step D fs fs' := by
  unfold copyEntry at h
  split at h
  · split at h
    · simp only [Prod.mk.injEq] at h; rw [← h.2]; exact step_refl D fs
    · exact FS.Write_step hD h
  · split at h
    · simp only [Prod.mk.injEq] at h; rw [← h.2]; exact step_refl D fs
    · split at h
      · rename_i hw
        simp only [Prod.mk.injEq] at h; rw [← h.2]
        exact FS.Write_step hD hw
      · rename_i hw
        simp only [Prod.mk.injEq] at h; rw [← h.2]
        exact FS.Write_step hD hw

/-! ## Theorems: one entry of the archive -/

theorem FS.WF.start_isDir {fs : FS} (hwf : fs.WF) (p : GoString) :
    fs.isDirAt (fs.start p) = true := by
  unfold FS.start
  split
  · exact hwf.root
  · exact hwf.cwd

theorem FS.KeepsDirs.start_kept {fs fs' : FS} (h : FS.KeepsDirs fs fs') (p : GoString) :
    fs'.start p = fs.start p := by
  simp [FS.start, h.cwd]

theorem DirAt.isDir {fs : FS} {x : GoString} {D : Loc} (hwf : fs.WF) (h : DirAt fs x D) :
    fs.isDirAt D = true := by
  rw [← h.ends]
  exact endLoc_isDir_of_dirsAlong fs _ _ (hwf.start_isDir x) h.along

theorem DirAt.keeps {fs fs' : FS} {x : GoString} {D : Loc} (h : DirAt fs x D)
    (hk : FS.KeepsDirs fs fs') : DirAt fs' x D :=
  ⟨by rw [hk.start_kept]; exact dirsAlong_mono hk.dirs _ _ h.along, by rw [hk.start_kept]; exact h.ends⟩

theorem dirsAlong_take (fs : FS) (cs : List GoString) (cur : Loc) (h : dirsAlong fs cur cs)
    (k : Nat) : dirsAlong fs cur (cs.take k) := by
  have := (dirsAlong_append fs (cs.take k) (cs.drop k) cur).1 (by rw [List.take_append_drop]; exact h)
  exact this.1

theorem FS.walk_skip_trivial (fs : FS) : ∀ (T rest : List GoString) (cur : Loc),
    fs.isDirAt cur = true → (∀ t ∈ T, t = [] ∨ t = ['.']) →
    fs.walk cur (T ++ rest) = fs.walk cur rest := by
  intro T
  induction T with
  | nil => intro _ _ _ _; rfl
  | cons t T ih =>
    intro rest cur hcur hT
    rw [List.cons_append, FS.walk, if_pos hcur, stepLoc_trivial (hT t (by simp))]
    exact ih rest cur hcur (fun u hu => hT u (List.mem_cons_of_mem _ hu))

/-- Go `os.MkdirAll` of a path whose elements are those of the directory followed by proper
names only makes directories from `D` downwards. -/
theorem MkdirAll_below {fs : FS} {x p : GoString} {D : Loc} (hwf : fs.WF) (hD : DirAt fs x D)
    (hp : p ≠ []) (hstart : fs.start p = fs.start x) (ns : List GoString)
    (hsem : sem (splitSlash p) = elemsOf x ++ ns) :
    fs.MkdirAll p = mkdirWalk ns fs D := by
  unfold FS.MkdirAll
  rw [if_neg hp, hstart, mkdirWalk_sem _ _ _ (hwf.start_isDir x), hsem,
    mkdirWalk_append_dirsAlong _ _ _ _ hD.along, hD.ends]

/-- Go `os.MkdirAll` of a path that only walks through existing directories does nothing. -/
theorem MkdirAll_existing {fs : FS} {p : GoString} {cur : Loc} (hcur : fs.isDirAt cur = true)
    (hp : p ≠ []) (hstart : fs.start p = cur) (hsem : dirsAlong fs cur (sem (splitSlash p))) :
    fs.MkdirAll p = (none, fs) := by
  unfold FS.MkdirAll
  rw [if_neg hp, hstart, mkdirWalk_sem _ _ _ hcur]
  exact dirsAlong_mkdirWalk _ _ _ hsem

/-- A cleaned path whose elements are those of the directory followed by proper names is
located at or below `D`. -/
theorem locate_below {fs : FS} {x z : GoString} {D : Loc} (hwf : fs.WF) (hD : DirAt fs x D)
    (hstart : fs.start (Clean z) = fs.start x) (ns : List GoString)
    (hns : ∀ n ∈ ns, IsName n) (helems : elemsOf z = elemsOf x ++ ns) (loc : Loc)
    (h : fs.locate (Clean z) = some loc) : loc = D ++ ns := by
  unfold FS.locate at h
  rw [if_neg (Clean_ne_nil z), hstart] at h
  obtain ⟨T, hT, hs⟩ := split_Clean z
  rw [hs, FS.walk_skip_trivial fs T _ _ (hwf.start_isDir x) hT, helems, FS.walk_append,
    FS.walk_of_dirsAlong fs _ _ (hwf.start_isDir x) hD.along, hD.ends] at h
  simp only [Option.some_bind] at h
  rw [FS.walk_endLoc fs _ _ _ h, endLoc_names ns D hns]

/-- Extracting one entry that is not skipped is a step below the archive's directory. -/
theorem extractEntry_step {fs fs' : FS} {x : GoString} {D : Loc} {f : ZipFile}
    {r : Option GoError} (hwf : fs.WF) (hD : DirAt fs x D)
    (hskip : HasPrefix (Clean f.Name) ['.', '.'] = false)
    (h : extractEntry (Clean x) f fs = (r, fs')) : FS.Step D fs fs' := by
  have hnames := names_of_not_dotdot_prefix f.Name hskip
  have hjoin : Join [Clean x, Clean f.Name] = Clean (Clean x ++ '/' :: Clean f.Name) :=
    Join_two _ (Clean_ne_nil x)
  have helems := elemsOf_joined x f.Name hskip
  have hstartJ : ∀ g : FS, g.start (Clean (Clean x ++ '/' :: Clean f.Name)) = g.start x := by
    intro g; rw [← hjoin]; exact FS.start_Join g x f.Name
  have hDD : D <+: D := List.prefix_refl D
  unfold extractEntry at h
  simp only [hjoin] at h
  split at h
  · -- a directory entry
    have hmk := MkdirAll_below hwf hD (Clean_ne_nil _) (hstartJ fs) (elemsOf f.Name)
      (by rw [sem_split_Clean, helems])
    rw [hmk] at h
    cases hw : mkdirWalk (elemsOf f.Name) fs D with
    | mk r1 fs1 =>
      rw [hw] at h
      have hstep := mkdirWalk_step (D := D) _ _ _ _ _ hDD (hD.isDir hwf) hnames hw
      cases r1 with
      | some e => simp only [Prod.mk.injEq] at h; rw [← h.2]; exact hstep
      | none => simp only [Prod.mk.injEq] at h; rw [← h.2]; exact hstep
  · -- a file entry
    have hstartD : fs.start (Dir (Clean (Clean x ++ '/' :: Clean f.Name))) = fs.start x := by
      rw [FS.start_Dir_Clean, ← FS.start_Clean, hstartJ]
    have hsemD := sem_split_Dir_Clean (Clean x ++ '/' :: Clean f.Name)
    rw [helems] at hsemD
    have hstep1 : ∀ r1 fs1, fs.MkdirAll (Dir (Clean (Clean x ++ '/' :: Clean f.Name)))
        = (r1, fs1) → FS.Step D fs fs1 := by
      intro r1 fs1 hmk
      by_cases hey : elemsOf f.Name = []
      · rw [hey, List.append_nil] at hsemD
        have hex : fs.MkdirAll (Dir (Clean (Clean x ++ '/' :: Clean f.Name))) = (none, fs) := by
          apply MkdirAll_existing (hwf.start_isDir x) (Dir_ne_nil _) hstartD
          rw [hsemD, List.dropLast_eq_take]
          exact dirsAlong_take fs _ _ hD.along _
        rw [hex] at hmk
        simp only [Prod.mk.injEq] at hmk
        rw [← hmk.2]; exact step_refl D fs
      · rw [List.dropLast_append_of_ne_nil _ hey] at hsemD
        have hmk' := MkdirAll_below hwf hD (Dir_ne_nil _) hstartD _ hsemD
        rw [hmk'] at hmk
        exact mkdirWalk_step (D := D) _ _ _ _ _ hDD (hD.isDir hwf)
          (fun n hn => hnames n (List.mem_of_mem_dropLast hn)) hmk
    cases hmk : fs.MkdirAll (Dir (Clean (Clean x ++ '/' :: Clean f.Name))) with
    | mk r1 fs1 =>
      rw [hmk] at h
      have hs1 := hstep1 r1 fs1 hmk
      cases r1 with
      | some e => simp only [Prod.mk.injEq] at h; rw [← h.2]; exact hs1
      | none =>
        simp only at h
        split at h
        · simp only [Prod.mk.injEq] at h; rw [← h.2]; exact hs1
        · have hwf1 := hs1.wf hwf
          have hD1 := hD.keeps hs1.keeps
          cases hop : fs1.OpenFile (Clean (Clean x ++ '/' :: Clean f.Name)) with
          | mk r2 fs2 =>
            rw [hop] at h
            have hs2 := FS.OpenFile_step (D := D) hwf1 hop (by
              intro loc hloc
              rw [locate_below hwf1 hD1 (hstartJ fs1) _ hnames helems loc hloc]
              exact List.prefix_append _ _)
            cases r2 with
            | error e =>
              simp only [Prod.mk.injEq] at h; rw [← h.2]
              exact step_trans hs1 hs2.1
            | ok hd =>
              simp only at h
              exact step_trans hs1 (step_trans hs2.1 (copyEntry_step (hs2.2 hd rfl).1 h))

/-! ## Theorems: the archive's directory, and the whole extraction -/

theorem joinSlash_splitSlash : ∀ s : GoString, joinSlash (splitSlash s) = s := by
  intro s
  induction s with
  | nil => rfl
  | cons c cs ih =>
    obtain ⟨h, t, hs⟩ := splitSlash_exists cs
    by_cases hc : c = '/'
    · subst hc
      rw [splitSlash_slash, hs, joinSlash_cons_cons, ← hs, ih]
      rfl
    · rw [splitSlash_cons_of_ne hc hs]
      rw [hs] at ih
      cases t with
      | nil => simp only [joinSlash] at ih ⊢; rw [ih]
      | cons u us =>
        rw [joinSlash_cons_cons] at ih ⊢
        rw [List.cons_append, ih]

/-- The part of a path before its last element, in terms of its components. -/
theorem split_upToLastSlash (s : GoString) :
    ((splitSlash s).dropLast = [] ∧ upToLastSlash s = [] ∧ (s = [] ∨ s.head? ≠ some '/')) ∨
    ((splitSlash s).dropLast ≠ [] ∧
      splitSlash (upToLastSlash s) = (splitSlash s).dropLast ++ [[]] ∧
      (upToLastSlash s).head? = s.head?) := by
  rcases List.eq_nil_or_concat (splitSlash s) with he | ⟨init, l, he⟩
  · exact absurd he (splitSlash_ne_nil s)
  · rw [List.concat_eq_append] at he
    have hl : '/' ∉ l := mem_splitSlash_noSlash s l (by rw [he]; simp)
    have hinit : ∀ e ∈ init, '/' ∉ e := fun e h => mem_splitSlash_noSlash s e (by rw [he]; simp [h])
    have hs := joinSlash_splitSlash s
    rw [he] at hs ⊢
    rw [List.dropLast_concat]
    by_cases hi : init = []
    · left
      subst hi
      have hsl : s = l := by simpa [joinSlash] using hs.symm
      refine ⟨rfl, by rw [hsl]; exact upToLastSlash_noSlash hl, ?_⟩
      rw [hsl]
      cases l with
      | nil => exact Or.inl rfl
      | cons a as =>
        right
        intro h
        simp at h
        exact hl (by simp [h])
    · right
      rw [joinSlash_append_last init l hi] at hs
      refine ⟨hi, ?_, ?_⟩
      · rw [← hs, upToLastSlash_append _ hl]
        have : joinSlash init ++ ['/'] = joinSlash init ++ '/' :: [] := rfl
        rw [this, splitSlash_append, splitSlash_joinSlash init hi hinit]
        rfl
      · rw [← hs, upToLastSlash_append _ hl]
        cases joinSlash init <;> rfl

theorem FS.walk_start_isDir (fs : FS) {cs : List GoString} {cur l : Loc}
    (h : fs.walk cur cs = some l) (hl : fs.isDirAt l = true) : fs.isDirAt cur = true := by
  cases cs with
  | nil => simp [FS.walk] at h; rw [h]; exact hl
  | cons c cs =>
    unfold FS.walk at h
    split at h
    · assumption
    · exact absurd h (by simp)

/-- When the kernel can walk a path to a directory, it can walk the cleaned elements of the
path, through existing directories, to the same place. -/
theorem clean_walk {fs : FS} (r : Bool) (start : Loc)
    (hr : r = true → start = []) :
    ∀ (cs stack : List GoString) (cur D : Loc), CleanForm r stack.reverse →
      dirsAlong fs start stack.reverse → endLoc start stack.reverse = cur →
      fs.walk cur cs = some D → fs.isDirAt D = true →
      dirsAlong fs start (cleanElems r stack cs) ∧ endLoc start (cleanElems r stack cs) = D := by
  intro cs
  induction cs with
  | nil =>
    intro stack cur D _ hd he hw _
    simp only [FS.walk, Option.some.injEq] at hw
    rw [cleanElems_nil, ← hw]
    exact ⟨hd, he⟩
  | cons c cs ih =>
    intro stack cur D hcf hd he hw hD
    have hcur : fs.isDirAt cur = true := FS.walk_start_isDir fs hw hD
    unfold FS.walk at hw
    rw [if_pos hcur] at hw
    have hnext : fs.isDirAt (stepLoc cur c) = true := FS.walk_start_isDir fs hw hD
    by_cases ht : c = [] ∨ c = ['.']
    · rw [cleanElems_trivial r stack cs ht]
      rw [stepLoc_trivial ht] at hw
      exact ih stack cur D hcf hd he hw hD
    · by_cases hdd : c = dotdot
      · subst hdd
        have hpush : ∀ (st : List GoString), r = false → (∀ x ∈ st.reverse, x = dotdot) →
            dirsAlong fs start st.reverse → endLoc start st.reverse = cur →
            dirsAlong fs start (cleanElems r (dotdot :: st) cs) ∧
              endLoc start (cleanElems r (dotdot :: st) cs) = D := by
          intro st hrf hall hdst hest
          apply ih (dotdot :: st) (stepLoc cur dotdot) D
          · rw [List.reverse_cons, hrf]
            exact CleanForm.append_dotdot hall
          · rw [List.reverse_cons, dirsAlong_append]
            refine ⟨hdst, ?_⟩
            rw [hest]
            exact ⟨hnext, trivial⟩
          · rw [List.reverse_cons, endLoc_append, hest]; rfl
          · exact hw
          · exact hD
        cases stack with
        | nil =>
          have hcs : cur = start := by simpa [endLoc] using he.symm
          cases r with
          | true =>
            rw [cleanElems_dotdot_nil_rooted]
            have hs0 : start = [] := hr rfl
            have : stepLoc cur dotdot = cur := by rw [stepLoc_dotdot, hcs, hs0]; rfl
            rw [this] at hw
            exact ih [] cur D hcf hd he hw hD
          | false =>
            rw [cleanElems_dotdot_nil_rel]
            exact hpush [] rfl (by simp) hd he
        | cons top rest =>
          by_cases htop : top = dotdot
          · subst htop
            rw [cleanElems_dotdot_dotdot]
            rw [List.reverse_cons] at hcf
            have hb := CleanForm.before_dotdot hcf
            apply hpush (dotdot :: rest) hb.2 _ hd he
            intro x hx
            rw [List.reverse_cons] at hx
            rcases List.mem_append.1 hx with h1 | h1
            · exact hb.1 x h1
            · simpa using h1
          · rw [cleanElems_dotdot_pop r rest cs htop]
            rw [List.reverse_cons] at hcf hd he
            have hname : IsName top := by
              rcases hcf.elem top (by simp) with h1 | h1
              · exact absurd h1 htop
              · exact h1
            rw [endLoc_append] at he
            have he' : cur = endLoc start rest.reverse ++ [top] := by
              rw [← he]; exact stepLoc_name hname _
            apply ih rest (endLoc start rest.reverse) D hcf.init
              ((dirsAlong_append fs _ _ _).1 hd).1 rfl _ hD
            rw [stepLoc_dotdot, he', List.dropLast_concat] at hw
            exact hw
      · have hn : IsName c := ⟨fun h0 => ht (Or.inl h0), fun h0 => ht (Or.inr h0), hdd⟩
        rw [cleanElems_name r stack cs hn]
        apply ih (c :: stack) (stepLoc cur c) D
        · rw [List.reverse_cons]; exact hcf.append_name hn
        · rw [List.reverse_cons, dirsAlong_append]
          refine ⟨hd, ?_⟩
          rw [he]
          exact ⟨hnext, trivial⟩
        · rw [List.reverse_cons, endLoc_append, he]; rfl
        · exact hw
        · exact hD

/-- From a directory, a step that lands on something that is not a directory was taken
along a proper name. -/
theorem stepLoc_not_dir {fs : FS} (hwf : fs.WF) {cur : Loc} {c : GoString}
    (hcur : fs.isDirAt cur = true) (hnd : fs.isDirAt (stepLoc cur c) = false) :
    IsName c ∧ stepLoc cur c = cur ++ [c] := by
  have hne : ∀ m, fs.isDirAt m = true → stepLoc cur c ≠ m := by
    intro m hm heq
    rw [heq, hm] at hnd
    exact absurd hnd (by simp)
  by_cases ht : c = [] ∨ c = ['.']
  · exact absurd (stepLoc_trivial ht cur) (hne _ hcur)
  · by_cases hd : c = dotdot
    · subst hd
      exact absurd (stepLoc_dotdot cur) (hne _ (wf_dropLast_isDir hwf hcur))
    · have hn : IsName c := ⟨fun h0 => ht (Or.inl h0), fun h0 => ht (Or.inr h0), hd⟩
      exact ⟨hn, stepLoc_name hn cur⟩

/-- A path that resolves to a regular file lies, under a proper name, in the directory
that `filepath.Dir` of the path denotes. -/
theorem dirAt_of_file {fs : FS} (hwf : fs.WF) {zipPath : GoString} {zloc : Loc} {data : Bytes}
    (hloc : fs.locate zipPath = some zloc) (hnode : fs.node zloc = some (.file data)) :
    ∃ (D : Loc) (name : GoString), DirAt fs (upToLastSlash zipPath) D ∧ zloc = D ++ [name] := by
  obtain ⟨cur, c, hcur, hz, hwalk, _⟩ := FS.locate_last hloc
  have hnd : fs.isDirAt (stepLoc cur c) = false := by
    rw [← hz]; simp [FS.isDirAt, hnode]
  obtain ⟨_, hstep⟩ := stepLoc_not_dir hwf hcur hnd
  refine ⟨cur, c, ?_, by rw [hz, hstep]⟩
  have hzp : zipPath ≠ [] := by
    intro h0; rw [h0] at hloc; simp [FS.locate] at hloc
  rcases split_upToLastSlash zipPath with ⟨hinit, hup, hhead⟩ | ⟨hinit, hsplit, hhead⟩
  · rw [hinit] at hwalk
    simp only [FS.walk, Option.some.injEq] at hwalk
    have hstart : fs.start zipPath = fs.cwd := by
      rcases hhead with h0 | h0
      · exact absurd h0 hzp
      · simp [FS.start, h0]
    rw [hup]
    have he : elemsOf [] = [] := by decide
    refine ⟨by rw [he]; trivial, ?_⟩
    rw [he, ← hwalk, hstart]
    simp [endLoc, FS.start]
  · have hstart : fs.start (upToLastSlash zipPath) = fs.start zipPath := by
      simp [FS.start, hhead]
    have hw : fs.walk (fs.start zipPath) ((splitSlash zipPath).dropLast ++ [[]]) = some cur := by
      rw [FS.walk_append, hwalk]
      simp [FS.walk, hcur, stepLoc]
    have := clean_walk (decide ((upToLastSlash zipPath).head? = some '/'))
      (fs.start zipPath)
      (by
        intro h
        have h1 : (upToLastSlash zipPath).head? = some '/' := of_decide_eq_true h
        rw [hhead] at h1
        simp [FS.start, h1])
      _ [] (fs.start zipPath) cur trivial trivial rfl hw hcur
    rw [← hsplit] at this
    exact ⟨by rw [hstart]; exact this.1, by rw [hstart]; exact this.2⟩

/-- The whole loop over the entries is a step below the archive's directory. -/
theorem extractAll_step {x : GoString} {D : Loc} : ∀ (files : List ZipFile) (fs fs' : FS)
    (r : Option GoError), fs.WF → DirAt fs x D → extractAll (Clean x) files fs = (r, fs') →
    FS.Step D fs fs' := by
  intro files
  induction files with
  | nil =>
    intro fs fs' r _ _ h
    simp only [extractAll, Prod.mk.injEq] at h
    rw [← h.2]; exact step_refl D fs
  | cons f rest ih =>
    intro fs fs' r hwf hD h
    unfold extractAll at h
    by_cases hskip : HasPrefix (Clean f.Name) ['.', '.'] = true
    · rw [if_pos hskip] at h
      exact ih fs fs' r hwf hD h
    · rw [if_neg hskip] at h
      have hskip' : HasPrefix (Clean f.Name) ['.', '.'] = false := by simpa using hskip
      cases he : extractEntry (Clean x) f fs with
      | mk r1 fs1 =>
        rw [he] at h
        have hs1 := extractEntry_step hwf hD hskip' he
        cases r1 with
        | some e => simp only [Prod.mk.injEq] at h; rw [← h.2]; exact hs1
        | none => exact step_trans hs1 (ih fs1 fs' r (hs1.wf hwf) (hD.keeps hs1.keeps) h)

/-! ## Theorems: nothing is written outside the archive's directory -/

theorem locate_Clean_of_dirAt {fs : FS} {x : GoString} {D : Loc} (hwf : fs.WF)
    (hD : DirAt fs x D) : fs.locate (Clean x) = some D := by
  unfold FS.locate
  obtain ⟨T, hT, hs⟩ := split_Clean x
  rw [if_neg (Clean_ne_nil x), FS.start_Clean, hs,
    FS.walk_skip_trivial fs T _ _ (hwf.start_isDir x) hT,
    FS.walk_of_dirsAlong fs _ _ (hwf.start_isDir x) hD.along, hD.ends]

theorem FS.KeepsDirs.locate {fs fs' : FS} (h : FS.KeepsDirs fs fs') {p : GoString} {loc : Loc}
    (hl : fs.locate p = some loc) : fs'.locate p = some loc := by
  unfold FS.locate at hl ⊢
  split at hl
  · exact absurd hl (by simp)
  · rename_i hne
    rw [if_neg hne, h.start_kept]
    exact FS.walk_mono h.dirs _ _ _ hl

theorem FS.Remove_under {fs fs' : FS} {p : GoString} {r : Option GoError} {zloc : Loc}
    (hl : fs.locate p = some zloc) (h : fs.Remove p = (r, fs')) : FS.Under zloc fs fs' := by
  unfold FS.Remove at h
  rw [hl] at h
  simp only at h
  split at h
  · split at h
    · simp only [Prod.mk.injEq] at h; rw [← h.2]; exact under_refl _ _
    · simp only [Prod.mk.injEq] at h; rw [← h.2]; exact under_set _ _ _
  · simp only [Prod.mk.injEq] at h; rw [← h.2]; exact under_refl _ _
  · simp only [Prod.mk.injEq] at h; rw [← h.2]; exact under_refl _ _

theorem openZip_ok {parseZip : Bytes → Option (List ZipFile)} {fs : FS} {zipPath : GoString}
    {files : List ZipFile} (h : openZip parseZip fs zipPath = .ok files) :
    ∃ zloc data, fs.locate zipPath = some zloc ∧ fs.node zloc = some (.file data) ∧
      parseZip data = some files := by
  unfold openZip FS.Stat at h
  cases hl : fs.locate zipPath with
  | none => rw [hl] at h; simp at h
  | some zloc =>
    rw [hl] at h
    simp only at h
    cases hn : fs.node zloc with
    | none => rw [hn] at h; simp at h
    | some n =>
      rw [hn] at h
      cases n with
      | dir s => simp at h
      | file data =>
        simp only at h
        cases hp : parseZip data with
        | none => rw [hp] at h; simp at h
        | some fl =>
          rw [hp] at h
          simp only [Except.ok.injEq] at h
          exact ⟨zloc, data, rfl, hn, by rw [← h]; exact hp⟩

/-- The filesystem after `UnzipZipFileInPlace` differs from the one before only at or below
the location of the archive's directory. -/
theorem UnzipZipFileInPlace_under (parseZip : Bytes → Option (List ZipFile)) (fs : FS)
    (zipPath : GoString) (hwf : fs.WF) :
    (UnzipZipFileInPlace parseZip fs zipPath).2 = fs ∨
    ∃ D, fs.locate (Dir zipPath) = some D ∧ fs.isDirAt D = true ∧
      FS.Under D fs (UnzipZipFileInPlace parseZip fs zipPath).2 := by
  unfold UnzipZipFileInPlace
  simp only
  cases hop : openZip parseZip fs zipPath with
  | error e => left; rfl
  | ok files =>
    right
    obtain ⟨zloc, data, hloc, hnode, _⟩ := openZip_ok hop
    obtain ⟨D, name, hD, hz⟩ := dirAt_of_file hwf hloc hnode
    refine ⟨D, by rw [Dir_eq]; exact locate_Clean_of_dirAt hwf hD, hD.isDir hwf, ?_⟩
    simp only
    rw [Dir_eq]
    cases hex : extractAll (Clean (upToLastSlash zipPath)) files fs with
    | mk r1 fs1 =>
      have hs1 := extractAll_step files fs fs1 r1 hwf hD hex
      cases r1 with
      | some e => exact hs1.under
      | none =>
        simp only
        cases hrm : fs1.Remove zipPath with
        | mk r2 fs2 =>
          have hu : FS.Under D fs1 fs2 :=
            under_mono (by rw [hz]; exact List.prefix_append _ _)
              (FS.Remove_under (hs1.keeps.locate hloc) hrm)
          cases r2 with
          | some e => exact under_trans hs1.under hu
          | none => exact under_trans hs1.under hu

/-- C4. On a well-formed filesystem, every location whose node `UnzipZipFileInPlace`
creates or changes (directory or file, whatever the stored entry names) is the location of
the archive's containing directory `filepath.Dir(zipPath)` or lies below it. -/
theorem UnzipZipFileInPlace_confined (parseZip : Bytes → Option (List ZipFile)) (fs : FS)
    (zipPath : GoString) (hwf : fs.WF) (loc : Loc)
    (hchg : (UnzipZipFileInPlace parseZip fs zipPath).2.node loc ≠ fs.node loc) :
    ∃ D, fs.locate (Dir zipPath) = some D ∧ fs.isDirAt D = true ∧ D <+: loc := by
  rcases UnzipZipFileInPlace_under parseZip fs zipPath hwf with h | ⟨D, hD, hdir, hu⟩
  · rw [h] at hchg; exact absurd rfl hchg
  · exact ⟨D, hD, hdir, hu loc hchg⟩

/-- A filesystem given by a table is well formed when the table lists the root and the
working directory as directories, and the parent of every listed node as a directory. -/
theorem fsOfTable_wf (table : List (Loc × Node)) (cwd : Loc)
    (hroot : (fsOfTable table cwd).isDirAt [] = true)
    (hcwd : (fsOfTable table cwd).isDirAt cwd = true)
    (hpar : ∀ e ∈ table, e.1 = [] ∨ (fsOfTable table cwd).isDirAt e.1.dropLast = true) :
    (fsOfTable table cwd).WF := by
  refine ⟨hroot, hcwd, ?_⟩
  intro l c hnode
  simp only [fsOfTable, ne_eq, Option.map_eq_none'] at hnode
  cases hf : table.find? (fun e => decide (e.1 = l ++ [c])) with
  | none => exact absurd hf hnode
  | some e =>
    have hmem := List.mem_of_find?_eq_some hf
    have heq : e.1 = l ++ [c] := by simpa using List.find?_some hf
    rcases hpar e hmem with h0 | h0
    · rw [heq] at h0; simp at h0
    · rw [heq, List.dropLast_concat] at h0; exact h0

theorem fsWithArchive_wf : fsWithArchive.WF :=
  fsOfTable_wf _ _ (by decide) (by decide) (by decide)

/-- Witness for C4: after extracting `sampleEntries` in `/roms/SNES` the file `abs.txt` is
new, and it lies below `/roms/SNES`. -/
theorem UnzipZipFileInPlace_confined_witness :
    fsWithArchive.WF ∧
    (UnzipZipFileInPlace sampleParse fsWithArchive (msg "/roms/SNES/Game.zip")).2.node
        [msg "roms", msg "SNES", msg "abs.txt"] ≠
      fsWithArchive.node [msg "roms", msg "SNES", msg "abs.txt"] ∧
    ∃ D, fsWithArchive.locate (Dir (msg "/roms/SNES/Game.zip")) = some D ∧
      fsWithArchive.isDirAt D = true ∧ D <+: [msg "roms", msg "SNES", msg "abs.txt"] :=
  ⟨fsWithArchive_wf, by decide,
    UnzipZipFileInPlace_confined sampleParse fsWithArchive (msg "/roms/SNES/Game.zip")
      fsWithArchive_wf [msg "roms", msg "SNES", msg "abs.txt"] (by decide)⟩

/-! ## Theorems: what `UnzipZipFileInPlace` returns, and when the archive is removed -/

/-- C5 (the code at the failing input).  The archive `/roms/SNES/Game.zip` holds, among
others, the regular file `..notes`.  The first path segment of its cleaned name is
`..notes`, not `..`, and the name stays inside the target directory; yet its cleaned name
has the string prefix `..`, so the loop passes it over: the call succeeds, the other
entries are on disk, the archive is removed, and `..notes` was never written. -/
theorem UnzipZipFileInPlace_drops_dotted_name :
    elemsOf (msg "..notes") = [msg "..notes"] ∧
    HasPrefix (Clean (msg "..notes")) ['.', '.'] = true ∧
    (UnzipZipFileInPlace sampleParse fsWithArchive (msg "/roms/SNES/Game.zip")).1
      = (msg "/roms/SNES", none) ∧
    (UnzipZipFileInPlace sampleParse fsWithArchive (msg "/roms/SNES/Game.zip")).2.node
      [msg "roms", msg "SNES", msg "docs", msg "readme.txt"] = some (.file [1, 2]) ∧
    (UnzipZipFileInPlace sampleParse fsWithArchive (msg "/roms/SNES/Game.zip")).2.node
      [msg "roms", msg "SNES", msg "abs.txt"] = some (.file [3]) ∧
    (UnzipZipFileInPlace sampleParse fsWithArchive (msg "/roms/SNES/Game.zip")).2.node
      [msg "roms", msg "SNES", msg "..notes"] = none ∧
    (UnzipZipFileInPlace sampleParse fsWithArchive (msg "/roms/SNES/Game.zip")).2.node
      [msg "roms", msg "SNES", msg "Game.zip"] = none := by
  refine ⟨by decide, by decide, by decide, by decide, by decide, by decide, by decide⟩

theorem extractAll_append (dir : GoString) : ∀ (pre rest : List ZipFile) (fs fs1 : FS),
    extractAll dir pre fs = (none, fs1) →
    extractAll dir (pre ++ rest) fs = extractAll dir rest fs1 := by
  intro pre
  induction pre with
  | nil =>
    intro rest fs fs1 h
    simp only [extractAll, Prod.mk.injEq] at h
    rw [← h.2]; rfl
  | cons f pre ih =>
    intro rest fs fs1 h
    rw [List.cons_append]
    unfold extractAll at h
    conv_lhs => unfold extractAll
    by_cases hs : HasPrefix (Clean f.Name) ['.', '.'] = true
    · rw [if_pos hs] at h ⊢
      exact ih rest fs fs1 h
    · rw [if_neg hs] at h ⊢
      cases he : extractEntry dir f fs with
      | mk r1 fs0 =>
        rw [he] at h
        cases r1 with
        | some e => simp at h
        | none => exact ih rest fs0 fs1 h

theorem isDirAt_set_file {fs : FS} {loc : Loc} {d : Bytes} (hf : fs.node loc = some (.file d))
    (n : Option Node) (hn : ∀ s, n ≠ some (.dir s)) (l : Loc) :
    (fs.set loc n).isDirAt l = fs.isDirAt l := by
  by_cases h : l = loc
  · subst h
    cases n with
    | none => simp [FS.isDirAt, FS.set, hf]
    | some m =>
      cases m with
      | dir s => exact absurd rfl (hn s)
      | file d' => simp [FS.isDirAt, FS.set, hf]
  · exact isDirAt_set_ne h

theorem FS.Remove_ok {fs fs' : FS} {p : GoString} (h : fs.Remove p = (none, fs')) :
    fs'.Stat p = none := by
  unfold FS.Remove at h
  cases hl : fs.locate p with
  | none => rw [hl] at h; simp at h
  | some loc =>
    rw [hl] at h
    simp only at h
    cases hn : fs.node loc with
    | none => rw [hn] at h; simp at h
    | some n =>
      rw [hn] at h
      cases n with
      | dir s => simp at h
      | file d =>
        simp only at h
        split at h
        · simp at h
        · simp only [Prod.mk.injEq, true_and] at h
          have hk : FS.KeepsDirs fs fs' := by
            rw [← h]
            exact ⟨rfl, rfl, rfl, fun l hl' => by rw [isDirAt_set_file hn none (by simp)]; exact hl'⟩
          unfold FS.Stat
          rw [hk.locate hl, ← h]
          simp [FS.set]

theorem FS.Remove_fail {fs fs' : FS} {p : GoString} {e : GoError}
    (h : fs.Remove p = (some e, fs')) : fs' = fs := by
  unfold FS.Remove at h
  split at h
  · simp only [Prod.mk.injEq] at h; exact h.2.symm
  · split at h
    · split at h
      · simp only [Prod.mk.injEq] at h; exact h.2.symm
      · simp at h
    · simp only [Prod.mk.injEq] at h; exact h.2.symm
    · simp only [Prod.mk.injEq] at h; exact h.2.symm

/-- After a step below the archive's directory the archive is still a regular file. -/
theorem archive_stays {fs fs' : FS} {D zloc : Loc} {p : GoString} {data : Bytes}
    (hs : FS.Step D fs fs') (hloc : fs.locate p = some zloc)
    (hnode : fs.node zloc = some (.file data)) : ∃ d, fs'.Stat p = some (.file d) := by
  obtain ⟨d, hd⟩ := hs.stays zloc data hnode
  exact ⟨d, by unfold FS.Stat; rw [hs.keeps.locate hloc]; exact hd⟩

/-- C6. On a well-formed filesystem:
(a) if the archive cannot be opened, the call returns `("", open zip error)` and changes
nothing;
(b) if the entries before `f` are extracted without error and a step of `f` (mkdir, open,
create or copy) fails, the call returns `("", that error)` at once, in the state that step
left, whatever entries follow: they are not processed, what was extracted stays, and the
archive is still a regular file;
(c) if every entry is extracted (or skipped) without error, the archive is removed and the
call returns `(dir, nil)`, or, if the removal fails, `(dir, remove zip error)` with the
filesystem as extraction left it;
(d) the archive is gone afterwards only if the call returned no error and every entry went
through without error. -/
theorem UnzipZipFileInPlace_outcomes (parseZip : Bytes → Option (List ZipFile)) (fs : FS)
    (zipPath : GoString) (hwf : fs.WF) :
    (∀ e, openZip parseZip fs zipPath = .error e →
      UnzipZipFileInPlace parseZip fs zipPath = (([], some (msg "open zip: " ++ e)), fs)) ∧
    (∀ files, openZip parseZip fs zipPath = .ok files →
      (∀ (pre post : List ZipFile) (f : ZipFile) (e : GoError) (fs1 fs2 : FS),
        files = pre ++ f :: post → extractAll (Dir zipPath) pre fs = (none, fs1) →
        HasPrefix (Clean f.Name) ['.', '.'] = false →
        extractEntry (Dir zipPath) f fs1 = (some e, fs2) →
        UnzipZipFileInPlace parseZip fs zipPath = (([], some e), fs2) ∧
          ∃ d, fs2.Stat zipPath = some (.file d)) ∧
      (∀ fs1, extractAll (Dir zipPath) files fs = (none, fs1) →
        (∀ fs2, fs1.Remove zipPath = (none, fs2) →
          UnzipZipFileInPlace parseZip fs zipPath = ((Dir zipPath, none), fs2) ∧
            fs2.Stat zipPath = none) ∧
        (∀ e fs2, fs1.Remove zipPath = (some e, fs2) →
          UnzipZipFileInPlace parseZip fs zipPath
            = ((Dir zipPath, some (msg "remove zip " ++ zipPath ++ msg ": " ++ e)), fs1))) ∧
      ((UnzipZipFileInPlace parseZip fs zipPath).2.Stat zipPath = none →
        (UnzipZipFileInPlace parseZip fs zipPath).1.2 = none ∧
          ∃ fs1, extractAll (Dir zipPath) files fs = (none, fs1))) := by
  constructor
  · intro e he
    simp [UnzipZipFileInPlace, he]
  · intro files hop
    obtain ⟨zloc, data, hloc, hnode, _⟩ := openZip_ok hop
    obtain ⟨D, name, hD, hz⟩ := dirAt_of_file hwf hloc hnode
    have hstep : ∀ r fs1, extractAll (Dir zipPath) files fs = (r, fs1) → FS.Step D fs fs1 := by
      intro r fs1 h
      rw [Dir_eq] at h
      exact extractAll_step files fs fs1 r hwf hD h
    refine ⟨?_, ?_, ?_⟩
    · intro pre post f e fs1 fs2 hfiles hpre hskip hent
      have hall : extractAll (Dir zipPath) files fs = (some e, fs2) := by
        rw [hfiles, extractAll_append _ pre (f :: post) fs fs1 hpre]
        unfold extractAll
        rw [if_neg (by simp [hskip]), hent]
      refine ⟨?_, archive_stays (hstep _ _ hall) hloc hnode⟩
      simp [UnzipZipFileInPlace, hop, hall]
    · intro fs1 hall
      constructor
      · intro fs2 hrm
        refine ⟨?_, FS.Remove_ok hrm⟩
        simp [UnzipZipFileInPlace, hop, hall, hrm]
      · intro e fs2 hrm
        have := FS.Remove_fail hrm
        subst this
        simp [UnzipZipFileInPlace, hop, hall, hrm]
    · intro hgone
      cases hall : extractAll (Dir zipPath) files fs with
      | mk r fs1 =>
        cases r with
        | some e =>
          exfalso
          have hres : (UnzipZipFileInPlace parseZip fs zipPath).2 = fs1 := by
            simp [UnzipZipFileInPlace, hop, hall]
          rw [hres] at hgone
          obtain ⟨d, hd⟩ := archive_stays (hstep _ _ hall) hloc hnode
          rw [hd] at hgone
          exact absurd hgone (by simp)
        | none =>
          cases hrm : fs1.Remove zipPath with
          | mk r2 fs2 =>
            cases r2 with
            | some e =>
              exfalso
              have h2 := FS.Remove_fail hrm
              subst h2
              have hres : (UnzipZipFileInPlace parseZip fs zipPath).2 = fs2 := by
                simp [UnzipZipFileInPlace, hop, hall, hrm]
              rw [hres] at hgone
              obtain ⟨d, hd⟩ := archive_stays (hstep _ _ hall) hloc hnode
              rw [hd] at hgone
              exact absurd hgone (by simp)
            | none =>
              refine ⟨?_, fs1, rfl⟩
              simp [UnzipZipFileInPlace, hop, hall, hrm]

/-- Witness for C6: the sample archive is opened, extracted and removed. -/
theorem UnzipZipFileInPlace_outcomes_witness :
    fsWithArchive.WF ∧
    (UnzipZipFileInPlace sampleParse fsWithArchive (msg "/roms/SNES/Game.zip")).2.Stat
        (msg "/roms/SNES/Game.zip") = none ∧
    (UnzipZipFileInPlace sampleParse fsWithArchive (msg "/roms/SNES/Game.zip")).1.2 = none :=
  ⟨fsWithArchive_wf, by decide,
    (((UnzipZipFileInPlace_outcomes sampleParse fsWithArchive (msg "/roms/SNES/Game.zip")
      fsWithArchive_wf).2 sampleEntries (by rfl)).2.2 (by decide)).1⟩

/-! ## Theorems: the skip-if-present branch of `DownloadFile` -/

theorem Env.say_filter_httpGet (env : Env) (l : LogLine) :
    (env.say l).filter Event.isHttpGet = [] := by
  unfold Env.say; split <;> simp [Event.isHttpGet]

theorem Env.say_filterMap_progress (env : Env) (l : LogLine) :
    (env.say l).filterMap Event.progress? = [] := by
  unfold Env.say; split <;> simp [Event.progress?]

theorem maybeUnzip_events (env : Env) (fs : FS) (p : GoString) :
    (maybeUnzip env fs p).2.2.filter Event.isHttpGet = [] ∧
    (maybeUnzip env fs p).2.2.filterMap Event.progress? = [] := by
  unfold maybeUnzip
  split
  · simp
  · split <;>
      simp [List.filter_append, List.filterMap_append, Env.say_filter_httpGet,
        Env.say_filterMap_progress]

/-- The skip branch as an equation: when the directory can be made and the destination
exists with a positive size, `DownloadFile` is the skip notice, one snapshot, and
`maybeUnzip`. -/
theorem DownloadFile_skip_eq (env : Env) (url dir : GoString) (w : World) (fs0 : FS) (fi : Node)
    (hmk : w.fs.MkdirAll dir = (none, fs0))
    (hst : fs0.Stat (dstPathOf url dir) = some fi) (hsz : 0 < fi.size) :
    DownloadFile env url dir w =
      ((maybeUnzip env fs0 (dstPathOf url dir)).1,
        { w with fs := (maybeUnzip env fs0 (dstPathOf url dir)).2.1 },
        env.say (.skipping (dstPathOf url dir)) ++
          [.progress { BytesDone := fi.size, BytesTotal := fi.size, CurrentFile := url,
                       ETA := [], Done := true, Err := none }] ++
          (maybeUnzip env fs0 (dstPathOf url dir)).2.2) := by
  unfold DownloadFile
  simp only [hmk, hst, hsz, if_true]

/-- C1 (amended). If `os.MkdirAll(targetDir)` succeeds and the destination file exists with a
size greater than zero when `DownloadFile` is called, then the call issues no HTTP request,
invokes the callback exactly once, with `Done = true` and `BytesDone = BytesTotal =` the
existing size, and its result and final filesystem are those of `maybeUnzip` on the
existing file. -/
theorem DownloadFile_skip_existing (env : Env) (url dir : GoString) (w : World) (fs0 : FS)
    (fi : Node) (hmk : w.fs.MkdirAll dir = (none, fs0))
    (hst : w.fs.Stat (dstPathOf url dir) = some fi) (hsz : 0 < fi.size) :
    (DownloadFile env url dir w).2.2.filter Event.isHttpGet = [] ∧
    (DownloadFile env url dir w).2.1.requests = w.requests ∧
    (DownloadFile env url dir w).2.2.filterMap Event.progress? =
      [{ BytesDone := fi.size, BytesTotal := fi.size, CurrentFile := url, ETA := [],
         Done := true, Err := none }] ∧
    (DownloadFile env url dir w).1 = (maybeUnzip env fs0 (dstPathOf url dir)).1 ∧
    (DownloadFile env url dir w).2.1.fs = (maybeUnzip env fs0 (dstPathOf url dir)).2.1 := by
  have hst0 : fs0.Stat (dstPathOf url dir) = some fi := (FS.MkdirAll_grows hmk).Stat hst
  rw [DownloadFile_skip_eq env url dir w fs0 fi hmk hst0 hsz]
  have hev := maybeUnzip_events env fs0 (dstPathOf url dir)
  refine ⟨?_, rfl, ?_, rfl, rfl⟩
  · simp [List.filter_append, Env.say_filter_httpGet, hev.1, Event.isHttpGet]
  · simp [List.filterMap_append, Env.say_filterMap_progress, hev.2, Event.progress?]

/-- Witness for C1: `d/a.bin` exists with three bytes. -/
theorem DownloadFile_skip_existing_witness :
    fsWithDABin.MkdirAll (msg "d") = (none, fsWithDABin) ∧
    fsWithDABin.Stat (dstPathOf (msg "http://h/a.bin") (msg "d")) = some (.file [1, 2, 3]) ∧
    0 < (Node.file [1, 2, 3]).size ∧
    (DownloadFile offlineEnv (msg "http://h/a.bin") (msg "d") ⟨fsWithDABin, 0⟩).2.2.filter
        Event.isHttpGet = [] ∧
    (DownloadFile offlineEnv (msg "http://h/a.bin") (msg "d") ⟨fsWithDABin, 0⟩).2.2.filterMap
        Event.progress? =
      [{ BytesDone := 3, BytesTotal := 3, CurrentFile := msg "http://h/a.bin", ETA := [],
         Done := true, Err := none }] :=
  have h := DownloadFile_skip_existing offlineEnv (msg "http://h/a.bin") (msg "d")
    ⟨fsWithDABin, 0⟩ fsWithDABin (.file [1, 2, 3]) (by rfl) (by decide) (by decide)
  ⟨by rfl, by decide, by decide, h.1, h.2.2.1⟩

/-- Counterexample to C1 as stated: the destination `a.bin` exists in the working directory
with three bytes, yet the call returns the error of `os.MkdirAll(targetDir)` and its only
snapshot carries that error with `Done = false`: (1) for the empty target directory, which
`os.MkdirAll` refuses; (2) for the target directory `f/..`, where `f` is a regular file. -/
theorem DownloadFile_skip_existing_counterexample :
    (fsWithABin.Stat (dstPathOf (msg "http://h/a.bin") []) = some (.file [1, 2, 3]) ∧
      (DownloadFile offlineEnv (msg "http://h/a.bin") [] ⟨fsWithABin, 0⟩).1
        = some (msg "no such file or directory") ∧
      (DownloadFile offlineEnv (msg "http://h/a.bin") [] ⟨fsWithABin, 0⟩).2.2
        = [.progress { BytesDone := 0, BytesTotal := 0, CurrentFile := msg "http://h/a.bin",
                       ETA := [], Done := false,
                       Err := some (msg "no such file or directory") }]) ∧
    (fsWithABinAndF.Stat (dstPathOf (msg "http://h/a.bin") (msg "f/.."))
        = some (.file [1, 2, 3]) ∧
      (DownloadFile offlineEnv (msg "http://h/a.bin") (msg "f/..") ⟨fsWithABinAndF, 0⟩).1
        = some (msg "not a directory") ∧
      (DownloadFile offlineEnv (msg "http://h/a.bin") (msg "f/..") ⟨fsWithABinAndF, 0⟩).2.2
        = [.progress { BytesDone := 0, BytesTotal := 0, CurrentFile := msg "http://h/a.bin",
                       ETA := [], Done := false, Err := some (msg "not a directory") }]) := by
  refine ⟨⟨by decide, by decide, by decide⟩, ⟨by decide, by decide, by decide⟩⟩

/-! ## Theorems: calling `DownloadFile` twice -/

theorem copyChunks_nil (env : Env) (out : Loc) (total : Int) (p : Progress) (fs : FS) :
    copyChunks env out total [] p fs = (p, fs, [], none) := rfl

theorem copyChunks_empty_chunk (env : Env) (out : Loc) (total : Int) (chunk : Bytes)
    (rest : List Bytes) (p : Progress) (fs : FS) (h : ¬ 0 < chunk.length) :
    copyChunks env out total (chunk :: rest) p fs = copyChunks env out total rest p fs := by
  conv_lhs => unfold copyChunks
  rw [if_neg h]

theorem copyChunks_write_fails (env : Env) (out : Loc) (total : Int) (chunk : Bytes)
    (rest : List Bytes) (p : Progress) (fs fs1 : FS) (werr : GoError) (h : 0 < chunk.length)
    (hw : fs.Write out chunk = (some werr, fs1)) :
    copyChunks env out total (chunk :: rest) p fs =
      ({ p with Err := some werr }, fs1,
        [.progress { p with Err := some werr }] ++ env.say (.error werr), some werr) := by
  conv_lhs => unfold copyChunks
  rw [if_pos h, hw]

theorem copyChunks_write_ok (env : Env) (out : Loc) (total : Int) (chunk : Bytes)
    (rest : List Bytes) (p : Progress) (fs fs1 : FS) (h : 0 < chunk.length)
    (hw : fs.Write out chunk = (none, fs1)) :
    copyChunks env out total (chunk :: rest) p fs =
      ((copyChunks env out total rest
          { p with BytesDone := wrapInt64 (p.BytesDone + chunk.length),
                   ETA := CalculateETA env (wrapInt64 (p.BytesDone + chunk.length)) total }
          fs1).1,
        (copyChunks env out total rest
          { p with BytesDone := wrapInt64 (p.BytesDone + chunk.length),
                   ETA := CalculateETA env (wrapInt64 (p.BytesDone + chunk.length)) total }
          fs1).2.1,
        .progress
          { p with BytesDone := wrapInt64 (p.BytesDone + chunk.length),
                   ETA := CalculateETA env (wrapInt64 (p.BytesDone + chunk.length)) total } ::
          (copyChunks env out total rest
            { p with BytesDone := wrapInt64 (p.BytesDone + chunk.length),
                     ETA := CalculateETA env (wrapInt64 (p.BytesDone + chunk.length)) total }
            fs1).2.2.1,
        (copyChunks env out total rest
          { p with BytesDone := wrapInt64 (p.BytesDone + chunk.length),
                   ETA := CalculateETA env (wrapInt64 (p.BytesDone + chunk.length)) total }
          fs1).2.2.2) := by
  conv_lhs => unfold copyChunks
  rw [if_pos h, hw]

theorem chunkBytes_cons (chunk : Bytes) (rest : List Bytes) :
    chunkBytes (chunk :: rest) = chunk.length + chunkBytes rest := by
  simp [chunkBytes]

/-- A successful `os.Create` resolves the path to its handle and leaves an empty file there. -/
theorem FS.OpenFile_ok {fs fs1 : FS} {p : GoString} {out : Loc}
    (h : fs.OpenFile p = (.ok out, fs1)) :
    fs.locate p = some out ∧ fs1.node out = some (.file []) := by
  unfold FS.OpenFile at h
  cases hl : fs.locate p with
  | none => rw [hl] at h; simp at h
  | some loc =>
    rw [hl] at h
    simp only at h
    cases hn : fs.node loc with
    | none =>
      rw [hn] at h
      simp only at h
      split at h
      · simp at h
      · simp only [Prod.mk.injEq, Except.ok.injEq] at h
        obtain ⟨h1, h2⟩ := h
        subst h1
        rw [← h2]
        exact ⟨rfl, by simp [FS.set]⟩
    | some n =>
      rw [hn] at h
      cases n with
      | dir s => simp at h
      | file d =>
        simp only at h
        split at h
        · simp at h
        · simp only [Prod.mk.injEq, Except.ok.injEq] at h
          obtain ⟨h1, h2⟩ := h
          subst h1
          rw [← h2]
          exact ⟨rfl, by simp [FS.set]⟩

/-- A successful write appends the chunk to the file behind the handle. -/
theorem FS.Write_ok {fs fs1 : FS} {out : Loc} {chunk d : Bytes}
    (hn : fs.node out = some (.file d)) (h : fs.Write out chunk = (none, fs1)) :
    fs1.node out = some (.file (d ++ chunk)) := by
  unfold FS.Write at h
  rw [hn] at h
  simp only at h
  split at h
  · simp at h
  · simp only [Prod.mk.injEq, true_and] at h
    rw [← h]
    simp [FS.set]

/-- When no write fails, the streaming loop leaves behind the handle a file that is longer
than before by the bytes of the chunks. -/
theorem copyChunks_file (env : Env) (out : Loc) (total : Int) :
    ∀ (chunks : List Bytes) (p : Progress) (fs : FS) (d : Bytes),
      fs.node out = some (.file d) →
      (copyChunks env out total chunks p fs).2.2.2 = none →
      ∃ d1, (copyChunks env out total chunks p fs).2.1.node out = some (.file d1) ∧
        d1.length = d.length + chunkBytes chunks := by
  intro chunks
  induction chunks with
  | nil =>
    intro p fs d hn _
    rw [copyChunks_nil]
    exact ⟨d, hn, by simp [chunkBytes]⟩
  | cons chunk rest ih =>
    intro p fs d hn hok
    rw [chunkBytes_cons]
    by_cases hlen : 0 < chunk.length
    · cases hw : fs.Write out chunk with
      | mk r fs1 =>
        cases r with
        | some werr =>
          rw [copyChunks_write_fails env out total chunk rest p fs fs1 werr hlen hw] at hok
          simp at hok
        | none =>
          rw [copyChunks_write_ok env out total chunk rest p fs fs1 hlen hw] at hok ⊢
          obtain ⟨d1, h1, h2⟩ := ih _ fs1 (d ++ chunk) (FS.Write_ok hn hw) hok
          refine ⟨d1, h1, ?_⟩
          rw [h2, List.length_append]
          omega
    · rw [copyChunks_empty_chunk env out total chunk rest p fs hlen] at hok ⊢
      obtain ⟨d1, h1, h2⟩ := ih p fs d hn hok
      refine ⟨d1, h1, ?_⟩
      omega

theorem copyChunks_keepsDirs (env : Env) (out : Loc) (total : Int) :
    ∀ (chunks : List Bytes) (p : Progress) (fs : FS),
      FS.KeepsDirs fs (copyChunks env out total chunks p fs).2.1 := by
  intro chunks
  induction chunks with
  | nil => intro p fs; exact FS.keepsDirs_refl fs
  | cons chunk rest ih =>
    intro p fs
    unfold copyChunks
    split
    · cases hw : fs.Write out chunk with
      | mk r fs1 =>
        have hk := FS.Write_keepsDirs hw
        cases r with
        | some werr => exact hk
        | none => exact FS.keepsDirs_trans hk (ih _ fs1)
    · exact ih p fs

theorem maybeUnzip_not_zip (env : Env) (fs : FS) (p : GoString)
    (h : HasSuffix (ToLower p) (msg ".zip") = false) : maybeUnzip env fs p = (none, fs, []) := by
  simp [maybeUnzip, h]

theorem downloadBody_ok_keepsDirs (env : Env) (url filename dst : GoString) (p : Progress)
    (w w1 : World) (tr : List Event)
    (hzip : HasSuffix (ToLower dst) (msg ".zip") = false)
    (h : DownloadFile.downloadBody env url filename dst p w = (none, w1, tr)) :
    FS.KeepsDirs w.fs w1.fs := by
  unfold DownloadFile.downloadBody at h
  simp only at h
  split at h
  · simp at h
  · split at h
    · simp at h
    · split at h
      · simp at h
      · rename_i out fs1 hopen
        have hk1 := FS.OpenFile_keepsDirs hopen
        split at h
        · simp at h
        · rename_i p1 fs2 evs hcopy
          have hk2 : FS.KeepsDirs fs1 fs2 := by
            have h2 := congrArg (fun r => r.2.1) hcopy
            simp only at h2
            rw [← h2]
            exact copyChunks_keepsDirs env out _ _ _ fs1
          split at h
          · simp at h
          · rw [maybeUnzip_not_zip env fs2 dst hzip] at h
            simp only [Prod.mk.injEq] at h
            rw [← h.2.1]
            exact FS.keepsDirs_trans hk1 hk2

theorem DownloadFile_ok_keepsDirs (env : Env) (url dir : GoString) (w w1 : World)
    (tr : List Event)
    (hzip : HasSuffix (ToLower (dstPathOf url dir)) (msg ".zip") = false)
    (h : DownloadFile env url dir w = (none, w1, tr)) :
    ∃ fs0, w.fs.MkdirAll dir = (none, fs0) ∧ FS.KeepsDirs fs0 w1.fs := by
  unfold DownloadFile at h
  simp only at h
  cases hmk : w.fs.MkdirAll dir with
  | mk r fs0 =>
    rw [hmk] at h
    cases r with
    | some e => simp at h
    | none =>
      refine ⟨fs0, rfl, ?_⟩
      simp only at h
      split at h
      · split at h
        · rw [maybeUnzip_not_zip env fs0 _ hzip] at h
          simp only [Prod.mk.injEq] at h
          rw [← h.2.1]
          exact FS.keepsDirs_refl fs0
        · exact downloadBody_ok_keepsDirs env url _ _ _ _ w1 tr hzip h
      · exact downloadBody_ok_keepsDirs env url _ _ _ _ w1 tr hzip h


/-- A call of the part after the skip check that succeeds on a name other than an archive's,
with a body that is not empty, leaves a regular file with at least one byte at the
destination. -/
theorem downloadBody_ok_file (env : Env) (url filename dst : GoString) (p : Progress)
    (w w1 : World) (tr : List Event)
    (hzip : HasSuffix (ToLower dst) (msg ".zip") = false)
    (hbody : ∀ sc status total body,
      env.net w.requests url = .response sc status total body → 0 < body.size)
    (h : DownloadFile.downloadBody env url filename dst p w = (none, w1, tr)) :
    ∃ d, w1.fs.Stat dst = some (.file d) ∧ 0 < d.length := by
  have hk := downloadBody_ok_keepsDirs env url filename dst p w w1 tr hzip h
  unfold DownloadFile.downloadBody at h
  simp only at h
  cases hnet : env.net w.requests url with
  | transportError err => rw [hnet] at h; simp at h
  | response statusCode status total body =>
    have hpos := hbody statusCode status total body hnet
    rw [hnet] at h
    simp only at h
    split at h
    · simp at h
    · split at h
      · simp at h
      · rename_i out fs1 hopen
        obtain ⟨hloc, hnode⟩ := FS.OpenFile_ok hopen
        split at h
        · simp at h
        · rename_i p1 fs2 evs hcopy
          have hfs2 : (copyChunks env out total (body.reads ++ [body.lastChunk])
              { p with BytesTotal := total } fs1).2.1 = fs2 := by rw [hcopy]
          have herr : (copyChunks env out total (body.reads ++ [body.lastChunk])
              { p with BytesTotal := total } fs1).2.2.2 = none := by rw [hcopy]
          obtain ⟨d1, hd1, hlen⟩ := copyChunks_file env out total _ _ fs1 [] hnode herr
          rw [hfs2] at hd1
          split at h
          · simp at h
          · rw [maybeUnzip_not_zip env fs2 dst hzip] at h
            simp only [Prod.mk.injEq] at h
            have hw1 : w1.fs = fs2 := by rw [← h.2.1]
            refine ⟨d1, ?_, ?_⟩
            · simp only [FS.Stat, hk.locate hloc]
              rw [hw1]
              exact hd1
            · rw [hlen]
              simp only [List.length_nil, zero_add]
              exact hpos

/-- The part of `DownloadFile` after the skip check always issues its request. -/
theorem downloadBody_requests (env : Env) (url filename dst : GoString) (p : Progress)
    (w : World) :
    Event.httpGet url ∈ (DownloadFile.downloadBody env url filename dst p w).2.2 := by
  unfold DownloadFile.downloadBody
  simp only
  split
  · simp
  · split
    · simp
    · split
      · simp
      · split
        · simp
        · split <;> simp

/-- A call of `DownloadFile` that succeeds on a name other than an archive's, with a body
that is not empty when a request is made, leaves the destination with a size greater than
zero. -/
theorem DownloadFile_ok_leaves_file (env : Env) (url dir : GoString) (w w1 : World)
    (tr : List Event)
    (hzip : HasSuffix (ToLower (dstPathOf url dir)) (msg ".zip") = false)
    (hbody : Event.httpGet url ∈ tr → ∀ sc status total body,
      env.net w.requests url = .response sc status total body → 0 < body.size)
    (h : DownloadFile env url dir w = (none, w1, tr)) :
    ∃ fi, w1.fs.Stat (dstPathOf url dir) = some fi ∧ 0 < fi.size := by
  have hfrom : ∀ fs0 : FS,
      DownloadFile.downloadBody env url (fileNameOf url) (dstPathOf url dir)
        { BytesDone := 0, BytesTotal := 0, CurrentFile := url, ETA := [], Done := false,
          Err := none } { w with fs := fs0 } = (none, w1, tr) →
      ∃ fi, w1.fs.Stat (dstPathOf url dir) = some fi ∧ 0 < fi.size := by
    intro fs0 hb
    have hmem : Event.httpGet url ∈ tr := by
      have := downloadBody_requests env url (fileNameOf url) (dstPathOf url dir)
        { BytesDone := 0, BytesTotal := 0, CurrentFile := url, ETA := [], Done := false,
          Err := none } { w with fs := fs0 }
      rw [hb] at this
      exact this
    obtain ⟨d, hd, hlen⟩ := downloadBody_ok_file env url _ _ _ { w with fs := fs0 } w1 tr
      hzip (hbody hmem) hb
    exact ⟨.file d, hd, hlen⟩
  unfold DownloadFile at h
  simp only at h
  cases hmk : w.fs.MkdirAll dir with
  | mk r fs0 =>
    rw [hmk] at h
    cases r with
    | some e => simp at h
    | none =>
      simp only at h
      split at h
      · rename_i fi hst
        split at h
        · rename_i hsz
          rw [maybeUnzip_not_zip env fs0 _ hzip] at h
          simp only [Prod.mk.injEq] at h
          have hw1 : w1.fs = fs0 := by rw [← h.2.1]
          exact ⟨fi, by rw [hw1]; exact hst, hsz⟩
        · exact hfrom fs0 h
      · exact hfrom fs0 h

/-- C2 (amended). If a first call of `DownloadFile` succeeds, the destination name does not
end in `.zip` (in any letter case) and, when the call makes a request, the body of the
response is not empty, then the call leaves the destination with a size greater than zero,
and a second call with the same source and target issues no network request, and its only
snapshot has `Done = true` and `BytesDone = BytesTotal =` that size. -/
theorem DownloadFile_second_call_skips (env : Env) (url dir : GoString) (w w1 : World)
    (tr : List Event)
    (hfirst : DownloadFile env url dir w = (none, w1, tr))
    (hzip : HasSuffix (ToLower (dstPathOf url dir)) (msg ".zip") = false)
    (hbody : Event.httpGet url ∈ tr → ∀ sc status total body,
      env.net w.requests url = .response sc status total body → 0 < body.size) :
    ∃ fi, w1.fs.Stat (dstPathOf url dir) = some fi ∧ 0 < fi.size ∧
      (DownloadFile env url dir w1).1 = none ∧
      (DownloadFile env url dir w1).2.2.filter Event.isHttpGet = [] ∧
      (DownloadFile env url dir w1).2.1.requests = w1.requests ∧
      (DownloadFile env url dir w1).2.2.filterMap Event.progress? =
        [{ BytesDone := fi.size, BytesTotal := fi.size, CurrentFile := url, ETA := [],
           Done := true, Err := none }] := by
  obtain ⟨fs0, hmk, hk⟩ := DownloadFile_ok_keepsDirs env url dir w w1 tr hzip hfirst
  obtain ⟨fi, hst, hsz⟩ := DownloadFile_ok_leaves_file env url dir w w1 tr hzip hbody hfirst
  have hmk1 : w1.fs.MkdirAll dir = (none, w1.fs) := FS.MkdirAll_again hmk hk
  refine ⟨fi, hst, hsz, ?_⟩
  rw [DownloadFile_skip_eq env url dir w1 w1.fs fi hmk1 hst hsz,
    maybeUnzip_not_zip env w1.fs _ hzip]
  refine ⟨rfl, ?_, rfl, ?_⟩
  · simp [List.filter_append, Env.say_filter_httpGet, Event.isHttpGet]
  · simp [List.filterMap_append, Env.say_filterMap_progress, Event.progress?]

/-- Witness for C2: three bytes are downloaded to `d/a.bin`, which is left with three bytes,
and the second call skips. -/
theorem DownloadFile_second_call_skips_witness :
    (DownloadFile (servingEnv [7, 8, 9]) (msg "http://h/a.bin") (msg "d") ⟨fsRootOnly, 0⟩).1
      = none ∧
    Event.httpGet (msg "http://h/a.bin") ∈
      (DownloadFile (servingEnv [7, 8, 9]) (msg "http://h/a.bin") (msg "d")
        ⟨fsRootOnly, 0⟩).2.2 ∧
    0 < Body.size ⟨[], [7, 8, 9], .eof⟩ ∧
    (DownloadFile (servingEnv [7, 8, 9]) (msg "http://h/a.bin") (msg "d")
      ⟨fsRootOnly, 0⟩).2.1.fs.Stat (dstPathOf (msg "http://h/a.bin") (msg "d"))
        = some (.file [7, 8, 9]) ∧
    ∃ fi,
      (DownloadFile (servingEnv [7, 8, 9]) (msg "http://h/a.bin") (msg "d")
        ⟨fsRootOnly, 0⟩).2.1.fs.Stat (dstPathOf (msg "http://h/a.bin") (msg "d")) = some fi ∧
      0 < fi.size ∧
      (DownloadFile (servingEnv [7, 8, 9]) (msg "http://h/a.bin") (msg "d")
        (DownloadFile (servingEnv [7, 8, 9]) (msg "http://h/a.bin") (msg "d")
          ⟨fsRootOnly, 0⟩).2.1).2.2.filter Event.isHttpGet = [] ∧
      (DownloadFile (servingEnv [7, 8, 9]) (msg "http://h/a.bin") (msg "d")
        (DownloadFile (servingEnv [7, 8, 9]) (msg "http://h/a.bin") (msg "d")
          ⟨fsRootOnly, 0⟩).2.1).2.2.filterMap Event.progress? =
        [{ BytesDone := fi.size, BytesTotal := fi.size, CurrentFile := msg "http://h/a.bin",
           ETA := [], Done := true, Err := none }] :=
  have h := DownloadFile_second_call_skips (servingEnv [7, 8, 9]) (msg "http://h/a.bin")
    (msg "d") ⟨fsRootOnly, 0⟩
    (DownloadFile (servingEnv [7, 8, 9]) (msg "http://h/a.bin") (msg "d") ⟨fsRootOnly, 0⟩).2.1
    (DownloadFile (servingEnv [7, 8, 9]) (msg "http://h/a.bin") (msg "d") ⟨fsRootOnly, 0⟩).2.2
    (by rfl) (by decide)
    (fun _ sc status total body hnet => by
      have h1 : HTTPResult.response 200 (msg "200 OK") 3 ⟨[], [7, 8, 9], .eof⟩
          = HTTPResult.response sc status total body := hnet
      injection h1 with _ _ _ hb
      subst hb
      decide)
  ⟨by decide, by decide, by decide, by decide,
    h.elim fun fi hfi => ⟨fi, hfi.1, hfi.2.1, hfi.2.2.2.1, hfi.2.2.2.2.2⟩⟩

/-- Counterexample to C2 as stated.  (1) For `a.zip` the first call downloads the archive,
extracts it and removes it, and returns `nil`; the second call finds no file and issues a
request again.  (2) For `a.bin` served with an empty body the first call returns `nil` and
leaves a file of size zero, which the second call does not skip either. -/
theorem DownloadFile_second_call_counterexample :
    ((DownloadFile (servingEnv emptyZipBytes) (msg "http://h/a.zip") (msg "d")
        ⟨fsRootOnly, 0⟩).1 = none ∧
      (DownloadFile (servingEnv emptyZipBytes) (msg "http://h/a.zip") (msg "d")
        (DownloadFile (servingEnv emptyZipBytes) (msg "http://h/a.zip") (msg "d")
          ⟨fsRootOnly, 0⟩).2.1).2.2.filter Event.isHttpGet = [.httpGet (msg "http://h/a.zip")]) ∧
    ((DownloadFile (servingEnv []) (msg "http://h/a.bin") (msg "d") ⟨fsRootOnly, 0⟩).1 = none ∧
      (DownloadFile (servingEnv []) (msg "http://h/a.bin") (msg "d")
        (DownloadFile (servingEnv []) (msg "http://h/a.bin") (msg "d")
          ⟨fsRootOnly, 0⟩).2.1).2.2.filter Event.isHttpGet = [.httpGet (msg "http://h/a.bin")]) := by
  refine ⟨⟨by decide, by decide⟩, ⟨by decide, by decide⟩⟩

/-! ## Theorems: retrying a download that keeps failing -/

/-- Witness for C3: with the network unreachable and `attempts = 3`, the wrapper around
`DownloadFile` makes exactly three requests and returns the error of the third attempt. -/
theorem DownloadFileWithRetry_attempts_witness :
    (3 : Int) < 2 ^ 63 - 1 ∧ (max (3 : Int) 1).toNat < 10 ∧
    (Manager.DownloadFileWithRetry offlineEnv (msg "http://h/a.bin") (msg "d") 3 10
        (⟨fsRootOnly, 0⟩, [])).map (fun r => (r.1, r.2.1.requests, r.2.2.filter Event.isHttpGet))
      = some (some (msg "dial tcp: connection refused"), 3,
          [.httpGet (msg "http://h/a.bin"), .httpGet (msg "http://h/a.bin"),
           .httpGet (msg "http://h/a.bin")]) ∧
    ∃ k : Nat, 1 ≤ k ∧ (k : Int) ≤ max 3 1 ∧
      Manager.DownloadFileWithRetry offlineEnv (msg "http://h/a.bin") (msg "d") 3 10
          (⟨fsRootOnly, 0⟩, [])
        = some (attemptRun (downloadAttempt offlineEnv (msg "http://h/a.bin") (msg "d"))
            (logRetryLine offlineEnv (msg "http://h/a.bin")) (max 3 1) k (⟨fsRootOnly, 0⟩, [])) :=
  ⟨by decide, by decide, by decide,
    let ⟨k, h1, h2, h3, _⟩ := DownloadFileWithRetry_attempts
      (downloadAttempt offlineEnv (msg "http://h/a.bin") (msg "d"))
      (logRetryLine offlineEnv (msg "http://h/a.bin")) 3 10 (⟨fsRootOnly, 0⟩, [])
      (by decide) (by decide)
    ⟨k, h1, h2, h3⟩⟩

/-! ## Theorems: the directory-index scraper -/

theorem notInCell_eq_false (parent : ParentInfo) :
    notInCell parent = false ↔ ∃ p, parent = some p ∧ p.1 = .ElementNode ∧ p.2 = msg "td" := by
  cases parent with
  | none => simp [notInCell]
  | some p =>
    obtain ⟨t, d⟩ := p
    simp [notInCell]

theorem listedParsed_mk (u : URLBase) (parent : ParentInfo) (t : NodeType) (d : GoString)
    (attr : List Attribute) (cs : List HtmlNode) :
    listedParsed u (parent, .mk t d attr cs) =
      (decide (t = .ElementNode ∧ d = msg "a") && !notInCell parent &&
        !decide (hrefOf attr = []) && !decide (TrimSpace (nodeText (.mk t d attr cs)) = []) &&
        u.parses (hrefOf attr)) := by
  have hcell : decide (∃ p, parent = some p ∧ p.1 = NodeType.ElementNode ∧ p.2 = msg "td")
      = !notInCell parent := by
    cases h : notInCell parent with
    | true =>
      have : ¬ ∃ p, parent = some p ∧ p.1 = .ElementNode ∧ p.2 = msg "td" := by
        intro h'
        rw [(notInCell_eq_false parent).2 h'] at h
        exact absurd h (by simp)
      simp [this]
    | false => simp [(notInCell_eq_false parent).1 h]
  unfold listedParsed listedAnchor
  simp only [HtmlNode.type, HtmlNode.data, HtmlNode.attr, Bool.decide_and, hcell, ne_eq,
    decide_not, Bool.and_assoc]

mutual
/-- The traversal lists exactly the anchors of `listedParsed`, in pre-order. -/
theorem walk_eq_preorder (u : URLBase) (parent : ParentInfo) :
    ∀ n : HtmlNode, walk u parent n = ((preorder parent n).filter (listedParsed u)).map (entryOf u)
  | .mk t d attr cs => by
    have ih := walkChildren_eq_preorder u (t, d) cs
    rw [preorder, List.filter_cons, listedParsed_mk, walk]
    by_cases h1 : t = .ElementNode ∧ d = msg "a"
    · rw [if_pos h1]
      obtain ⟨ht, hd⟩ := h1
      subst ht
      subst hd
      by_cases h2 : notInCell parent = true
      · rw [if_pos h2]; simp [h2, ih]
      · rw [if_neg h2]
        by_cases h3 : hrefOf attr = []
        · rw [if_pos h3]; simp [h3, ih]
        · rw [if_neg h3]
          by_cases h4 : TrimSpace (nodeText (.mk .ElementNode (msg "a") attr cs)) = []
          · rw [if_pos h4]; simp [h4, ih]
          · rw [if_neg h4]
            by_cases h5 : u.parses (hrefOf attr) = true
            · have h5' : ¬ ((!u.parses (hrefOf attr)) = true) := by simp [h5]
              rw [if_neg h5']
              simp [h2, h3, h4, h5, ih, entryOf, HtmlNode.attr]
            · have h5' : (!u.parses (hrefOf attr)) = true := by simpa using h5
              rw [if_pos h5']; simp [h5, ih]
    · rw [if_neg h1]; simp [h1, ih]
/-- The same for a list of siblings. -/
theorem walkChildren_eq_preorder (u : URLBase) (self : NodeType × GoString) :
    ∀ cs : List HtmlNode,
      walkChildren u self cs = ((preorderList self cs).filter (listedParsed u)).map (entryOf u)
  | [] => by simp [walkChildren, preorderList]
  | c :: cs => by
    rw [walkChildren, preorderList, List.filter_append, List.map_append,
      walk_eq_preorder u (some self) c, walkChildren_eq_preorder u self cs]
end

theorem List_ok {env : IndexEnv} {rawURL : GoString} {entries : List FileEntry}
    (h : HTTPIndex.List env rawURL = .ok entries) :
    ∃ u doc, env.parseBase rawURL = .ok u ∧ entries = walk u none doc := by
  unfold HTTPIndex.List at h
  split at h
  · simp at h
  · split at h
    · simp at h
    · rename_i u hu
      split at h
      · simp at h
      · split at h
        · simp at h
        · split at h
          · simp at h
          · split at h
            · simp at h
            · rename_i doc _
              simp only [Except.ok.injEq] at h
              exact ⟨u, doc, hu, h.symm⟩

/-- C7 (amended). For every node tree, the entries of the traversal correspond one-to-one,
in pre-order document order, to exactly those `<a>` elements whose immediate parent is a
`<td>` element, whose `href` is present, non-empty and accepted by `url.Parse`, and whose
text is non-empty after trimming; each entry's `Name` is that trimmed text, and a
successful `List` returns this listing of the parsed page.  An `<a>` whose parent is not a
`<td>` element never yields an entry; the pre-order runs through the descendants of every
anchor, listed or not. -/
theorem HTTPIndex_List_lists_anchors :
    (∀ (u : URLBase) (parent : ParentInfo) (n : HtmlNode),
      walk u parent n = ((preorder parent n).filter (listedParsed u)).map (entryOf u)) ∧
    (∀ (env : IndexEnv) (rawURL : GoString) (entries : List FileEntry),
      HTTPIndex.List env rawURL = .ok entries →
      ∃ u doc, env.parseBase rawURL = .ok u ∧
        entries = ((preorder none doc).filter (listedParsed u)).map (entryOf u)) ∧
    (∀ (u : URLBase) (x : ParentInfo × HtmlNode),
      listedParsed u x = true ↔
        (x.2.type = .ElementNode ∧ x.2.data = msg "a" ∧
          (∃ p, x.1 = some p ∧ p.1 = .ElementNode ∧ p.2 = msg "td") ∧
          hrefOf x.2.attr ≠ [] ∧ TrimSpace (nodeText x.2) ≠ [] ∧
          u.parses (hrefOf x.2.attr) = true)) ∧
    (∀ (u : URLBase) (x : ParentInfo × HtmlNode),
      (entryOf u x).Name = TrimSpace (nodeText x.2)) := by
  refine ⟨walk_eq_preorder, ?_, ?_, fun _ _ => rfl⟩
  · intro env rawURL entries h
    obtain ⟨u, doc, hu, he⟩ := List_ok h
    exact ⟨u, doc, hu, by rw [he, walk_eq_preorder]⟩
  · intro u x
    simp [listedParsed, listedAnchor, and_assoc]

/-- Counterexample to C7 as stated: on `samplePage` three anchors sit in a `<td>` with a
non-empty `href` and a non-empty label, but the one whose `href` is a lone colon, which
`url.Parse` rejects (missing protocol scheme), yields no entry. -/
theorem HTTPIndex_List_counterexample :
    ((preorder none samplePage).filter listedAnchor).map (fun x => (entryOf sampleBase x).Name)
      = [msg "Subdir/", msg "Game.zip", msg "broken"] ∧
    (walk sampleBase none samplePage).map (fun e => e.Name) = [msg "Subdir/", msg "Game.zip"] := by
  refine ⟨by decide, by decide⟩

/-- C8. Every entry of the traversal comes from a listed anchor, and its `IsDir` is true if
and only if the anchor's raw `href` ends with `/` or its trimmed label ends with `/`.  An
anchor with `href="Subdir/"` is a directory; one with `href="Game.zip"` and label
`Game.zip` is a file. -/
theorem HTTPIndex_List_isDir :
    (∀ (u : URLBase) (parent : ParentInfo) (n : HtmlNode) (e : FileEntry),
      e ∈ walk u parent n →
      ∃ x ∈ preorder parent n, listedParsed u x = true ∧ e = entryOf u x ∧
        e.Name = TrimSpace (nodeText x.2) ∧
        (e.IsDir = true ↔
          (HasSuffix (hrefOf x.2.attr) ['/'] = true ∨ HasSuffix e.Name ['/'] = true))) ∧
    walk sampleBase (some (.ElementNode, msg "td")) (elem "a" (href "Subdir/") [text "Subdir"])
      = [{ Name := msg "Subdir", URL := msg "https://example.org/files/SNES/Subdir/",
           IsDir := true }] ∧
    walk sampleBase (some (.ElementNode, msg "td")) (elem "a" (href "Game.zip") [text "Game.zip"])
      = [{ Name := msg "Game.zip", URL := msg "https://example.org/files/SNES/Game.zip",
           IsDir := false }] := by
  refine ⟨?_, by decide, by decide⟩
  intro u parent n e he
  rw [walk_eq_preorder, List.mem_map] at he
  obtain ⟨x, hx, hxe⟩ := he
  rw [List.mem_filter] at hx
  refine ⟨x, hx.1, hx.2, hxe.symm, by rw [← hxe]; rfl, ?_⟩
  rw [← hxe]
  simp [entryOf]

/-! ## Theorems: the system-path classifier -/

theorem splitSlash_firstSegment : ∀ s : GoString,
    ∃ t, splitSlash s = firstSegment s :: t := by
  intro s
  induction s with
  | nil => exact ⟨[], rfl⟩
  | cons c cs ih =>
    by_cases hc : c = '/'
    · subst hc
      exact ⟨splitSlash cs, by simp [splitSlash, firstSegment]⟩
    · obtain ⟨t, ht⟩ := ih
      refine ⟨t, ?_⟩
      rw [splitSlash_cons_of_ne hc ht]
      simp [firstSegment, List.takeWhile, hc]

theorem head_trimRightSlash {s : GoString} (h : trimRightSlash s ≠ []) :
    (trimRightSlash s).head? = s.head? := by
  unfold trimRightSlash at h ⊢
  have hsuf : (s.reverse.dropWhile (· == '/')) <:+ s.reverse := List.dropWhile_suffix _
  have hpre : (s.reverse.dropWhile (· == '/')).reverse <+: s := by
    have := List.reverse_prefix.2 hsuf
    simpa using this
  obtain ⟨t, ht⟩ := hpre
  cases hr : (s.reverse.dropWhile (· == '/')).reverse with
  | nil => exact absurd hr h
  | cons a as =>
    rw [hr] at ht
    rw [← ht]
    rfl

theorem head_trimSlash {s : GoString} (h : trimSlash s ≠ []) :
    (trimSlash s).head? ≠ some '/' := by
  unfold trimSlash at h ⊢
  rw [head_trimRightSlash h]
  unfold trimLeftSlash
  cases hd : s.dropWhile (· == '/') with
  | nil => simp
  | cons a as =>
    have := List.head_dropWhile_not (· == '/') s (by rw [hd]; simp)
    simp only [hd, List.head_cons] at this
    simp only [List.head?_cons, ne_eq, Option.some.injEq]
    intro ha
    rw [ha] at this
    simp at this

theorem firstSegment_ne_nil {s : GoString} (hne : s ≠ []) (h : s.head? ≠ some '/') :
    firstSegment s ≠ [] := by
  cases s with
  | nil => exact absurd rfl hne
  | cons c cs =>
    have hc : c ≠ '/' := by simpa using h
    simp [firstSegment, List.takeWhile, hc]

/-- C10. If both URLs parse, the file path with trailing slashes stripped begins with the
root path with trailing slashes stripped, and the remainder is non-empty after stripping
leading and trailing slashes, then `GuessSystemFromURL` returns `SanitizeFolderName` of the
first path segment of that remainder. -/
theorem GuessSystemFromURL_under_root (parsePath : GoString → Option GoString)
    (rootStr fileStr rootPath filePath : GoString)
    (hroot : parsePath rootStr = some rootPath) (hfile : parsePath fileStr = some filePath)
    (hpre : HasPrefix (trimRightSlash filePath) (trimRightSlash rootPath) = true)
    (hrel : trimSlash ((trimRightSlash filePath).drop (trimRightSlash rootPath).length) ≠ []) :
    GuessSystemFromURL parsePath rootStr fileStr =
      SanitizeFolderName
        (firstSegment
          (trimSlash ((trimRightSlash filePath).drop (trimRightSlash rootPath).length))) := by
  have htp : TrimPrefix (trimRightSlash filePath) (trimRightSlash rootPath)
      = (trimRightSlash filePath).drop (trimRightSlash rootPath).length := by
    simp [TrimPrefix, hpre]
  obtain ⟨t, ht⟩ := splitSlash_firstSegment
    (trimSlash ((trimRightSlash filePath).drop (trimRightSlash rootPath).length))
  have hseg := firstSegment_ne_nil hrel (head_trimSlash hrel)
  unfold GuessSystemFromURL
  simp only [hroot, hfile, hpre, htp, if_true, ne_eq, hrel, not_false_eq_true, ht, hseg]

/-- Witness for C10: root `https://x/files/` and file `https://x/files/SNES/Game.zip`
give `SNES`. -/
theorem GuessSystemFromURL_under_root_witness :
    plainHTTPSPath (msg "https://x/files/") = some (msg "/files/") ∧
    plainHTTPSPath (msg "https://x/files/SNES/Game.zip") = some (msg "/files/SNES/Game.zip") ∧
    GuessSystemFromURL plainHTTPSPath (msg "https://x/files/")
      (msg "https://x/files/SNES/Game.zip") = msg "SNES" :=
  ⟨by decide, by decide,
    (GuessSystemFromURL_under_root plainHTTPSPath (msg "https://x/files/")
      (msg "https://x/files/SNES/Game.zip") (msg "/files/") (msg "/files/SNES/Game.zip")
      (by decide) (by decide) (by decide) (by decide)).trans (by decide)⟩

/-! ## Theorems: the label of the system-path classifier -/

theorem getLast?_dropLast_getD {α : Type} (l : List α) (d : α) (h : 2 ≤ l.length) :
    l.dropLast.getLast? = some (l.getD (l.length - 2) d) := by
  rw [List.getLast?_eq_getElem?, List.length_dropLast, List.dropLast_eq_take,
    List.getElem?_take]
  have h1 : l.length - 1 - 1 < l.length - 1 := by omega
  have h2 : l.length - 1 - 1 = l.length - 2 := by omega
  have h3 : l.length - 2 < l.length := by omega
  rw [if_pos h1, h2, List.getD_eq_getElem?_getD, List.getElem?_eq_getElem h3]
  rfl

theorem SanitizeFolderName_blank {s : GoString} (h : TrimSpace s = []) :
    SanitizeFolderName s = msg "Unknown" := by
  simp [SanitizeFolderName, h]

theorem SanitizeFolderName_chars (s : GoString) :
    ∀ c ∈ SanitizeFolderName s, 32 ≤ c.toNat ∧ c ∉ badChars := by
  intro c hc
  unfold SanitizeFolderName at hc
  split at hc
  · revert c; decide
  · rw [List.mem_filterMap] at hc
    obtain ⟨r, _, hr⟩ := hc
    split at hr
    · exact absurd hr (by simp)
    · rename_i h32
      split at hr
      · have : c = '-' := (Option.some.inj hr).symm
        subst this
        decide
      · rename_i hbad
        have : c = r := (Option.some.inj hr).symm
        subst this
        exact ⟨Nat.le_of_not_lt h32, hbad⟩

theorem SanitizeFolderName_ne_nil {s : GoString} (h : ∃ c ∈ TrimSpace s, 32 ≤ c.toNat) :
    SanitizeFolderName s ≠ [] := by
  obtain ⟨c, hc, h32⟩ := h
  unfold SanitizeFolderName
  have hne : TrimSpace s ≠ [] := List.ne_nil_of_mem hc
  rw [if_neg hne]
  intro hnil
  have hmem : ∀ x, x ∉ (TrimSpace s).filterMap (fun r =>
      if r.toNat < 32 then none else if r ∈ badChars then some '-' else some r) := by
    rw [hnil]; simp
  by_cases hb : c ∈ badChars
  · exact hmem '-' (List.mem_filterMap.2 ⟨c, hc, by simp [Nat.not_lt.2 h32, hb]⟩)
  · exact hmem c (List.mem_filterMap.2 ⟨c, hc, by simp [Nat.not_lt.2 h32, hb]⟩)

theorem GuessSystemFromURL_eq_chosen (parsePath : GoString → Option GoString)
    (rootStr fileStr : GoString) :
    GuessSystemFromURL parsePath rootStr fileStr =
      match chosenSegment parsePath rootStr fileStr with
      | some s => SanitizeFolderName s
      | none => msg "Unknown" := by
  unfold GuessSystemFromURL chosenSegment
  cases hr : parsePath rootStr with
  | none => simp
  | some rootPath =>
    cases hf : parsePath fileStr with
    | none => simp
    | some filePath =>
      simp only
      have hfall : (if 2 ≤ (splitSlash (trimSlash (trimRightSlash filePath))).length then
            SanitizeFolderName ((splitSlash (trimSlash (trimRightSlash filePath))).getD
              ((splitSlash (trimSlash (trimRightSlash filePath))).length - 2) [])
          else msg "Unknown") =
          match parentSegment (trimRightSlash filePath) with
          | some s => SanitizeFolderName s
          | none => msg "Unknown" := by
        unfold parentSegment
        by_cases h2 : 2 ≤ (splitSlash (trimSlash (trimRightSlash filePath))).length
        · rw [if_pos h2, if_pos h2, getLast?_dropLast_getD _ [] h2]
        · rw [if_neg h2, if_neg h2]
      unfold underRootSegment
      by_cases hpre : HasPrefix (trimRightSlash filePath) (trimRightSlash rootPath) = true
      · have htp : TrimPrefix (trimRightSlash filePath) (trimRightSlash rootPath)
            = (trimRightSlash filePath).drop (trimRightSlash rootPath).length := by
          simp [TrimPrefix, hpre]
        simp only [hpre, if_true, htp]
        by_cases hrel :
            trimSlash ((trimRightSlash filePath).drop (trimRightSlash rootPath).length) = []
        · simp only [hrel, ne_eq, not_true_eq_false, if_false, if_true]
          exact hfall
        · obtain ⟨t, ht⟩ := splitSlash_firstSegment
            (trimSlash ((trimRightSlash filePath).drop (trimRightSlash rootPath).length))
          have hseg := firstSegment_ne_nil hrel (head_trimSlash hrel)
          simp only [ne_eq, hrel, not_false_eq_true, if_true, if_false, ht, hseg]
      · simp only [hpre, Bool.false_eq_true, if_false]
        exact hfall

/-- C11 (amended). `GuessSystemFromURL` is a total function of its two strings.  Its
result is the fixed label `"Unknown"` whenever either address fails to parse, whenever
neither the under-root rule nor the parent-directory fallback chooses a segment, and whenever
the chosen segment is empty after trimming white space.  Every character of the result has a
code of at least 32 (none lies below `U+0020`) and is none of the characters of `badChars`,
and the result is not empty whenever the chosen segment, trimmed, holds a character with a
code of at least 32. -/
theorem GuessSystemFromURL_label (parsePath : GoString → Option GoString)
    (rootStr fileStr : GoString) :
    (parsePath rootStr = none ∨ parsePath fileStr = none →
      GuessSystemFromURL parsePath rootStr fileStr = msg "Unknown") ∧
    (chosenSegment parsePath rootStr fileStr = none →
      GuessSystemFromURL parsePath rootStr fileStr = msg "Unknown") ∧
    (∀ s, chosenSegment parsePath rootStr fileStr = some s → TrimSpace s = [] →
      GuessSystemFromURL parsePath rootStr fileStr = msg "Unknown") ∧
    (∀ c ∈ GuessSystemFromURL parsePath rootStr fileStr, 32 ≤ c.toNat ∧ c ∉ badChars) ∧
    (∀ s, chosenSegment parsePath rootStr fileStr = some s →
      (∃ c ∈ TrimSpace s, 32 ≤ c.toNat) →
      GuessSystemFromURL parsePath rootStr fileStr ≠ []) := by
  have heq := GuessSystemFromURL_eq_chosen parsePath rootStr fileStr
  refine ⟨?_, ?_, ?_, ?_, ?_⟩
  · intro h
    have hnone : chosenSegment parsePath rootStr fileStr = none := by
      unfold chosenSegment
      rcases h with h | h
      · rw [h]
      · rw [h]; cases parsePath rootStr <;> rfl
    rw [heq, hnone]
  · intro h; rw [heq, h]
  · intro s hs hblank; rw [heq, hs]; exact SanitizeFolderName_blank hblank
  · cases hc : chosenSegment parsePath rootStr fileStr with
    | none => rw [heq, hc]; decide
    | some s => rw [heq, hc]; exact SanitizeFolderName_chars s
  · intro s hs hex; rw [heq, hs]; exact SanitizeFolderName_ne_nil hex

/-- Counterexample to C11 as stated.  (1) The file address `:` fails to parse and the
result is `"Unknown"` with a capital letter, which is not the label `"unknown"`.  (2) For
the file address `https://example.org/files/%01/game.zip` under the root
`https://example.org/files/` the chosen segment is the control character `U+0001`; it is
not empty after trimming, every character of it is removed, and the result is the empty
string: neither a non-empty label nor the fixed one. -/
theorem GuessSystemFromURL_label_counterexample :
    (escapedHTTPSPath (msg ":") = none ∧
      GuessSystemFromURL escapedHTTPSPath (msg "https://example.org/files/") (msg ":")
        = msg "Unknown" ∧
      msg "Unknown" ≠ msg "unknown") ∧
    (escapedHTTPSPath (msg "https://example.org/files/") = some (msg "/files/") ∧
      escapedHTTPSPath (msg "https://example.org/files/%01/game.zip")
        = some (msg "/files/\x01/game.zip") ∧
      chosenSegment escapedHTTPSPath (msg "https://example.org/files/")
        (msg "https://example.org/files/%01/game.zip") = some (msg "\x01") ∧
      GuessSystemFromURL escapedHTTPSPath (msg "https://example.org/files/")
        (msg "https://example.org/files/%01/game.zip") = []) := by
  refine ⟨⟨by decide, by decide, by decide⟩,
    ⟨by decide, by decide, by decide, by decide⟩⟩

/-! ## Theorems: the file name `DownloadFile` derives -/

theorem trimRightSlash_of_lastSegment {s : GoString} (h : lastSegment s ≠ []) :
    trimRightSlash s = s := by
  unfold lastSegment at h
  unfold trimRightSlash
  cases hr : s.reverse with
  | nil => rw [hr] at h; simp at h
  | cons c t =>
    rw [hr] at h
    have hc : c ≠ '/' := by
      intro hc
      subst hc
      simp [List.takeWhile] at h
    have hcb : (c == '/') = false := by simp [hc]
    have : ((c :: t).dropWhile (· == '/')) = c :: t := by
      rw [List.dropWhile_cons, hcb]; rfl
    rw [this, ← hr, List.reverse_reverse]

/-- For an address that does not end in a slash (and is not empty) the file name is the
last path segment. -/
theorem fileNameOf_eq_lastSegment {s : GoString} (h : lastSegment s ≠ []) :
    fileNameOf s = lastSegment s ∧ fileNameOf s = fileNameSpec s := by
  have hs : s ≠ [] := by
    intro hs; subst hs; exact h rfl
  have hb : Base s = lastSegment s := by
    unfold Base
    rw [if_neg hs]
    simp only [trimRightSlash_of_lastSegment h]
    unfold lastSegment at h ⊢
    rw [if_neg h]
  have hslash : lastSegment s ≠ ['/'] := by
    intro hl
    have hmem : '/' ∈ (s.reverse.takeWhile (· ≠ '/')) := by
      have : (s.reverse.takeWhile (· ≠ '/')).reverse = ['/'] := hl
      have h2 := congrArg List.reverse this
      rw [List.reverse_reverse] at h2
      rw [h2]; simp
    have := List.mem_takeWhile_imp hmem
    simp at this
  unfold fileNameOf fileNameSpec
  rw [hb, if_neg h]
  simp [h, hslash]

/-- C12. The placeholder is not substituted where the claim says it is.  For the empty
address the file name is `.`, so the destination is the target directory itself; on a
filesystem with nothing but the root, `DownloadFile` makes the directory `roms`, takes it
for an existing file of 4096 bytes, makes no request and returns `nil` after one snapshot
with `Done = true`.  For an address that ends in a slash the file name is the segment before
the slash.  The specification gives `download.bin` in both cases. -/
theorem fileNameOf_placeholder_missed :
    (fileNameOf [] = msg "." ∧ fileNameSpec [] = msg "download.bin" ∧
      dstPathOf [] (msg "roms") = msg "roms" ∧
      (DownloadFile offlineEnv [] (msg "roms") ⟨fsRootOnly, 0⟩).1 = none ∧
      (DownloadFile offlineEnv [] (msg "roms") ⟨fsRootOnly, 0⟩).2.2 =
        [.progress { BytesDone := 4096, BytesTotal := 4096, CurrentFile := [], ETA := [],
                     Done := true, Err := none }]) ∧
    (fileNameOf (msg "https://example.org/files/SNES/") = msg "SNES" ∧
      fileNameSpec (msg "https://example.org/files/SNES/") = msg "download.bin") ∧
    (fileNameOf (msg "/") = msg "download.bin") := by
  refine ⟨⟨by decide, by decide, by decide, by decide, by decide⟩, ⟨by decide, by decide⟩,
    by decide⟩

/-! ## Theorems: the snapshots of one `DownloadFile` call -/

/-- The snapshots of the streaming loop: none of them is terminal while the writes succeed,
and a failed write ends the loop with one snapshot that carries the error. -/
theorem copyChunks_shape (env : Env) (out : Loc) (total : Int) :
    ∀ (chunks : List Bytes) (p : Progress) (fs : FS), p.Done = false → p.Err = none →
      (copyChunks env out total chunks p fs).1.Done = false ∧
      ((copyChunks env out total chunks p fs).2.2.2 = none →
        (copyChunks env out total chunks p fs).1.Err = none ∧
        ∀ q ∈ (copyChunks env out total chunks p fs).2.2.1.filterMap Event.progress?,
          q.Done = false ∧ q.Err = none) ∧
      (∀ e, (copyChunks env out total chunks p fs).2.2.2 = some e →
        ∃ init last,
          (copyChunks env out total chunks p fs).2.2.1.filterMap Event.progress?
            = init ++ [last] ∧
          (∀ q ∈ init, q.Done = false ∧ q.Err = none) ∧
          last.Done = false ∧ last.Err = some e) := by
  intro chunks
  induction chunks with
  | nil =>
    intro p fs hD hE
    rw [copyChunks_nil]
    exact ⟨hD, fun _ => ⟨hE, by simp⟩, by simp⟩
  | cons chunk rest ih =>
    intro p fs hD hE
    by_cases hlen : 0 < chunk.length
    · cases hw : fs.Write out chunk with
      | mk r fs1 =>
        cases r with
        | some werr =>
          rw [copyChunks_write_fails env out total chunk rest p fs fs1 werr hlen hw]
          refine ⟨hD, by simp, ?_⟩
          intro e he
          have hwe : werr = e := by simpa using he
          refine ⟨[], { p with Err := some werr }, ?_, by simp, hD, by simp [hwe]⟩
          simp [List.filterMap_append, Env.say_filterMap_progress, Event.progress?]
        | none =>
          rw [copyChunks_write_ok env out total chunk rest p fs fs1 hlen hw]
          obtain ⟨h1, h2, h3⟩ := ih
            { p with BytesDone := wrapInt64 (p.BytesDone + chunk.length),
                     ETA := CalculateETA env (wrapInt64 (p.BytesDone + chunk.length)) total }
            fs1 hD hE
          refine ⟨h1, ?_, ?_⟩
          · intro hnone
            obtain ⟨h2a, h2b⟩ := h2 hnone
            refine ⟨h2a, ?_⟩
            intro q hq
            simp only [List.filterMap_cons, Event.progress?, List.mem_cons] at hq
            rcases hq with hq | hq
            · subst hq; exact ⟨hD, hE⟩
            · exact h2b q hq
          · intro e he
            obtain ⟨init, last, hsplit, hinit, hlast⟩ := h3 e he
            refine ⟨{ p with BytesDone := wrapInt64 (p.BytesDone + chunk.length),
                             ETA := CalculateETA env (wrapInt64 (p.BytesDone + chunk.length))
                               total } :: init, last, ?_, ?_, hlast⟩
            · simp only [List.filterMap_cons, Event.progress?, hsplit, List.cons_append]
            · intro q hq
              simp only [List.mem_cons] at hq
              rcases hq with hq | hq
              · subst hq; exact ⟨hD, hE⟩
              · exact hinit q hq
    · rw [copyChunks_empty_chunk env out total chunk rest p fs hlen]
      exact ih p fs hD hE

/-- The byte counts of the streaming loop: while the counter stays in the `int64` range the
snapshots count upwards from the starting value to the final one, which is at most the
starting value plus the bytes of the chunks. -/
theorem copyChunks_bytes (env : Env) (out : Loc) (total : Int) :
    ∀ (chunks : List Bytes) (p : Progress) (fs : FS), 0 ≤ p.BytesDone →
      p.BytesDone + chunkBytes chunks < 2 ^ 63 →
      p.BytesDone ≤ (copyChunks env out total chunks p fs).1.BytesDone ∧
      (copyChunks env out total chunks p fs).1.BytesDone ≤ p.BytesDone + chunkBytes chunks ∧
      (copyChunks env out total chunks p fs).1.BytesTotal = p.BytesTotal ∧
      ((copyChunks env out total chunks p fs).2.2.1.filterMap Event.progress?).Pairwise
        (fun a b => a.BytesDone ≤ b.BytesDone) ∧
      ∀ q ∈ (copyChunks env out total chunks p fs).2.2.1.filterMap Event.progress?,
        p.BytesDone ≤ q.BytesDone ∧
        q.BytesDone ≤ (copyChunks env out total chunks p fs).1.BytesDone ∧
        q.BytesTotal = p.BytesTotal := by
  intro chunks
  induction chunks with
  | nil =>
    intro p fs _ _
    rw [copyChunks_nil]
    simp [chunkBytes]
  | cons chunk rest ih =>
    intro p fs h0 hsum
    rw [chunkBytes_cons] at hsum ⊢
    by_cases hlen : 0 < chunk.length
    · cases hw : fs.Write out chunk with
      | mk r fs1 =>
        cases r with
        | some werr =>
          rw [copyChunks_write_fails env out total chunk rest p fs fs1 werr hlen hw]
          refine ⟨le_refl _, by simp only; omega, rfl, ?_, ?_⟩
          · simp [List.filterMap_append, Env.say_filterMap_progress, Event.progress?]
          · intro q hq
            simp only [List.filterMap_append, Env.say_filterMap_progress, List.append_nil,
              List.filterMap_cons, Event.progress?, List.filterMap_nil, List.mem_singleton] at hq
            subst hq
            exact ⟨le_refl _, le_refl _, rfl⟩
        | none =>
          rw [copyChunks_write_ok env out total chunk rest p fs fs1 hlen hw]
          have hwrap : wrapInt64 (p.BytesDone + chunk.length) = p.BytesDone + chunk.length :=
            wrapInt64_of_range (by omega) (by omega)
          obtain ⟨h1, h2, h3, h4, h5⟩ := ih
            { p with BytesDone := wrapInt64 (p.BytesDone + chunk.length),
                     ETA := CalculateETA env (wrapInt64 (p.BytesDone + chunk.length)) total }
            fs1 (by simp only [hwrap]; omega) (by simp only [hwrap]; omega)
          simp only [hwrap] at h1 h2 h3 h4 h5 ⊢
          refine ⟨by omega, by omega, h3, ?_, ?_⟩
          · simp only [List.filterMap_cons, Event.progress?, List.pairwise_cons]
            refine ⟨?_, h4⟩
            intro q hq
            exact (h5 q hq).1
          · intro q hq
            simp only [List.filterMap_cons, Event.progress?, List.mem_cons] at hq
            rcases hq with hq | hq
            · subst hq
              exact ⟨by simp only; omega, h1, rfl⟩
            · obtain ⟨ha, hb, hc⟩ := h5 q hq
              exact ⟨by omega, hb, hc⟩
    · rw [copyChunks_empty_chunk env out total chunk rest p fs hlen]
      have hz : chunk.length = 0 := by omega
      obtain ⟨h1, h2, h3, h4, h5⟩ := ih p fs h0 (by omega)
      exact ⟨h1, by omega, h3, h4, h5⟩

/-- The paths through the part of `DownloadFile` after the skip check, by their snapshots:
either one snapshot with an error and no byte counted (transport failure, status other than
200, file creation failure), or the snapshots of the streaming loop, followed by one with the
read error or with `Done = true` when no write failed. -/
theorem downloadBody_forms (env : Env) (url filename dst : GoString) (w : World) :
    (∃ e q, (DownloadFile.downloadBody env url filename dst
          { BytesDone := 0, BytesTotal := 0, CurrentFile := url, ETA := [], Done := false,
            Err := none } w).1 = some e ∧
        (DownloadFile.downloadBody env url filename dst
          { BytesDone := 0, BytesTotal := 0, CurrentFile := url, ETA := [], Done := false,
            Err := none } w).2.2.filterMap Event.progress? = [q] ∧
        q.Done = false ∧ q.Err = some e ∧ q.BytesDone = 0) ∨
    (∃ status total body out fs1 c,
        env.net w.requests url = .response 200 status total body ∧
        w.fs.OpenFile dst = (.ok out, fs1) ∧
        c = copyChunks env out total (body.reads ++ [body.lastChunk])
          { BytesDone := 0, BytesTotal := total, CurrentFile := url, ETA := [], Done := false,
            Err := none } fs1 ∧
        ((∃ werr, c.2.2.2 = some werr ∧
            (DownloadFile.downloadBody env url filename dst
              { BytesDone := 0, BytesTotal := 0, CurrentFile := url, ETA := [], Done := false,
                Err := none } w).1 = some werr ∧
            (DownloadFile.downloadBody env url filename dst
              { BytesDone := 0, BytesTotal := 0, CurrentFile := url, ETA := [], Done := false,
                Err := none } w).2.2.filterMap Event.progress?
              = c.2.2.1.filterMap Event.progress?) ∨
          (∃ rerr, c.2.2.2 = none ∧ body.ending = .fail rerr ∧
            (DownloadFile.downloadBody env url filename dst
              { BytesDone := 0, BytesTotal := 0, CurrentFile := url, ETA := [], Done := false,
                Err := none } w).1 = some rerr ∧
            (DownloadFile.downloadBody env url filename dst
              { BytesDone := 0, BytesTotal := 0, CurrentFile := url, ETA := [], Done := false,
                Err := none } w).2.2.filterMap Event.progress?
              = c.2.2.1.filterMap Event.progress? ++ [{ c.1 with Err := some rerr }]) ∨
          (c.2.2.2 = none ∧ body.ending = .eof ∧
            (DownloadFile.downloadBody env url filename dst
              { BytesDone := 0, BytesTotal := 0, CurrentFile := url, ETA := [], Done := false,
                Err := none } w).2.2.filterMap Event.progress?
              = c.2.2.1.filterMap Event.progress? ++ [{ c.1 with Done := true }]))) := by
  unfold DownloadFile.downloadBody
  simp only
  cases hnet : env.net w.requests url with
  | transportError err =>
    left
    exact ⟨err, ⟨0, 0, url, [], false, some err⟩, rfl, by
      simp [List.filterMap_append, Env.say_filterMap_progress, Event.progress?], rfl, rfl, rfl⟩
  | response statusCode status total body =>
    simp only
    by_cases hsc : statusCode = 200
    · subst hsc
      simp only [ne_eq, not_true_eq_false, if_false]
      cases hopen : w.fs.OpenFile dst with
      | mk ro fs1 =>
        cases ro with
        | error err =>
          left
          exact ⟨err, ⟨0, total, url, [], false, some err⟩, rfl, by
            simp [List.filterMap_append, Env.say_filterMap_progress, Event.progress?],
            rfl, rfl, rfl⟩
        | ok out =>
          right
          refine ⟨status, total, body, out, fs1, _, rfl, rfl, rfl, ?_⟩
          simp only
          cases hc : copyChunks env out total (body.reads ++ [body.lastChunk])
              { BytesDone := 0, BytesTotal := total, CurrentFile := url, ETA := [],
                Done := false, Err := none } fs1 with
          | mk p1 r1 =>
            obtain ⟨fs2, evs, cerr⟩ := r1
            cases cerr with
            | some werr =>
              left
              refine ⟨werr, rfl, rfl, ?_⟩
              simp [List.filterMap_append, Env.say_filterMap_progress, Event.progress?]
            | none =>
              right
              cases hend : body.ending with
              | fail rerr =>
                left
                refine ⟨rerr, rfl, rfl, rfl, ?_⟩
                simp [List.filterMap_append, Env.say_filterMap_progress, Event.progress?]
              | eof =>
                right
                refine ⟨rfl, rfl, ?_⟩
                simp [List.filterMap_append, Env.say_filterMap_progress, Event.progress?,
                  (maybeUnzip_events env fs2 dst).2]
    · simp only [ne_eq, hsc, not_false_eq_true, if_true]
      left
      exact ⟨msg "http error: " ++ status,
        ⟨0, 0, url, [], false, some (msg "http error: " ++ status)⟩, rfl, by
        simp [List.filterMap_append, Env.say_filterMap_progress, Event.progress?],
        rfl, rfl, rfl⟩

/-- The three ways through `DownloadFile`: the target directory cannot be made; the
destination exists with a positive size; or the part after the skip check runs. -/
theorem DownloadFile_cases (env : Env) (url dir : GoString) (w : World) :
    (∃ err fs0, w.fs.MkdirAll dir = (some err, fs0) ∧
      (DownloadFile env url dir w).1 = some err ∧
      (DownloadFile env url dir w).2.2.filterMap Event.progress? =
        [{ BytesDone := 0, BytesTotal := 0, CurrentFile := url, ETA := [], Done := false,
           Err := some err }]) ∨
    (∃ fs0 fi, w.fs.MkdirAll dir = (none, fs0) ∧
      fs0.Stat (dstPathOf url dir) = some fi ∧ 0 < fi.size) ∨
    (∃ fs0, w.fs.MkdirAll dir = (none, fs0) ∧
      (¬ ∃ fi, fs0.Stat (dstPathOf url dir) = some fi ∧ 0 < fi.size) ∧
      DownloadFile env url dir w =
        DownloadFile.downloadBody env url (fileNameOf url) (dstPathOf url dir)
          { BytesDone := 0, BytesTotal := 0, CurrentFile := url, ETA := [], Done := false,
            Err := none } { w with fs := fs0 }) := by
  cases hmk : w.fs.MkdirAll dir with
  | mk r fs0 =>
    cases r with
    | some err =>
      left
      refine ⟨err, fs0, rfl, ?_, ?_⟩
      · unfold DownloadFile; simp only [hmk]
      · unfold DownloadFile; simp only [hmk]
        simp [List.filterMap_append, Env.say_filterMap_progress, Event.progress?]
    | none =>
      right
      cases hst : fs0.Stat (dstPathOf url dir) with
      | none =>
        right
        refine ⟨fs0, rfl, by simp [hst], ?_⟩
        unfold DownloadFile; simp only [hmk, hst]
      | some fi =>
        by_cases hsz : 0 < fi.size
        · left; exact ⟨fs0, fi, rfl, hst, hsz⟩
        · right
          refine ⟨fs0, rfl, ?_, ?_⟩
          · rintro ⟨fi', hfi, hpos⟩
            rw [hst] at hfi
            have hfi2 : fi = fi' := Option.some.inj hfi
            subst hfi2
            exact hsz hpos
          · unfold DownloadFile; simp only [hmk, hst, hsz, if_false]

/-- C15. On every path through `DownloadFile` the snapshots handed to the callback are a
run of snapshots with `Done = false` and no error, followed by exactly one terminal
snapshot: the last one has `Done = true` or an error, never both.  It has `Done = true` only
when the existing file was skipped or the response was `200` and its body ended with
`io.EOF`; and whenever the call returns `nil` it has `Done = true`. -/
theorem DownloadFile_terminal_snapshot (env : Env) (url dir : GoString) (w : World) :
    ∃ init last,
      (DownloadFile env url dir w).2.2.filterMap Event.progress? = init ++ [last] ∧
      (∀ q ∈ init, q.Done = false ∧ q.Err = none) ∧
      (last.Done = true ∨ last.Err ≠ none) ∧
      ¬ (last.Done = true ∧ last.Err ≠ none) ∧
      (last.Done = true →
        (∃ fs0 fi, w.fs.MkdirAll dir = (none, fs0) ∧
          fs0.Stat (dstPathOf url dir) = some fi ∧ 0 < fi.size) ∨
        (∃ status total body,
          env.net w.requests url = .response 200 status total body ∧ body.ending = .eof)) ∧
      ((DownloadFile env url dir w).1 = none → last.Done = true) := by
  rcases DownloadFile_cases env url dir w with
    ⟨err, fs0, _, hres, hsn⟩ | ⟨fs0, fi, hmk, hst, hsz⟩ | ⟨fs0, hmk, hnoskip, heq⟩
  · refine ⟨[], _, hsn, by simp, Or.inr (by simp), by simp, by simp, ?_⟩
    rw [hres]; simp
  · refine ⟨[], ⟨fi.size, fi.size, url, [], true, none⟩, ?_, by simp, Or.inl rfl, by simp,
      ?_, fun _ => rfl⟩
    · rw [DownloadFile_skip_eq env url dir w fs0 fi hmk hst hsz]
      simp [List.filterMap_append, Env.say_filterMap_progress, Event.progress?,
        (maybeUnzip_events env fs0 (dstPathOf url dir)).2]
    · intro _; exact Or.inl ⟨fs0, fi, hmk, hst, hsz⟩
  · rw [heq]
    rcases downloadBody_forms env url (fileNameOf url) (dstPathOf url dir) { w with fs := fs0 }
      with ⟨e, q, hres, hsn, hqD, hqE, _⟩ |
        ⟨status, total, body, out, fs1, c, hnet, _, hc, hform⟩
    · refine ⟨[], q, hsn, by simp, Or.inr (by simp [hqE]), by simp [hqD], by simp [hqD], ?_⟩
      rw [hres]; simp
    · obtain ⟨hcD, hcnone, hcsome⟩ := copyChunks_shape env out total
        (body.reads ++ [body.lastChunk])
        { BytesDone := 0, BytesTotal := total, CurrentFile := url, ETA := [], Done := false,
          Err := none } fs1 rfl rfl
      rw [← hc] at hcD hcnone hcsome
      rcases hform with ⟨werr, hcerr, hres, hsn⟩ | ⟨rerr, hcerr, _, hres, hsn⟩ |
        ⟨hcerr, hend, hsn⟩
      · obtain ⟨init, last, hsplit, hinit, hlD, hlE⟩ := hcsome werr hcerr
        refine ⟨init, last, by rw [hsn, hsplit], hinit, Or.inr (by simp [hlE]), by simp [hlD],
          by simp [hlD], ?_⟩
        rw [hres]; simp
      · obtain ⟨_, hall⟩ := hcnone hcerr
        refine ⟨_, _, hsn, hall, Or.inr (by simp), by simp [hcD], by simp [hcD], ?_⟩
        rw [hres]; simp
      · obtain ⟨hcE, hall⟩ := hcnone hcerr
        refine ⟨_, _, hsn, hall, Or.inl rfl, by simp [hcE], ?_, fun _ => rfl⟩
        intro _
        exact Or.inr ⟨status, total, body, hnet, hend⟩

/-- C13. Within one `DownloadFile` call whose response body delivers fewer than `2^63` bytes
and, when a positive `Content-Length` is declared, no more bytes than declared (as the
transport of `net/http` ensures), the `BytesDone` values of the successive snapshots never
decrease, and in every snapshot with a positive `BytesTotal`, `BytesDone` does not exceed
`BytesTotal`. -/
theorem DownloadFile_bytes_monotone (env : Env) (url dir : GoString) (w : World)
    (hbody : ∀ sc status total body, env.net w.requests url = .response sc status total body →
      (body.size : Int) < 2 ^ 63 ∧ (0 < total → (body.size : Int) ≤ total)) :
    ((DownloadFile env url dir w).2.2.filterMap Event.progress?).Pairwise
      (fun a b => a.BytesDone ≤ b.BytesDone) ∧
    ∀ q ∈ (DownloadFile env url dir w).2.2.filterMap Event.progress?,
      0 < q.BytesTotal → q.BytesDone ≤ q.BytesTotal := by
  rcases DownloadFile_cases env url dir w with
    ⟨err, fs0, _, _, hsn⟩ | ⟨fs0, fi, hmk, hst, hsz⟩ | ⟨fs0, hmk, _, heq⟩
  · rw [hsn]; simp
  · rw [DownloadFile_skip_eq env url dir w fs0 fi hmk hst hsz]
    simp [List.filterMap_append, Env.say_filterMap_progress, Event.progress?,
      (maybeUnzip_events env fs0 (dstPathOf url dir)).2]
  · rw [heq]
    rcases downloadBody_forms env url (fileNameOf url) (dstPathOf url dir) { w with fs := fs0 }
      with ⟨e, q, _, hsn, _, _, hq0⟩ |
        ⟨status, total, body, out, fs1, c, hnet, _, hc, hform⟩
    · rw [hsn]
      refine ⟨by simp, ?_⟩
      intro q' hq' hpos
      simp only [List.mem_singleton] at hq'
      subst hq'
      rw [hq0]; omega
    · obtain ⟨hsize, htotal⟩ := hbody 200 status total body hnet
      obtain ⟨_, hb2, hb3, hb4, hb5⟩ := copyChunks_bytes env out total
        (body.reads ++ [body.lastChunk])
        { BytesDone := 0, BytesTotal := total, CurrentFile := url, ETA := [], Done := false,
          Err := none } fs1 (le_refl _) (by simpa [Body.size] using hsize)
      rw [← hc] at hb2 hb3 hb4 hb5
      simp only [zero_add] at hb2 hb3 hb5
      have hsz' : (chunkBytes (body.reads ++ [body.lastChunk]) : Int) = body.size := rfl
      have hall : ∀ q ∈ c.2.2.1.filterMap Event.progress?,
          0 < q.BytesTotal → q.BytesDone ≤ q.BytesTotal := by
        intro q hq hpos
        obtain ⟨_, hle, htot⟩ := hb5 q hq
        rw [htot] at hpos ⊢
        have := htotal hpos
        omega
      rcases hform with ⟨werr, _, _, hsn⟩ | ⟨rerr, _, _, _, hsn⟩ | ⟨_, _, hsn⟩
      · rw [hsn]; exact ⟨hb4, hall⟩
      · rw [hsn]
        refine ⟨?_, ?_⟩
        · rw [List.pairwise_append]
          refine ⟨hb4, by simp, ?_⟩
          intro a ha b hb
          simp only [List.mem_singleton] at hb
          subst hb
          exact (hb5 a ha).2.1
        · intro q hq hpos
          rw [List.mem_append] at hq
          rcases hq with hq | hq
          · exact hall q hq hpos
          · simp only [List.mem_singleton] at hq
            subst hq
            simp only at hpos ⊢
            rw [hb3] at hpos ⊢
            have := htotal hpos
            omega
      · rw [hsn]
        refine ⟨?_, ?_⟩
        · rw [List.pairwise_append]
          refine ⟨hb4, by simp, ?_⟩
          intro a ha b hb
          simp only [List.mem_singleton] at hb
          subst hb
          exact (hb5 a ha).2.1
        · intro q hq hpos
          rw [List.mem_append] at hq
          rcases hq with hq | hq
          · exact hall q hq hpos
          · simp only [List.mem_singleton] at hq
            subst hq
            simp only at hpos ⊢
            rw [hb3] at hpos ⊢
            have := htotal hpos
            omega

/-- Witness for C13: ten bytes are declared and arrive in reads of three, none, two and five
bytes; the snapshots count 3, 5, 10 and 10 of 10. -/
theorem DownloadFile_bytes_monotone_witness :
    ((Body.size ⟨[[1, 2, 3], [], [4, 5]], [6, 7, 8, 9, 10], .eof⟩ : Int) < 2 ^ 63 ∧
      (Body.size ⟨[[1, 2, 3], [], [4, 5]], [6, 7, 8, 9, 10], .eof⟩ : Int) ≤ 10) ∧
    ((DownloadFile (chunkedEnv 10 [[1, 2, 3], [], [4, 5]] [6, 7, 8, 9, 10] .eof)
        (msg "http://h/a.bin") (msg "d") ⟨fsRootOnly, 0⟩).2.2.filterMap Event.progress?).map
      (fun p => (p.BytesDone, p.BytesTotal, p.Done)) =
        [(3, 10, false), (5, 10, false), (10, 10, false), (10, 10, true)] ∧
    (((DownloadFile (chunkedEnv 10 [[1, 2, 3], [], [4, 5]] [6, 7, 8, 9, 10] .eof)
        (msg "http://h/a.bin") (msg "d") ⟨fsRootOnly, 0⟩).2.2.filterMap
        Event.progress?).Pairwise (fun a b => a.BytesDone ≤ b.BytesDone) ∧
      ∀ q ∈ (DownloadFile (chunkedEnv 10 [[1, 2, 3], [], [4, 5]] [6, 7, 8, 9, 10] .eof)
          (msg "http://h/a.bin") (msg "d") ⟨fsRootOnly, 0⟩).2.2.filterMap Event.progress?,
        0 < q.BytesTotal → q.BytesDone ≤ q.BytesTotal) :=
  ⟨⟨by decide, by decide⟩, by decide,
    DownloadFile_bytes_monotone (chunkedEnv 10 [[1, 2, 3], [], [4, 5]] [6, 7, 8, 9, 10] .eof)
      (msg "http://h/a.bin") (msg "d") ⟨fsRootOnly, 0⟩
      (fun sc status total body h => by
        have h1 : HTTPResult.response 200 (msg "200 OK") 10
            ⟨[[1, 2, 3], [], [4, 5]], [6, 7, 8, 9, 10], .eof⟩
            = HTTPResult.response sc status total body := h
        injection h1 with _ _ ht hb
        subst ht; subst hb
        exact ⟨by decide, fun _ => by decide⟩)⟩

/-- The eight paths through `DownloadFile` on small worlds, each with its result and the
snapshots it hands to the callback (`BytesDone`, `BytesTotal`, `Done`, `Err`): the directory
cannot be made; the file exists; the network fails; the status is 404; the file cannot be
created; a write fails; a read fails after three of five bytes; the body ends cleanly. -/
theorem DownloadFile_paths_sample :
    ((DownloadFile offlineEnv (msg "http://h/a.bin") [] ⟨fsRootOnly, 0⟩).2.2.filterMap
        Event.progress?).map Progress.summary
      = [(0, 0, false, some (msg "no such file or directory"))] ∧
    ((DownloadFile offlineEnv (msg "http://h/a.bin") (msg "d") ⟨fsWithDABin, 0⟩).2.2.filterMap
        Event.progress?).map Progress.summary
      = [(3, 3, true, none)] ∧
    ((DownloadFile offlineEnv (msg "http://h/a.bin") (msg "d") ⟨fsRootOnly, 0⟩).2.2.filterMap
        Event.progress?).map Progress.summary
      = [(0, 0, false, some (msg "dial tcp: connection refused"))] ∧
    ((DownloadFile notFoundEnv (msg "http://h/a.bin") (msg "d") ⟨fsRootOnly, 0⟩).2.2.filterMap
        Event.progress?).map Progress.summary
      = [(0, 0, false, some (msg "http error: 404 Not Found"))] ∧
    ((DownloadFile (chunkedEnv 5 [[1, 2, 3]] [4, 5] .eof) (msg "http://h/a.bin") (msg "d")
        ⟨fsDenying .create, 0⟩).2.2.filterMap Event.progress?).map Progress.summary
      = [(0, 5, false, some (msg "permission denied"))] ∧
    ((DownloadFile (chunkedEnv 5 [[1, 2, 3]] [4, 5] .eof) (msg "http://h/a.bin") (msg "d")
        ⟨fsDenying .write, 0⟩).2.2.filterMap Event.progress?).map Progress.summary
      = [(0, 5, false, some (msg "write failed"))] ∧
    ((DownloadFile (chunkedEnv 5 [[1, 2, 3]] [] (.fail (msg "connection reset")))
        (msg "http://h/a.bin") (msg "d") ⟨fsRootOnly, 0⟩).2.2.filterMap
        Event.progress?).map Progress.summary
      = [(3, 5, false, none), (3, 5, false, some (msg "connection reset"))] ∧
    ((DownloadFile (chunkedEnv 5 [[1, 2, 3]] [4, 5] .eof) (msg "http://h/a.bin") (msg "d")
        ⟨fsRootOnly, 0⟩).2.2.filterMap Event.progress?).map Progress.summary
      = [(3, 5, false, none), (5, 5, false, none), (5, 5, true, none)] := by
  refine ⟨by decide, by decide, by decide, by decide, by decide, by decide, by decide,
    by decide⟩

/-! ## Theorems: `FormatBytes` -/

section FormatBytesFacts

set_option maxRecDepth 100000

/-- The count zero is printed as `0 Bytes`, whatever the number of decimals and the
library. -/
theorem FormatBytes_zero (logIndex : Int → Int) (decimals : Int) :
    FormatBytes logIndex 0 decimals = some (msg "0 Bytes") := by
  simp [FormatBytes]

/-- The logarithm of Go puts every power of 1024 that an `int64` can hold into its own
unit, and 1536 between 1024 and 1024². -/
theorem goLogIndex_powers :
    goLogIndex 1 = 0 ∧ goLogIndex 1024 = 1 ∧ goLogIndex 1536 = 1 ∧ goLogIndex 1048576 = 2 ∧
    goLogIndex 1073741824 = 3 ∧ goLogIndex 1099511627776 = 4 ∧
    goLogIndex 1125899906842624 = 5 ∧ goLogIndex 1152921504606846976 = 6 := by
  refine ⟨by decide, by decide, by decide, by decide, by decide, by decide, by decide,
    by decide⟩

/-- The example of the specification: 1536 bytes with two decimals are `1.50 KB`. -/
theorem FormatBytes_example : FormatBytes goLogIndex 1536 2 = some (msg "1.50 KB") := by
  decide

/-- C14. `FormatBytes` converts the count to `float64` before anything else, and
`2^60 - 1 = 1152921504606846975` is rounded to `2^60` there.  So with every mathematics
library the text for `2^60 - 1` is the text for `2^60`, and with the logarithm of Go it is
`1.00 EB`; the largest power of 1024 that does not exceed `2^60 - 1` is `1024^5`, for which
the specification gives `1024.00 PB`.  The count `2^50 - 1 = 1125899906842623` is a
`float64`, but its logarithm is rounded to that of `2^50`: the code prints `1.00 PB` where
the specification gives `1024.00 TB`. -/
theorem FormatBytes_rounds_count (logIndex : Int → Int) :
    (toFloat64 1152921504606846975 = 1152921504606846976 ∧
      FormatBytes logIndex 1152921504606846975 2 = FormatBytes logIndex 1152921504606846976 2 ∧
      FormatBytes goLogIndex 1152921504606846975 2 = some (msg "1.00 EB") ∧
      FormatBytesSpec 1152921504606846975 2 = msg "1024.00 PB" ∧
      FormatBytesSpec 1152921504606846976 2 = msg "1.00 EB") ∧
    (toFloat64 1125899906842623 = 1125899906842623 ∧
      FormatBytes goLogIndex 1125899906842623 2 = some (msg "1.00 PB") ∧
      FormatBytesSpec 1125899906842623 2 = msg "1024.00 TB") := by
  have h1 : toFloat64 1152921504606846975 = 1152921504606846976 := by decide
  have h2 : toFloat64 1152921504606846976 = 1152921504606846976 := by decide
  refine ⟨⟨h1, ?_, by decide, by decide, by decide⟩, ⟨by decide, by decide, by decide⟩⟩
  unfold FormatBytes
  simp only [h1, h2]
  rfl

end FormatBytesFacts

/-! ## Theorems: the bounded batch -/

theorem countP_set_add {α : Type} (p : α → Bool) : ∀ (l : List α) (j : Nat) (a b : α),
    l[j]? = some a →
    (l.set j b).countP p + (if p a = true then 1 else 0)
      = l.countP p + (if p b = true then 1 else 0) := by
  intro l
  induction l with
  | nil => intro j a b h; simp at h
  | cons x xs ih =>
    intro j a b h
    cases j with
    | zero =>
      simp only [List.getElem?_cons_zero, Option.some.injEq] at h
      subst h
      simp only [List.set_cons_zero, List.countP_cons]
      omega
    | succ k =>
      simp only [List.getElem?_cons_succ] at h
      have := ih k a b h
      simp only [List.set_cons_succ, List.countP_cons]
      omega

theorem rank_sum_set : ∀ (l : List JobPC) (j : Nat) (a b : JobPC), l[j]? = some a →
    ((l.set j b).map JobPC.rank).sum + a.rank = (l.map JobPC.rank).sum + b.rank := by
  intro l
  induction l with
  | nil => intro j a b h; simp at h
  | cons x xs ih =>
    intro j a b h
    cases j with
    | zero =>
      simp only [List.getElem?_cons_zero, Option.some.injEq] at h
      subst h
      simp only [List.set_cons_zero, List.map_cons, List.sum_cons]
      omega
    | succ k =>
      simp only [List.getElem?_cons_succ] at h
      have := ih k a b h
      simp only [List.set_cons_succ, List.map_cons, List.sum_cons]
      omega

theorem getElem?_lt {α : Type} {l : List α} {j : Nat} {a : α} (h : l[j]? = some a) :
    j < l.length := by
  obtain ⟨hlt, _⟩ := List.getElem?_eq_some.1 h
  exact hlt

theorem Sched.inv_init (n limit : Nat) : Sched.Inv n limit (Sched.init n) := by
  refine ⟨by simp [Sched.init], ?_, by simp [Sched.init], by simp [Sched.init], ?_, by simp [Sched.init],
    ?_, ?_⟩
  · simp [Sched.init, Sched.holders, List.countP_replicate, JobPC.holding]
  · intro j hj
    simp [Sched.init, List.getElem?_replicate, hj]
  · intro j
    simp [Sched.init, List.getElem?_replicate]
  · simp [Sched.init, List.countP_replicate, JobPC.isDone]

/-- Replacing the state of one job that is neither idle nor done before or after. -/
theorem Sched.inv_update {n limit : Nat} {s : Sched} (h : Sched.Inv n limit s) {j : Nat}
    {a b : JobPC} (hj : s.jobs[j]? = some a) (ha : a ≠ .idle) (hb : b ≠ .idle)
    (ha' : a ≠ .done) (hb' : b ≠ .done) (sem' : Nat)
    (hsem : sem' + (if a.holding = true then 1 else 0)
      = s.sem + (if b.holding = true then 1 else 0))
    (hbound : sem' ≤ limit) :
    Sched.Inv n limit { s with jobs := s.jobs.set j b, sem := sem' } := by
  have hlt := getElem?_lt hj
  have hget : ∀ i, (s.jobs.set j b)[i]? = if j = i then some b else s.jobs[i]? := by
    intro i
    rw [List.getElem?_set]
    by_cases hji : j = i
    · subst hji; simp [hlt]
    · simp [hji]
  refine ⟨by simpa using h.size, ?_, hbound, h.launchedLe, ?_, h.nodup, ?_, ?_⟩
  · have := countP_set_add JobPC.holding s.jobs j a b hj
    have hs := h.slots
    simp only [Sched.holders] at hs ⊢
    omega
  · intro i hi
    simp only [hget]
    by_cases hji : j = i
    · subst hji
      have := (h.idleIff j hi)
      rw [hj] at this
      simp only [if_true, Option.some.injEq]
      constructor
      · intro hbi; exact absurd hbi hb
      · intro hle; exact absurd (Option.some.inj (this.2 hle)) ha
    · simp only [if_neg hji]
      exact h.idleIff i hi
  · intro i
    simp only [hget]
    by_cases hji : j = i
    · subst hji
      have := h.doneIff j
      rw [hj] at this
      simp only [if_true, Option.some.injEq]
      constructor
      · intro hm; exact absurd (Option.some.inj (this.1 hm)) ha'
      · intro hbd; exact absurd hbd hb'
    · simp only [if_neg hji]
      exact h.doneIff i
  · have := countP_set_add JobPC.isDone s.jobs j a b hj
    have hc := h.count
    have hda : a.isDone = false := by cases a <;> simp_all [JobPC.isDone]
    have hdb : b.isDone = false := by cases b <;> simp_all [JobPC.isDone]
    simp only [hda, hdb] at this
    simp only at hc ⊢
    omega

theorem Sched.inv_exec {n limit : Nat} {s s' : Sched} (h : Sched.Inv n limit s) (a : Action)
    (hx : s.exec limit a = some s') : Sched.Inv n limit s' := by
  cases a with
  | launch =>
    simp only [Sched.exec] at hx
    split at hx
    · rename_i hlt
      simp only [Option.some.injEq] at hx
      subst hx
      have hn : s.launched < n := by rw [← h.size]; exact hlt
      have hidle : s.jobs[s.launched]? = some .idle := (h.idleIff _ hn).2 (le_refl _)
      have hget : ∀ i, (s.jobs.set s.launched .waiting)[i]?
          = if s.launched = i then some .waiting else s.jobs[i]? := by
        intro i
        rw [List.getElem?_set]
        by_cases hji : s.launched = i
        · rw [if_pos hji, if_pos hlt, if_pos hji]
        · rw [if_neg hji, if_neg hji]
      refine ⟨by simpa using h.size, ?_, h.bound, hn, ?_, h.nodup, ?_, ?_⟩
      · have := countP_set_add JobPC.holding s.jobs s.launched .idle .waiting hidle
        have hs := h.slots
        simp only [Sched.holders, JobPC.holding] at hs this ⊢
        omega
      · intro i hi
        simp only [hget]
        by_cases hji : s.launched = i
        · simp only [if_pos hji, Option.some.injEq]
          constructor
          · intro hw; exact absurd hw (by simp)
          · intro hle; omega
        · simp only [if_neg hji]
          rw [h.idleIff i hi]
          omega
      · intro i
        simp only [hget]
        by_cases hji : s.launched = i
        · simp only [if_pos hji, Option.some.injEq]
          have := h.doneIff i
          rw [← hji, hidle] at this
          constructor
          · intro hm
            rw [← hji] at hm
            exact absurd (Option.some.inj (this.1 hm)) (by simp)
          · intro hw; exact absurd hw (by simp)
        · simp only [if_neg hji]
          exact h.doneIff i
      · have := countP_set_add JobPC.isDone s.jobs s.launched .idle .waiting hidle
        have hc := h.count
        simp only [JobPC.isDone] at this
        simp only at hc ⊢
        omega
    · simp at hx
  | acquire j =>
    simp only [Sched.exec] at hx
    split at hx
    · rename_i hg
      simp only [Option.some.injEq] at hx
      subst hx
      exact Sched.inv_update h hg.1 (by simp) (by simp) (by simp) (by simp) (s.sem + 1)
        (by simp [JobPC.holding]) (by omega)
    · simp at hx
  | finish j err =>
    simp only [Sched.exec] at hx
    split at hx
    · rename_i hg
      simp only [Option.some.injEq] at hx
      subst hx
      exact Sched.inv_update h hg (by simp) (by simp) (by simp) (by simp) s.sem
        (by simp [JobPC.holding]) h.bound
    · simp at hx
  | release j =>
    simp only [Sched.exec] at hx
    split at hx
    · rename_i err hg
      split at hx
      · rename_i hpos
        simp only [Option.some.injEq] at hx
        subst hx
        have hb := h.bound
        exact Sched.inv_update h hg (by simp) (by simp) (by simp) (by simp) (s.sem - 1)
          (by simp [JobPC.holding]; omega) (by omega)
      · simp at hx
    · simp at hx
  | deliver j =>
    simp only [Sched.exec] at hx
    split at hx
    · rename_i err hg
      split at hx
      · simp only [Option.some.injEq] at hx
        subst hx
        have hlt := getElem?_lt hg
        have hget : ∀ i, (s.jobs.set j .done)[i]?
            = if j = i then some .done else s.jobs[i]? := by
          intro i
          rw [List.getElem?_set]
          by_cases hji : j = i
          · subst hji; simp [hlt]
          · simp [hji]
        have hnot : j ∉ s.results.map Prod.fst := by
          intro hm
          have := (h.doneIff j).1 hm
          rw [hg] at this
          exact absurd (Option.some.inj this) (by simp)
        refine ⟨by simpa using h.size, ?_, h.bound, h.launchedLe, ?_, ?_, ?_, ?_⟩
        · have := countP_set_add JobPC.holding s.jobs j (.sending err) .done hg
          have hs := h.slots
          simp only [Sched.holders, JobPC.holding] at hs this ⊢
          omega
        · intro i hi
          simp only [hget]
          by_cases hji : j = i
          · subst hji
            simp only [if_true, Option.some.injEq]
            have := h.idleIff j hi
            rw [hg] at this
            constructor
            · intro hw; exact absurd hw (by simp)
            · intro hle; exact absurd (Option.some.inj (this.2 hle)) (by simp)
          · simp only [if_neg hji]
            exact h.idleIff i hi
        · simp only [List.map_append, List.map_cons, List.map_nil]
          rw [List.nodup_append]
          refine ⟨h.nodup, by simp, ?_⟩
          intro x hx1 hx2
          simp only [List.mem_singleton] at hx2
          subst hx2
          exact hnot hx1
        · intro i
          simp only [hget, List.map_append, List.map_cons, List.map_nil, List.mem_append,
            List.mem_singleton]
          by_cases hji : j = i
          · subst hji; simp
          · simp only [if_neg hji]
            rw [← h.doneIff i]
            constructor
            · rintro (h1 | h1)
              · exact h1
              · exact absurd h1.symm hji
            · intro h1; exact Or.inl h1
        · have := countP_set_add JobPC.isDone s.jobs j (.sending err) .done hg
          have hc := h.count
          simp only [JobPC.isDone, if_true, Bool.false_eq_true, if_false] at this
          simp only [List.length_append, List.length_singleton] at hc ⊢
          omega
      · simp at hx
    · simp at hx

theorem Sched.stepsLeft_exec {n limit : Nat} {s s' : Sched} (h : Sched.Inv n limit s)
    (a : Action) (hx : s.exec limit a = some s') : s'.stepsLeft + 1 = s.stepsLeft := by
  cases a with
  | launch =>
    simp only [Sched.exec] at hx
    split at hx
    · rename_i hlt
      simp only [Option.some.injEq] at hx
      subst hx
      have hn : s.launched < n := by rw [← h.size]; exact hlt
      have hidle : s.jobs[s.launched]? = some .idle := (h.idleIff _ hn).2 (le_refl _)
      have := rank_sum_set s.jobs s.launched .idle .waiting hidle
      simp only [Sched.stepsLeft, JobPC.rank] at this ⊢
      omega
    · simp at hx
  | acquire j =>
    simp only [Sched.exec] at hx
    split at hx
    · rename_i hg
      simp only [Option.some.injEq] at hx
      subst hx
      have := rank_sum_set s.jobs j .waiting .running hg.1
      simp only [Sched.stepsLeft, JobPC.rank] at this ⊢
      omega
    · simp at hx
  | finish j err =>
    simp only [Sched.exec] at hx
    split at hx
    · rename_i hg
      simp only [Option.some.injEq] at hx
      subst hx
      have := rank_sum_set s.jobs j .running (.returned err) hg
      simp only [Sched.stepsLeft, JobPC.rank] at this ⊢
      omega
    · simp at hx
  | release j =>
    simp only [Sched.exec] at hx
    split at hx
    · rename_i err hg
      split at hx
      · simp only [Option.some.injEq] at hx
        subst hx
        have := rank_sum_set s.jobs j (.returned err) (.sending err) hg
        simp only [Sched.stepsLeft, JobPC.rank] at this ⊢
        omega
      · simp at hx
    · simp at hx
  | deliver j =>
    simp only [Sched.exec] at hx
    split at hx
    · rename_i err hg
      split at hx
      · simp only [Option.some.injEq] at hx
        subst hx
        have := rank_sum_set s.jobs j (.sending err) .done hg
        simp only [Sched.stepsLeft, JobPC.rank] at this ⊢
        omega
      · simp at hx
    · simp at hx

theorem Sched.inv_run {n limit : Nat} : ∀ (as : List Action) (s s' : Sched),
    Sched.Inv n limit s → Sched.run limit as s = some s' →
    Sched.Inv n limit s' ∧ s'.stepsLeft + as.length = s.stepsLeft := by
  intro as
  induction as with
  | nil =>
    intro s s' h hr
    simp only [Sched.run, Option.some.injEq] at hr
    subst hr
    exact ⟨h, rfl⟩
  | cons a as ih =>
    intro s s' h hr
    simp only [Sched.run] at hr
    cases hx : s.exec limit a with
    | none => rw [hx] at hr; simp at hr
    | some s1 =>
      rw [hx] at hr
      have h1 := Sched.inv_exec h a hx
      have hs := Sched.stepsLeft_exec h a hx
      obtain ⟨h2, hl⟩ := ih s1 s' h1 hr
      refine ⟨h2, ?_⟩
      simp only [List.length_cons]
      omega

theorem sum_eq_zero_of_all_zero : ∀ l : List Nat, (∀ x ∈ l, x = 0) → l.sum = 0 := by
  intro l
  induction l with
  | nil => intro _; rfl
  | cons x xs ih =>
    intro h
    rw [List.sum_cons, h x (by simp), ih (fun y hy => h y (List.mem_cons_of_mem _ hy))]

theorem all_zero_of_sum_eq_zero : ∀ l : List Nat, l.sum = 0 → ∀ x ∈ l, x = 0 := by
  intro l
  induction l with
  | nil => intro _ x hx; simp at hx
  | cons y ys ih =>
    intro h x hx
    rw [List.sum_cons] at h
    rcases List.mem_cons.1 hx with h1 | h1
    · omega
    · exact ih (by omega) x h1

theorem JobPC.rank_eq_zero {pc : JobPC} (h : pc.rank = 0) : pc = .done := by
  cases pc <;> simp [JobPC.rank] at h ⊢

/-- When no step is left every job is done and every result is in. -/
theorem Sched.finished {n limit : Nat} {s : Sched} (h : Sched.Inv n limit s)
    (h0 : s.stepsLeft = 0) :
    s.results.length = n ∧ ∀ j, j < n → j ∈ s.results.map Prod.fst := by
  have hall : ∀ pc ∈ s.jobs, pc = JobPC.done := by
    intro pc hpc
    apply JobPC.rank_eq_zero
    exact all_zero_of_sum_eq_zero _ h0 _ (List.mem_map_of_mem _ hpc)
  constructor
  · rw [h.count, ← h.size, List.countP_eq_length]
    intro pc hpc
    rw [hall pc hpc]; rfl
  · intro j hj
    rw [h.doneIff]
    have hlt : j < s.jobs.length := by rw [h.size]; exact hj
    rw [List.getElem?_eq_getElem hlt, hall _ (List.getElem_mem hlt)]

theorem Sched.exec_launch (limit : Nat) (s : Sched) (h : s.launched < s.jobs.length) :
    s.exec limit .launch
      = some { s with jobs := s.jobs.set s.launched .waiting, launched := s.launched + 1 } := by
  simp [Sched.exec, h]

theorem Sched.exec_acquire (limit : Nat) (s : Sched) (j : Nat)
    (h : s.jobs[j]? = some .waiting) (hs : s.sem < limit) :
    s.exec limit (.acquire j)
      = some { s with jobs := s.jobs.set j .running, sem := s.sem + 1 } := by
  simp [Sched.exec, h, hs]

theorem Sched.exec_finish (limit : Nat) (s : Sched) (j : Nat) (err : Option GoError)
    (h : s.jobs[j]? = some .running) :
    s.exec limit (.finish j err) = some { s with jobs := s.jobs.set j (.returned err) } := by
  simp [Sched.exec, h]

theorem Sched.exec_release (limit : Nat) (s : Sched) (j : Nat) (err : Option GoError)
    (h : s.jobs[j]? = some (.returned err)) (hs : 0 < s.sem) :
    s.exec limit (.release j)
      = some { s with jobs := s.jobs.set j (.sending err), sem := s.sem - 1 } := by
  simp [Sched.exec, h, hs]

theorem Sched.exec_deliver (limit : Nat) (s : Sched) (j : Nat) (err : Option GoError)
    (h : s.jobs[j]? = some (.sending err)) (hl : s.launched = s.jobs.length)
    (hr : s.results.length < s.jobs.length) :
    s.exec limit (.deliver j)
      = some { s with jobs := s.jobs.set j .done, results := s.results ++ [(j, err)] } := by
  simp [Sched.exec, h, hl, hr]

theorem Sched.sem_pos_of_holder {n limit : Nat} {s : Sched} (h : Sched.Inv n limit s) {j : Nat}
    {pc : JobPC} (hj : s.jobs[j]? = some pc) (hp : pc.holding = true) : 0 < s.sem := by
  rw [h.slots, Sched.holders, List.countP_pos_iff]
  exact ⟨pc, List.mem_iff_getElem?.2 ⟨j, hj⟩, hp⟩

/-- As long as steps are left, some participant can take one: the batch cannot get stuck. -/
theorem Sched.progress {n limit : Nat} {s : Sched} (h : Sched.Inv n limit s)
    (hL : 1 ≤ limit) (h0 : s.stepsLeft ≠ 0) : ∃ a s', s.exec limit a = some s' := by
  classical
  by_cases hl : s.launched < s.jobs.length
  · exact ⟨.launch, _, Sched.exec_launch limit s hl⟩
  · have hlaunched : s.launched = s.jobs.length := by
      have := h.launchedLe
      have := h.size
      omega
    by_cases hret : ∃ (j : Nat) (err : Option GoError), s.jobs[j]? = some (JobPC.returned err)
    · obtain ⟨j, err, hj⟩ := hret
      exact ⟨.release j, _, Sched.exec_release limit s j err hj (Sched.sem_pos_of_holder h hj rfl)⟩
    · by_cases hrun : ∃ j : Nat, s.jobs[j]? = some JobPC.running
      · obtain ⟨j, hj⟩ := hrun
        exact ⟨.finish j none, _, Sched.exec_finish limit s j none hj⟩
      · by_cases hsend : ∃ (j : Nat) (err : Option GoError), s.jobs[j]? = some (JobPC.sending err)
        · obtain ⟨j, err, hj⟩ := hsend
          have hlt : s.results.length < s.jobs.length := by
            rw [h.count]
            apply lt_of_le_of_ne (List.countP_le_length _)
            intro heq
            have := (List.countP_eq_length.1 heq) _ (List.mem_iff_getElem?.2 ⟨j, hj⟩)
            simp [JobPC.isDone] at this
          exact ⟨.deliver j, _, Sched.exec_deliver limit s j err hj hlaunched hlt⟩
        · -- every job that is not done is waiting, and no slot is taken
          have hex : ∃ pc ∈ s.jobs, pc.rank ≠ 0 := by
            by_contra hno
            push_neg at hno
            apply h0
            apply sum_eq_zero_of_all_zero
            intro x hx
            obtain ⟨pc, hpc, rfl⟩ := List.mem_map.1 hx
            exact hno pc hpc
          obtain ⟨pc, hpc, hr⟩ := hex
          obtain ⟨j, hj⟩ := List.mem_iff_getElem?.1 hpc
          have hjn : j < n := by rw [← h.size]; exact getElem?_lt hj
          have hw : pc = .waiting := by
            cases pc with
            | idle =>
              have := (h.idleIff j hjn).1 hj
              have := getElem?_lt hj
              omega
            | waiting => rfl
            | running => exact absurd ⟨j, hj⟩ hrun
            | returned err => exact absurd ⟨j, err, hj⟩ hret
            | sending err => exact absurd ⟨j, err, hj⟩ hsend
            | done => simp [JobPC.rank] at hr
          subst hw
          have hsem : s.sem = 0 := by
            rw [h.slots, Sched.holders, List.countP_eq_zero]
            intro x hx hh
            obtain ⟨i, hi⟩ := List.mem_iff_getElem?.1 hx
            cases x with
            | running => exact hrun ⟨i, hi⟩
            | returned err => exact hret ⟨i, err, hi⟩
            | idle => simp [JobPC.holding] at hh
            | waiting => simp [JobPC.holding] at hh
            | sending err => simp [JobPC.holding] at hh
            | done => simp [JobPC.holding] at hh
          exact ⟨.acquire j, _, Sched.exec_acquire limit s j hj (by omega)⟩

/-- C9. In every state the batch of `n` jobs with concurrency limit `limit ≥ 1` can reach:
at most `limit` jobs are between acquiring and releasing a slot, and their number is the
number of slots taken; a job whose download has returned, with or without an error, can
release its slot; the delivered results are of distinct jobs and exactly of the jobs that
are done; every step uses up one of the `5 * n` steps of the batch, the batch cannot get
stuck before they are used up, and when they are, exactly `n` results have been delivered,
one for every job. -/
theorem bulk_download_bounded (n limit : Nat) (hL : 1 ≤ limit) (as : List Action) (s : Sched)
    (hrun : Sched.run limit as (Sched.init n) = some s) :
    s.holders ≤ limit ∧ s.sem = s.holders ∧
    (∀ (j : Nat) (err : Option GoError), s.jobs[j]? = some (JobPC.returned err) →
      ∃ s', s.exec limit (.release j) = some s' ∧ s'.sem + 1 = s.sem) ∧
    (s.results.map Prod.fst).Nodup ∧
    (∀ j, j ∈ s.results.map Prod.fst ↔ s.jobs[j]? = some .done) ∧
    s.results.length ≤ n ∧
    s.stepsLeft + as.length = 5 * n ∧
    (s.stepsLeft ≠ 0 → ∃ a s', s.exec limit a = some s') ∧
    (s.stepsLeft = 0 → s.results.length = n ∧ ∀ j, j < n → j ∈ s.results.map Prod.fst) := by
  obtain ⟨h, hsteps⟩ := Sched.inv_run as _ s (Sched.inv_init n limit) hrun
  have hinit : (Sched.init n).stepsLeft = 5 * n := by
    simp [Sched.init, Sched.stepsLeft, JobPC.rank, Nat.mul_comm]
  refine ⟨by rw [← h.slots]; exact h.bound, h.slots, ?_, h.nodup, h.doneIff, ?_, by omega,
    Sched.progress h hL, Sched.finished h⟩
  · intro j err hj
    have hpos := Sched.sem_pos_of_holder h hj rfl
    refine ⟨_, Sched.exec_release limit s j err hj hpos, ?_⟩
    simp only
    omega
  · rw [h.count, ← h.size]
    exact List.countP_le_length _

/-- Witness for C9: ten jobs with limit three; after all are launched and three have
acquired a slot, three hold one and a fourth cannot acquire. -/
theorem bulk_download_bounded_witness :
    (1 : Nat) ≤ 3 ∧
    (∃ s, Sched.run 3 (List.replicate 10 .launch ++ [.acquire 0, .acquire 1, .acquire 2])
        (Sched.init 10) = some s ∧
      s.holders = 3 ∧ s.exec 3 (.acquire 3) = none ∧ s.holders ≤ 3 ∧
      s.stepsLeft + 13 = 5 * 10) :=
  ⟨by decide,
    ⟨{ jobs := [.running, .running, .running] ++ List.replicate 7 .waiting, sem := 3,
       launched := 10, results := [] },
      by decide, by decide, by decide,
      (bulk_download_bounded 10 3 (by decide)
        (List.replicate 10 .launch ++ [.acquire 0, .acquire 1, .acquire 2]) _ (by decide)).1,
      (bulk_download_bounded 10 3 (by decide)
        (List.replicate 10 .launch ++ [.acquire 0, .acquire 1, .acquire 2]) _
        (by decide)).2.2.2.2.2.2.1⟩⟩

end Myrient
